import Mathlib

/-!
# The stub DNS resolver of `os/net/src/resolver.cpp`

A shallow embedding of `Resolver::Control` (query construction, name skipping and
decoding, response validation, the retransmission loop), followed by the properties
proved about it.

Conventions of the embedding.

* A buffer (`query`, `response`) is a byte-addressed memory `Mem`, a total map from
  offsets to values; a load reduces the stored value modulo 256.  A C pointer into a
  buffer is the offset it designates; the null pointer returned by `skipName` is `none`.
* A `const char*` argument is the list of its characters; the terminating NUL is the end
  of the list (a zero inside the list also ends the string, as it does in C).
* The output `char* name` of `copyName` is the list of the bytes stored through it, in
  order: the cursor only ever moves forward by what was stored.
* `resolver.h` and `dns.h` are not part of the sources at hand.  `NameMax`, `MaxQuery`,
  `MinWait`, `sizeof(DNSRR)` and `DNSRR::Size` are parameters; the header layout, the
  label limit and the type and class codes follow the wire format the specification
  fixes.  The capacities of `query` and `response` are declared there too: a memory has
  no capacity, so that no store falls outside a buffer.
-/

set_option autoImplicit false

namespace Resolver

/-- Byte-addressed memory. -/
abbrev Mem := Nat → Nat

/-- Load of a `u8`. -/
def rd (m : Mem) (a : Nat) : Nat := m a % 256

/-- Store of a `u8`. -/
def wr (m : Mem) (a v : Nat) : Mem := fun x => if x = a then v % 256 else m x

/-- The value `ntohs(*(u16*) p)`: the two bytes at `a`, big-endian. -/
def rd16 (m : Mem) (a : Nat) : Nat := rd m a * 256 + rd m (a + 1)

/-- The store `*(u16*) p = htons(v)`. -/
def wr16 (m : Mem) (a v : Nat) : Mem := wr (wr m a (v % 65536 / 256)) (a + 1) (v % 256)

/-- The bytes `m[a], ..., m[a + n - 1]`. -/
def bytes (m : Mem) (a n : Nat) : List Nat := (List.range n).map (fun k => rd m (a + k))

/-- The memory holding the list `l` from offset 0 on, and zero elsewhere. -/
def ofList (l : List Nat) : Mem := fun a => l.getD a 0

/-- The character `.`. -/
def dotChar : Nat := 46

namespace DNSHdr

/-- Modelled from the spec: `sizeof(DNSHdr)`, declared in the absent `dns.h`; the
message header is 12 bytes, six 16-bit fields in network order. -/
def size : Nat := 12

/-- Modelled from the spec: `DNSHdr::LabelMax`, declared in the absent `dns.h`; the
label length limit is 63 bytes. -/
def LabelMax : Nat := 63

/-- Modelled from the spec: `DNSHdr::Query | DNSHdr::StandardQuery | DNSHdr::RD`,
declared in the absent `dns.h`; in the standard flag word a standard query has QR and
the opcode clear and recursion-desired is bit 8. -/
def queryFlags : Nat := 0x0100

/-- Modelled from the spec: `DNSHdr::getID()`, declared in the absent `dns.h`; the id
field is the first 16-bit field of the header, in network order. -/
def getID (m : Mem) : Nat := rd16 m 0

/-- Modelled from the spec: `DNSHdr::isResponse()`, declared in the absent `dns.h`; the
response flag is the top bit of the flag word, the second 16-bit field. -/
def isResponse (m : Mem) : Bool := decide (rd16 m 2 &&& 0x8000 ≠ 0)

/-- The field `qdcount` after `ntohs`. -/
def qdcount (m : Mem) : Nat := rd16 m 4

/-- The field `ancount` after `ntohs`. -/
def ancount (m : Mem) : Nat := rd16 m 6

end DNSHdr

namespace DNSType

/-- Modelled from the spec: `DNSType::A`, declared in the absent `dns.h`. -/
def A : Nat := 1

/-- Modelled from the spec: `DNSType::PTR`, declared in the absent `dns.h`. -/
def PTR : Nat := 12

end DNSType

namespace DNSClass

/-- Modelled from the spec: `DNSClass::IN`, declared in the absent `dns.h`. -/
def IN : Nat := 1

end DNSClass

/-- The constants of `resolver.h` and `dns.h` whose values the sources at hand do not
give. -/
structure Consts where
  /-- The constant `DNSHdr::NameMax`. -/
  NameMax : Nat
  /-- The constant `Resolver::MaxQuery`. -/
  MaxQuery : Nat
  /-- The constant `Resolver::MinWait`. -/
  MinWait : Nat
  /-- The value `sizeof(DNSRR)`. -/
  sizeofDNSRR : Nat
  /-- The constant `DNSRR::Size`. -/
  DNSRRSize : Nat

/-- The data members of `Resolver::Control` that the functions below use. -/
structure Control where
  /-- Modelled from the spec: the counter `id`, an `Interlocked` declared in absent
  headers; `increment()` adds one and returns the new value, a fresh id per query. -/
  id : Nat
  /-- The buffer `query`. -/
  query : Mem
  /-- The buffer `response`. -/
  response : Mem
  /-- The string `suffix`. -/
  suffix : List Nat

/-- What the socket saw: the calls made on it, in order. -/
inductive IOEvent where
  /-- The call `socket->write(query, len)`, with the bytes written. -/
  | write (data : List Nat)
  /-- The call `socket->setTimeout(TimeSpan(0, 0, seconds))`; `seconds` is an `int`. -/
  | setTimeout (seconds : Int)
  /-- The call `socket->read(response, sizeof response)`. -/
  | read
deriving DecidableEq, Repr

/-- How the handling of one datagram, or a whole lookup, ends. -/
inductive Outcome (α : Type) where
  /-- No result: `continue` or `break` towards the next attempt, for a lookup the
  return of 0 or `false`. -/
  | nothing
  /-- A result was returned. -/
  | found (x : α)
  /-- The null pointer of `skipName` was dereferenced, or `memcmp` ran on beyond the
  datagram: the source does not define what happens next. -/
  | undef
  /-- The call of `copyName` had not returned within the passes allowed. -/
  | outOfFuel
deriving DecidableEq, Repr

namespace Control

/-! ## `Control::a` -/

/-- Writes the six header fields of a query, as the first lines of `Control::a` and
`Control::ptr` do. -/
def stampHeader (query : Mem) (id : Nat) : Mem :=
  let q := wr16 query 0 id
  let q := wr16 q 2 DNSHdr.queryFlags
  let q := wr16 q 4 1
  let q := wr16 q 6 0
  let q := wr16 q 8 0
  wr16 q 10 0

/-- The inner `for` loop of `Control::a`, started with counter `i` and cursor `opt`:
it copies characters up to the next `.` or NUL.  `Except.error q` is `return 0` with the
buffer as it then is; otherwise the result is the counter, the cursor, the buffer and
the rest of the string. -/
def aLabel (NameMax org : Nat) :
    List Nat → Nat → Nat → Mem → Except Mem (Nat × Nat × Mem × List Nat)
  | [], i, opt, q => .ok (i, opt, q, [])
  | c :: cs, i, opt, q =>
    if c = 0 ∨ c = dotChar then .ok (i, opt, q, c :: cs)
    else if DNSHdr.LabelMax ≤ i ∨ NameMax - 1 ≤ opt - org then .error q
    else aLabel NameMax org cs (i + 1) (opt + 1) (wr q opt c)

/-- The `while (*hostName)` loop of `Control::a`.  The first argument bounds the number
of iterations; `aLoop_fuel` shows that the bound `Control::a` passes is never reached
before the string ends.  `Except.error q` is `return 0`; otherwise the result is the
cursor `opt` and the buffer at loop exit. -/
def aLoop (NameMax : Nat) (suffix : List Nat) (org : Nat) :
    Nat → List Nat → Bool → Nat → Mem → Except Mem (Nat × Mem)
  | 0, _, _, opt, q => .ok (opt, q)
  | fuel + 1, hostName, dot, opt, q =>
    if hostName.headD 0 = 0 then .ok (opt, q)
    else
      let count := opt
      match aLabel NameMax org hostName 0 (opt + 1) q with
      | .error q1 => .error q1
      | .ok (i, opt1, q1, rest) =>
        if i = 0 then .error q1
        else
          let q2 := wr q1 count i
          if rest.headD 0 = dotChar then aLoop NameMax suffix org fuel rest.tail true opt1 q2
          else if !dot && suffix.headD 0 ≠ 0 then aLoop NameMax suffix org fuel suffix true opt1 q2
          else aLoop NameMax suffix org fuel rest dot opt1 q2

/-- The function `Control::a(id, hostName)` on the query buffer `query` with the search
suffix `suffix`: the returned length (0 on failure) and the buffer afterwards. -/
def a (NameMax : Nat) (suffix : List Nat) (query : Mem) (id : Nat) (hostName : List Nat) :
    Nat × Mem :=
  let q := stampHeader query id
  let org := DNSHdr.size
  match aLoop NameMax suffix org (hostName.length + suffix.length) hostName false org q with
  | .error q1 => (0, q1)
  | .ok (opt, q1) =>
    if opt = org then (0, q1)
    else
      let q2 := wr q1 opt 0
      let q3 := wr16 q2 (opt + 1) DNSType.A
      let q4 := wr16 q3 (opt + 3) DNSClass.IN
      (opt + 5, q4)

/-! ## `Control::ptr` -/

/-- The text `sprintf` produces for `"%u"` and a `u8` argument. -/
def decimal (x : Nat) : List Nat :=
  if x < 10 then [48 + x]
  else if x < 100 then [48 + x / 10, 48 + x % 10]
  else [48 + x / 100, 48 + x / 10 % 10, 48 + x % 10]

/-- Stores the list `l` at `a, a + 1, ...` (a `memmove` from a constant, or `sprintf`
without its NUL). -/
def wrList (m : Mem) (a : Nat) : List Nat → Mem
  | [] => m
  | c :: cs => wrList (wr m a c) (a + 1) cs

/-- The `for (i = 0; i < 4; ++i)` loop of `Control::ptr`, from iteration `i` on, run for
`n` iterations; `h` is `ntohl(addr.addr)`.  `sprintf` also stores a NUL after the
digits. -/
def ptrLoop (h : Nat) : Nat → Nat → Nat → Mem → Nat × Mem
  | 0, _, opt, q => (opt, q)
  | n + 1, i, opt, q =>
    let count := opt
    let text := decimal (h / 2 ^ (8 * i) % 256)
    let q1 := wr (wrList q (opt + 1) text) (opt + 1 + text.length) 0
    let q2 := wr q1 count text.length
    ptrLoop h n (i + 1) (opt + 1 + rd q2 count) q2

/-- The value `ntohl(addr.addr)` of the four octets `addr`, given in memory (network)
order. -/
def hostOrder (addr : List Nat) : Nat :=
  rd (ofList addr) 0 * 2 ^ 24 + rd (ofList addr) 1 * 2 ^ 16
    + rd (ofList addr) 2 * 2 ^ 8 + rd (ofList addr) 3

/-- The function `Control::ptr(id, addr)`; `addr` is the four octets of `addr.addr` in
memory (network) order. -/
def ptr (query : Mem) (id : Nat) (addr : List Nat) : Nat × Mem :=
  let q := stampHeader query id
  let org := DNSHdr.size
  let h := hostOrder addr
  let (opt, q) := ptrLoop h 4 0 org q
  let q := wr q opt 7
  let q := wrList q (opt + 1) [105, 110, 45, 97, 100, 100, 114]
  let opt := opt + 8
  let q := wr q opt 4
  let q := wrList q (opt + 1) [97, 114, 112, 97]
  let opt := opt + 5
  let q := wr q opt 0
  let opt := opt + 1
  let q := wr16 q opt DNSType.PTR
  let q := wr16 q (opt + 2) DNSClass.IN
  (opt + 4, q)

/-! ## `Control::skipName` -/

/-- The `while (ptr < end)` loop of `Control::skipName`; the first argument bounds the
iterations, and `skipName` passes `end - ptr`, which the cursor exhausts no later than
it reaches `end`.  `none` is the null pointer. -/
def skipNameLoop (m : Mem) (end_ : Nat) : Nat → Nat → Option Nat
  | 0, _ => some end_
  | fuel + 1, ptr =>
    if ptr < end_ then
      if rd m ptr = 0 then
        some (if ptr + 1 ≤ end_ then ptr + 1 else end_)
      else
        let count := rd m ptr
        if count &&& 0xc0 ≠ 0 then
          if count &&& 0xc0 ≠ 0xc0 then none
          else some (if ptr + 2 ≤ end_ then ptr + 2 else end_)
        else skipNameLoop m end_ fuel (ptr + 1 + count)
    else some end_

/-- The function `Control::skipName(ptr, end)` on the memory `m`. -/
def skipName (m : Mem) (ptr end_ : Nat) : Option Nat :=
  skipNameLoop m end_ (end_ - ptr) ptr

/-! ## `Control::copyName` -/

/-- The variables of `Control::copyName` between two iterations: the read cursor, the
remaining budget, the bytes stored through `name` so far, and (for the statements
about loads) the offsets loaded so far, oldest first. -/
structure CopyState where
  /-- The read cursor. -/
  ptr : Nat
  /-- The remaining output budget. -/
  namelen : Nat
  /-- The bytes stored through `name`, in order. -/
  name : List Nat
  /-- The offsets loaded from the message, in order. -/
  reads : List Nat
deriving DecidableEq, Repr

/-- One pass through the body of the `while` loop of `Control::copyName`: either the
loop goes on in a new state, or the function returns. -/
inductive CopyStep where
  /-- The loop goes on. -/
  | next (s : CopyState)
  /-- The function returns `r`. -/
  | ret (r : Bool) (s : CopyState)
deriving DecidableEq, Repr

/-- The loop test and body of `Control::copyName`. -/
def copyNameStep (m : Mem) (dns end_ : Nat) (s : CopyState) : CopyStep :=
  if dns ≤ s.ptr ∧ s.ptr < end_ then
    let count := rd m s.ptr
    let s1 := { s with reads := s.reads ++ [s.ptr] }
    if count &&& 0xc0 ≠ 0 then
      if count &&& 0xc0 ≠ 0xc0 then .ret false s1
      else
        .next { s1 with
          ptr := dns + (rd16 m s.ptr &&& 0x3fff)
          reads := s1.reads ++ [s.ptr, s.ptr + 1] }
    else if end_ ≤ s.ptr + count then .ret false s1
    else if s.namelen < count + 1 then .ret false s1
    else
      let ptr1 := s.ptr + 1
      let s2 := { s1 with
        ptr := ptr1 + count
        namelen := s.namelen - (count + 1)
        name := s.name ++ bytes m ptr1 count
        reads := s1.reads ++ (List.range count).map (fun k => ptr1 + k) ++ [ptr1 + count] }
      if rd m (ptr1 + count) ≠ 0 then .next { s2 with name := s2.name ++ [dotChar] }
      else .ret true { s2 with name := s2.name ++ [0] }
  else .ret false s

/-- The function `Control::copyName` run for at most `fuel` passes of its loop: `none`
when it has not returned by then. -/
def copyNameRun (m : Mem) (dns end_ : Nat) : Nat → CopyState → Option (Bool × CopyState)
  | 0, _ => none
  | fuel + 1, s =>
    match copyNameStep m dns end_ s with
    | .ret r s1 => some (r, s1)
    | .next s1 => copyNameRun m dns end_ fuel s1

/-- The state in which `Control::copyName(dns, ptr, end, name)` enters its loop. -/
def copyInit (NameMax ptr : Nat) : CopyState :=
  { ptr := ptr, namelen := NameMax, name := [], reads := [] }

/-- The call `Control::copyName(dns, ptr, end, name)` on the memory `m`, run for at
most `fuel` passes. -/
def copyName (NameMax : Nat) (m : Mem) (dns ptr end_ : Nat) (fuel : Nat) :
    Option (Bool × CopyState) :=
  copyNameRun m dns end_ fuel (copyInit NameMax ptr)

/-- The state of `Control::copyName` after `n` passes of its loop, when it has not
returned before. -/
def copyNameIter (m : Mem) (dns end_ : Nat) : Nat → CopyState → Option CopyState
  | 0, s => some s
  | n + 1, s =>
    match copyNameStep m dns end_ s with
    | .ret _ _ => none
    | .next s1 => copyNameIter m dns end_ n s1

/-! ## `Control::getHostByName` and `Control::getHostName` -/

/-- The checks both lookups make on a datagram before they look at its answers: the
length, the header, the room for type and class after the question name, and the echo
of the question.  `rlen` is what `read` returned, `m` the buffer `response` after the
read.  `Outcome.found opt` is the cursor after the question.

`rlen <= sizeof(DNSHdr)` compares an `int` with a `size_t`, hence as unsigned numbers:
a negative `rlen` passes it (and, according to the header left in the buffer, the next
test), but then `end = response + rlen` lies before the cursor, `skipName` returns `end`
at once and `end < opt + 4` holds.

When `skipName` returns the null pointer, `opt` is the address 0 and the code goes on
with it: `end < opt + 4` is false, `opt += 4`, `len < opt - response` is false, the
difference being negative, and `memcmp` is called with the length
`opt - (response + sizeof(DNSHdr))` wrapped to a `size_t`.  It compares from offset 12
on and returns non-zero at the first byte in which `query` and `response` differ, so a
difference inside the datagram makes the code `continue`.  Only when the two agree up to
`end` does the comparison run on beyond the datagram: `Outcome.undef`. -/
def validate (query : Mem) (len xid : Nat) (rlen : Int) (m : Mem) : Outcome Nat :=
  if (rlen % 2 ^ 32).toNat ≤ DNSHdr.size then .nothing
  else if DNSHdr.getID m ≠ xid ∨ !DNSHdr.isResponse m ∨ DNSHdr.qdcount m ≠ 1
      ∨ DNSHdr.ancount m = 0 then .nothing
  else if rlen < 0 then .nothing
  else
    let end_ := rlen.toNat
    match skipName m DNSHdr.size end_ with
    | none =>
      if bytes query DNSHdr.size (end_ - DNSHdr.size)
          ≠ bytes m DNSHdr.size (end_ - DNSHdr.size) then .nothing
      else .undef
    | some opt =>
      if end_ < opt + 4 then .nothing
      else
        let opt := opt + 4
        if len < opt ∨ bytes query DNSHdr.size (opt - DNSHdr.size)
            ≠ bytes m DNSHdr.size (opt - DNSHdr.size) then .nothing
        else .found opt

/-- The `for (i = 0; i < ancount; ++i)` loop of `Control::getHostByName` with `n`
iterations left and the cursor at `opt`.  A `continue` leaves the cursor where
`skipName` put it.  The record fields are read at their wire offsets: type 0, class 2,
rdlength 8.  The result is the four octets handed to `getHostByAddress`. -/
def answersA (C : Consts) (m : Mem) (end_ : Nat) : Nat → Nat → Outcome (List Nat)
  | 0, _ => .nothing
  | n + 1, opt =>
    match skipName m opt end_ with
    | none => .undef
    | some opt1 =>
      if end_ - opt1 < C.sizeofDNSRR then answersA C m end_ n opt1
      else if rd16 m opt1 ≠ DNSType.A ∨ rd16 m (opt1 + 2) ≠ DNSClass.IN
          ∨ rd16 m (opt1 + 8) ≠ 4 then answersA C m end_ n opt1
      else if end_ < opt1 + C.DNSRRSize + rd16 m (opt1 + 8) then .nothing
      else .found (bytes m (opt1 + C.DNSRRSize) 4)

/-- What `Control::getHostByName` does with one datagram. -/
def attemptA (C : Consts) (query : Mem) (len xid : Nat) (rlen : Int) (m : Mem) :
    Outcome (List Nat) :=
  match validate query len xid rlen m with
  | .found opt => answersA C m rlen.toNat (DNSHdr.ancount m) opt
  | .nothing => .nothing
  | .undef => .undef
  | .outOfFuel => .outOfFuel

/-- The expression `MinWait << rxmitCount` on 32-bit `int`s, as the compiled code
evaluates it: the count is taken modulo 32 and the low 32 bits of the product are read in
two's complement.  While `x * 2 ^ k` fits an `int` this is `x * 2 ^ k`; from bit 31 on
the value leaves the naturals (`1 << 31` is `-2147483648`, `1 << 32` is `1`). -/
def shlInt (x : Int) (k : Nat) : Int := Int.bmod (x * 2 ^ (k % 32)) (2 ^ 32)

/-- The retransmission loop of `Control::getHostByName` with `n` attempts left.  `recv k`
is what the read of attempt `k` returns and leaves in `response`.  The result comes
with the final `response` and the socket calls made. -/
def rxmitA (C : Consts) (query : Mem) (len xid : Nat) (recv : Nat → Int × Mem) :
    Nat → Nat → Mem → List IOEvent → Outcome (List Nat) × Mem × List IOEvent
  | 0, _, response, io => (.nothing, response, io)
  | n + 1, rxmitCount, _, io =>
    let io1 := io ++ [.write (bytes query 0 len),
      .setTimeout (shlInt C.MinWait rxmitCount), .read]
    let r := recv rxmitCount
    match attemptA C query len xid r.1 r.2 with
    | .nothing => rxmitA C query len xid recv n (rxmitCount + 1) r.2 io1
    | o => (o, r.2, io1)

/-- The function `Control::getHostByName(hostName, addressFamily)`; `hostName = none`
is the null pointer, `AF_INET` the value of that constant. -/
def getHostByName (C : Consts) (AF_INET : Int) (c : Control) (recv : Nat → Int × Mem)
    (hostName : Option (List Nat)) (addressFamily : Int) :
    Outcome (List Nat) × Control × List IOEvent :=
  match hostName with
  | none => (.nothing, c, [])
  | some hostName =>
    if addressFamily ≠ AF_INET then (.nothing, c, [])
    else
      let id1 := c.id + 1
      let xid := id1 % 65536
      let r := a C.NameMax c.suffix c.query xid hostName
      let c1 := { c with id := id1, query := r.2 }
      if r.1 ≤ 0 then (.nothing, c1, [])
      else
        let res := rxmitA C r.2 r.1 xid recv C.MaxQuery 0 c.response []
        (res.1, { c1 with response := res.2.1 }, res.2.2)

/-- The `for (i = 0; i < ancount; ++i)` loop of `Control::getHostName` with `n`
iterations left and the cursor at `opt`; `fuel` bounds the passes of `copyName`.  The
result comes with the bytes `copyName` stored into the caller's buffer. -/
def answersPtr (C : Consts) (fuel : Nat) (m : Mem) (end_ : Nat) :
    Nat → Nat → Outcome Unit × List Nat
  | 0, _ => (.nothing, [])
  | n + 1, opt =>
    match skipName m opt end_ with
    | none => (.undef, [])
    | some opt1 =>
      if end_ - opt1 < C.sizeofDNSRR then answersPtr C fuel m end_ n opt1
      else if rd16 m opt1 ≠ DNSType.PTR ∨ rd16 m (opt1 + 2) ≠ DNSClass.IN then
        answersPtr C fuel m end_ n opt1
      else if end_ < opt1 + C.DNSRRSize + rd16 m (opt1 + 8) then (.nothing, [])
      else
        match copyName C.NameMax m 0 (opt1 + C.DNSRRSize) end_ fuel with
        | none => (.outOfFuel, [])
        | some (false, s) => (.nothing, s.name)
        | some (true, s) => (.found (), s.name)

/-- What `Control::getHostName` does with one datagram. -/
def attemptPtr (C : Consts) (fuel : Nat) (query : Mem) (len xid : Nat) (rlen : Int)
    (m : Mem) : Outcome Unit × List Nat :=
  match validate query len xid rlen m with
  | .found opt => answersPtr C fuel m rlen.toNat (DNSHdr.ancount m) opt
  | .nothing => (.nothing, [])
  | .undef => (.undef, [])
  | .outOfFuel => (.outOfFuel, [])

/-- The caller's buffer after the bytes `w` were stored from its start on. -/
def overlay (w buf : List Nat) : List Nat := w ++ buf.drop w.length

/-- The retransmission loop of `Control::getHostName` with `n` attempts left; `buf` is
the caller's buffer `hostName`. -/
def rxmitPtr (C : Consts) (fuel : Nat) (query : Mem) (len xid : Nat)
    (recv : Nat → Int × Mem) :
    Nat → Nat → Mem → List Nat → List IOEvent →
      Outcome Unit × Mem × List Nat × List IOEvent
  | 0, _, response, buf, io => (.nothing, response, buf, io)
  | n + 1, rxmitCount, _, buf, io =>
    let io1 := io ++ [.write (bytes query 0 len),
      .setTimeout (shlInt C.MinWait rxmitCount), .read]
    let r := recv rxmitCount
    let o := attemptPtr C fuel query len xid r.1 r.2
    match o.1 with
    | .nothing => rxmitPtr C fuel query len xid recv n (rxmitCount + 1) r.2 (overlay o.2 buf) io1
    | o1 => (o1, r.2, overlay o.2 buf, io1)

/-- The function `Control::getHostName(address, hostName, nlen)`.  The call
`address->getAddress(&addr, sizeof(InAddr))` is given by what it returns and the octets
it stores, `got`; `buf` is the caller's buffer `hostName`, and `Outcome.found ()` is the
return of `true`. -/
def getHostName (C : Consts) (fuel : Nat) (c : Control) (recv : Nat → Int × Mem)
    (got : Int × List Nat) (buf : List Nat) (nlen : Nat) :
    Outcome Unit × Control × List Nat × List IOEvent :=
  if nlen < C.NameMax then (.nothing, c, buf, [])
  else if got.1 ≠ 4 then (.nothing, c, buf, [])
  else
    let id1 := c.id + 1
    let xid := id1 % 65536
    let r := ptr c.query xid got.2
    let c1 := { c with id := id1, query := r.2 }
    if r.1 ≤ 0 then (.nothing, c1, buf, [])
    else
      let res := rxmitPtr C fuel r.2 r.1 xid recv C.MaxQuery 0 c.response buf []
      (res.1, { c1 with response := res.2.1 }, res.2.2.1, res.2.2.2)

end Control

end Resolver

/-! ## Vocabulary of the statements -/

namespace Resolver

/-- A C string holds no NUL before its end. -/
def IsCStr (s : List Nat) : Prop := ∀ c ∈ s, c ≠ 0

instance (s : List Nat) : Decidable (IsCStr s) := by unfold IsCStr; infer_instance

/-- The characters of a label: neither NUL nor `.`. -/
def LabelChars (l : List Nat) : Prop := ∀ c ∈ l, c ≠ 0 ∧ c ≠ dotChar

instance (l : List Nat) : Decidable (LabelChars l) := by unfold LabelChars; infer_instance

/-- The labels joined by `.`. -/
def joinDots : List (List Nat) → List Nat
  | [] => []
  | [l] => l
  | l :: l2 :: ls => l ++ dotChar :: joinDots (l2 :: ls)

/-- The length of the wire form of the labels, one length byte each, without the
terminator. -/
def encLen : List (List Nat) → Nat
  | [] => 0
  | l :: ls => 1 + l.length + encLen ls

/-- The wire form of the labels, without the terminator. -/
def encodeLabels : List (List Nat) → List Nat
  | [] => []
  | l :: ls => l.length :: l ++ encodeLabels ls

/-- The memory `m` holds the labels `ls` in wire form from offset `p` on. -/
def LabelsAt (m : Mem) : Nat → List (List Nat) → Prop
  | _, [] => True
  | p, l :: ls =>
    rd m p = l.length ∧ bytes m (p + 1) l.length = l.map (· % 256)
      ∧ LabelsAt m (p + 1 + l.length) ls

/-- The label list without a final empty label. -/
def dropEmptyLast : List (List Nat) → List (List Nat)
  | [] => []
  | [l] => if l = [] then [] else [l]
  | l :: l2 :: ls => l :: dropEmptyLast (l2 :: ls)

end Resolver

namespace Resolver

/-- The name `Control::a` encodes: the host name itself when it contains a `.` or no
suffix is configured, and otherwise the host name, a `.` and the suffix. -/
def effectiveName (suffix hostName : List Nat) : List Nat :=
  if dotChar ∈ hostName ∨ suffix = [] then hostName else hostName ++ dotChar :: suffix

/-- The string without one trailing `.`, if it has one. -/
def stripDot (e : List Nat) : List Nat :=
  if e.getLast? = some dotChar then e.dropLast else e

/-- The labels of a name: what is between the dots, one trailing dot apart. -/
def labelsOf (e : List Nat) : List (List Nat) := (stripDot e).splitOn dotChar

/-- A name is well formed for `NameMax` when it is not empty, each of its labels has 1
to 63 bytes, and its wire form, one length byte per label and the terminator included,
takes at most `NameMax` bytes. -/
def WellFormed (NameMax : Nat) (e : List Nat) : Prop :=
  e ≠ [] ∧ (∀ l ∈ labelsOf e, 1 ≤ l.length ∧ l.length ≤ 63)
    ∧ encLen (labelsOf e) + 1 ≤ NameMax

end Resolver

namespace Resolver

/-- The header conditions under which a datagram of `rlen` bytes in the buffer `m` may
answer the query with transaction id `xid`: longer than the header, the id of the
query, the response flag set, one question, at least one answer. -/
def HeaderOk (xid : Nat) (rlen : Int) (m : Mem) : Prop :=
  12 < rlen ∧ DNSHdr.getID m = xid ∧ DNSHdr.isResponse m = true ∧ DNSHdr.qdcount m = 1
    ∧ DNSHdr.ancount m ≠ 0

/-- The decimal labels of `n` octets of the host-order value `h`, from the octet of
weight `256 ^ i` upwards. -/
def octetLabels (h : Nat) : Nat → Nat → List (List Nat)
  | 0, _ => []
  | n + 1, i => Control.decimal (h / 2 ^ (8 * i) % 256) :: octetLabels h n (i + 1)

/-- The labels of the reverse name of the address `addr`: the four octets in decimal,
last octet first, then `in-addr` and `arpa`. -/
def ptrLabels (addr : List Nat) : List (List Nat) :=
  octetLabels (Control.hostOrder addr) 4 0
    ++ [[105, 110, 45, 97, 100, 100, 114], [97, 114, 112, 97]]

end Resolver

namespace Resolver

/-- The transaction id a lookup started in the state `c` takes: `xid = id.increment()`. -/
def nextId (c : Control) : Nat := (c.id + 1) % 65536

/-- The length and the buffer `Control::getHostByName` gets from `a(xid, hostName)` when
started in the state `c`. -/
def queryA (C : Consts) (c : Control) (hostName : List Nat) : Nat × Mem :=
  Control.a C.NameMax c.suffix c.query (nextId c) hostName

/-- The length and the buffer `Control::getHostName` gets from `ptr(xid, addr)` when
started in the state `c`. -/
def queryPtr (c : Control) (addr : List Nat) : Nat × Mem :=
  Control.ptr c.query (nextId c) addr

end Resolver

/-! ## Sample values for the concrete instances -/

namespace Resolver

/-- Sample constants: `NameMax = 255`, `MaxQuery = 3`, `MinWait = 1`, and 10 for both
`sizeof(DNSRR)` and `DNSRR::Size`. -/
def sampleConsts : Consts := ⟨255, 3, 1, 10, 10⟩

/-- A connection whose counter is 0, with zeroed buffers and no suffix. -/
def sampleControl : Control := ⟨0, fun _ => 0, fun _ => 0, []⟩

/-- A reply to the A query for `a` with id 1: one question, one answer whose owner name
is a pointer to offset 12 and whose RDATA is `1.2.3.4`. -/
def sampleReplyA : List Nat :=
  [0, 1, 0x80, 0, 0, 1, 0, 1, 0, 0, 0, 0,
   1, 97, 0, 0, 1, 0, 1,
   0xC0, 12, 0, 1, 0, 1, 0, 0, 0, 0, 0, 4, 1, 2, 3, 4]

/-- A socket on which every read yields `sampleReplyA`. -/
def sampleRecvA : Nat → Int × Mem := fun _ => (35, ofList sampleReplyA)

end Resolver

/-! ## Vocabulary for the reverse question name -/

namespace Resolver

/-- The canonical decimal text of `x`, as ASCII codes: most significant digit first, no
leading zeros, the single digit `0` for zero. -/
def decimalText (x : Nat) : List Nat := (Nat.toDigits 10 x).map Char.toNat

/-- The text `in-addr`, as ASCII codes. -/
def inAddrText : List Nat := [105, 110, 45, 97, 100, 100, 114]

/-- The text `arpa`, as ASCII codes. -/
def arpaText : List Nat := [97, 114, 112, 97]

/-- The labels of the reverse name of the address with the octets `a.b.c.d` in network
(dotted-quad) order, as the specification lists them. -/
def reverseLabels (a b c d : Nat) : List (List Nat) :=
  [decimalText d, decimalText c, decimalText b, decimalText a, inAddrText, arpaText]

end Resolver

namespace Resolver

/-- The decimal texts of the four octets of the 32-bit value `h`, most significant
octet first. -/
def octetTextsMsbFirst (h : Nat) : List (List Nat) :=
  [decimalText (h / 2 ^ 24 % 256), decimalText (h / 2 ^ 16 % 256),
   decimalText (h / 2 ^ 8 % 256), decimalText (h % 256)]

/-- The decimal texts of the four octets of the 32-bit value `h`, least significant
octet first. -/
def octetTextsLsbFirst (h : Nat) : List (List Nat) :=
  [decimalText (h % 256), decimalText (h / 2 ^ 8 % 256),
   decimalText (h / 2 ^ 16 % 256), decimalText (h / 2 ^ 24 % 256)]

end Resolver

/-! ## Vocabulary for the retransmission loop -/

namespace Resolver

/-- The socket calls of attempt `k`, in order: one write of the query bytes `data`, one
`setTimeout` of `MinWait << k` seconds, the shift being the `int` shift of the code, one
read. -/
def attemptEvents (MinWait : Nat) (data : List Nat) (k : Nat) : List IOEvent :=
  [.write data, .setTimeout (Control.shlInt MinWait k), .read]

/-- The socket calls of the attempts `0, ..., n - 1`, in order. -/
def backoffTrace (MinWait : Nat) (data : List Nat) (n : Nat) : List IOEvent :=
  (List.range n).flatMap (attemptEvents MinWait data)

/-- The timeouts set in a list of socket calls, in order. -/
def timeouts : List IOEvent → List Int
  | [] => []
  | .setTimeout s :: es => s :: timeouts es
  | _ :: es => timeouts es

/-- A socket on which every read times out: it returns 0 and leaves the buffer zeroed. -/
def silentRecv : Nat → Int × Mem := fun _ => (0, fun _ => 0)

end Resolver

/-! ## Vocabulary for the answer records -/

namespace Resolver

/-- A name in wire form starts at `p` in `m` and the byte after it is at `e`: labels
of 1 to 63 bytes, and then either a zero byte or the two bytes of a compression
pointer.  With no labels this is the root name or a lone compression pointer. -/
def NameSpan (m : Mem) (p e : Nat) : Prop :=
  ∃ ls : List (List Nat), (∀ l ∈ ls, 1 ≤ l.length ∧ l.length ≤ 63) ∧ LabelsAt m p ls
    ∧ ((rd m (p + encLen ls) = 0 ∧ e = p + encLen ls + 1)
      ∨ (192 ≤ rd m (p + encLen ls) ∧ e = p + encLen ls + 2))

/-- The host name `example.com`, as ASCII codes. -/
def exampleCom : List Nat := [101, 120, 97, 109, 112, 108, 101, 46, 99, 111, 109]

/-- A reply to the A query for `example.com` with id 1: the question echoed, and one
answer whose owner name is a pointer to offset 12, of type A and class IN, with the
RDATA `93.184.216.34`. -/
def sampleReplyExample : List Nat :=
  [0, 1, 0x81, 0x80, 0, 1, 0, 1, 0, 0, 0, 0,
   7, 101, 120, 97, 109, 112, 108, 101, 3, 99, 111, 109, 0, 0, 1, 0, 1,
   0xC0, 12, 0, 1, 0, 1, 0, 0, 0, 60, 0, 4, 93, 184, 216, 34]

/-- A socket on which every read yields `sampleReplyExample`. -/
def sampleRecvExample : Nat → Int × Mem := fun _ => (45, ofList sampleReplyExample)

end Resolver

namespace Resolver

/-- A well-formed name starts at offset `p` of the message `m` of `end_` bytes and has
the labels `ls`: either one label of 1 to 63 bytes and a zero byte, or a label of 1 to
63 bytes followed by a well-formed name, or a compression pointer, whose two bytes lie
in the message, to a well-formed name at an earlier offset.  So a well-formed name is
one or more labels ending in a zero byte, or any number of labels ending in a pointer
to a well-formed name; the root name alone is none. -/
inductive WireName (m : Mem) (end_ : Nat) : Nat → List (List Nat) → Prop where
  /-- The last label, followed by the zero byte. -/
  | last (p : Nat) (l : List Nat) : 1 ≤ l.length → l.length ≤ 63 → rd m p = l.length →
      bytes m (p + 1) l.length = l → p + 1 + l.length < end_ →
      rd m (p + 1 + l.length) = 0 → WireName m end_ p [l]
  /-- A label followed by the rest of the name. -/
  | label (p : Nat) (l : List Nat) (ls : List (List Nat)) : 1 ≤ l.length →
      l.length ≤ 63 → rd m p = l.length → bytes m (p + 1) l.length = l →
      WireName m end_ (p + 1 + l.length) ls → WireName m end_ p (l :: ls)
  /-- A compression pointer to a name at an earlier offset. -/
  | pointer (p : Nat) (ls : List (List Nat)) : 192 ≤ rd m p → p + 1 < end_ →
      rd16 m p &&& 0x3fff < p → WireName m end_ (rd16 m p &&& 0x3fff) ls →
      WireName m end_ p ls

/-- A reply to the PTR query for `93.184.216.34` with id 1: the question echoed, and
one answer whose owner name is a pointer to offset 12, of type PTR and class IN, with
the name `example.com` as RDATA. -/
def sampleReplyPtr : List Nat :=
  [0, 1, 0x81, 0x80, 0, 1, 0, 1, 0, 0, 0, 0,
   2, 51, 52, 3, 50, 49, 54, 3, 49, 56, 52, 2, 57, 51,
   7, 105, 110, 45, 97, 100, 100, 114, 4, 97, 114, 112, 97, 0, 0, 12, 0, 1,
   0xC0, 12, 0, 12, 0, 1, 0, 0, 0, 60, 0, 13,
   7, 101, 120, 97, 109, 112, 108, 101, 3, 99, 111, 109, 0]

/-- A socket on which every read yields `sampleReplyPtr`. -/
def sampleRecvPtr : Nat → Int × Mem := fun _ => (69, ofList sampleReplyPtr)

end Resolver

namespace Resolver

/-- A reply to the A query for `example.com` with id 1 that has two answers: a CNAME
record (owner a pointer to offset 12, RDATA `www` and a pointer to offset 12) at
offset 29, and at offset 47 an A record (owner a pointer to the CNAME target at offset
41) with the RDATA `93.184.216.34`. -/
def sampleReplyCname : List Nat :=
  [0, 1, 0x81, 0x80, 0, 1, 0, 2, 0, 0, 0, 0,
   7, 101, 120, 97, 109, 112, 108, 101, 3, 99, 111, 109, 0, 0, 1, 0, 1,
   0xC0, 12, 0, 5, 0, 1, 0, 0, 0, 60, 0, 6, 3, 119, 119, 119, 0xC0, 12,
   0xC0, 41, 0, 1, 0, 1, 0, 0, 0, 60, 0, 4, 93, 184, 216, 34]

/-- A socket on which every read yields `sampleReplyCname`. -/
def sampleRecvCname : Nat → Int × Mem := fun _ => (63, ofList sampleReplyCname)

/-- A datagram like `sampleReplyExample` except that the owner name of its answer
starts with the length byte `0x40`, which is neither a label length nor a pointer. -/
def sampleReplyBadOwner : List Nat :=
  [0, 1, 0x81, 0x80, 0, 1, 0, 1, 0, 0, 0, 0,
   7, 101, 120, 97, 109, 112, 108, 101, 3, 99, 111, 109, 0, 0, 1, 0, 1,
   0x40, 12, 0, 1, 0, 1, 0, 0, 0, 60, 0, 4, 93, 184, 216, 34]

/-- A socket whose first read yields `sampleReplyBadOwner` and whose later reads yield
`sampleReplyExample`. -/
def sampleRecvBadThenGood : Nat → Int × Mem := fun k =>
  if k = 0 then (45, ofList sampleReplyBadOwner) else (45, ofList sampleReplyExample)

end Resolver

/-! ## `Resolver::setup` and the lookups of `Resolver` -/

namespace Resolver

/-- What happens to connection objects, in order. -/
inductive ConnEvent where
  /-- The expression `new Control(nameServer)`: the constructor makes a datagram socket
  and connects it to the name server `server`. -/
  | opened (server : Nat)
  /-- The statement `delete control`: the destructor closes the socket. -/
  | closed
deriving DecidableEq, Repr

namespace Control

/-- The constructor `Control::Control(server)`: it zeroes `suffix`.  `raw` is what the
members that the constructor does not set hold at first. -/
def construct (raw : Control) : Control := { raw with suffix := [] }

end Control

/-- The function `Resolver::setup()`.  `nameServer` is what
`Socket::config->getNameServer()` returns (`none` is the null handle) and `control`
the member `control` (`none` is the null pointer).  The result is the return value,
the member `control` afterwards, and what happened to connection objects. -/
def setup (raw : Control) (nameServer : Option Nat) (control : Option Control) :
    Bool × Option Control × List ConnEvent :=
  match nameServer with
  | none =>
    match control with
    | some _ => (false, none, [.closed])
    | none => (false, control, [])
  | some server =>
    match control with
    | some _ => (true, control, [])
    | none => (true, some (Control.construct raw), [.opened server])

/-- The function `Resolver::getHostByName(hostName, addressFamily)`, without its
monitor.  The result is the return value, the member `control` afterwards, what
happened to connection objects, and the socket calls. -/
def getHostByName (C : Consts) (AF_INET : Int) (raw : Control) (nameServer : Option Nat)
    (control : Option Control) (recv : Nat → Int × Mem) (hostName : Option (List Nat))
    (addressFamily : Int) :
    Outcome (List Nat) × Option Control × List ConnEvent × List IOEvent :=
  let s := setup raw nameServer control
  if !s.1 then (.nothing, s.2.1, s.2.2, [])
  else
    match s.2.1 with
    | none => (.undef, none, s.2.2, [])
    | some c =>
      let r := Control.getHostByName C AF_INET c recv hostName addressFamily
      (r.1, some r.2.1, s.2.2, r.2.2)

/-- The function `Resolver::getHostName(address, hostName, len)`, without its monitor.
The result is the return value, the member `control` afterwards, the caller's buffer,
what happened to connection objects, and the socket calls. -/
def getHostName (C : Consts) (fuel : Nat) (raw : Control) (nameServer : Option Nat)
    (control : Option Control) (recv : Nat → Int × Mem) (got : Int × List Nat)
    (buf : List Nat) (len : Nat) :
    Outcome Unit × Option Control × List Nat × List ConnEvent × List IOEvent :=
  let s := setup raw nameServer control
  if !s.1 then (.nothing, s.2.1, buf, s.2.2, [])
  else
    match s.2.1 with
    | none => (.undef, none, buf, s.2.2, [])
    | some c =>
      let r := Control.getHostName C fuel c recv got buf len
      (r.1, some r.2.1, r.2.2.1, s.2.2, r.2.2.2)

end Resolver

namespace Resolver

namespace Control

/-- The loop of `Control::skipName` once more, together with the offsets of the bytes
it loads, in order: each pass loads the byte `*ptr` (twice, for the test against zero
and for `count`), and nothing else. -/
def skipNameLoads (m : Mem) (end_ : Nat) : Nat → Nat → Option Nat × List Nat
  | 0, _ => (some end_, [])
  | fuel + 1, ptr =>
    if ptr < end_ then
      if rd m ptr = 0 then
        (some (if ptr + 1 ≤ end_ then ptr + 1 else end_), [ptr])
      else
        let count := rd m ptr
        if count &&& 0xc0 ≠ 0 then
          if count &&& 0xc0 ≠ 0xc0 then (none, [ptr])
          else (some (if ptr + 2 ≤ end_ then ptr + 2 else end_), [ptr])
        else
          let r := skipNameLoads m end_ fuel (ptr + 1 + count)
          (r.1, ptr :: r.2)
    else (some end_, [])

end Control

end Resolver

namespace Resolver

/-- A connection whose counter is 65534, with zeroed buffers and no suffix. -/
def sampleControlWrap : Control := ⟨65534, fun _ => 0, fun _ => 0, []⟩

end Resolver

namespace Resolver

/-- A datagram like `sampleReplyExample` except that the question name starts with the
length byte `0x40`. -/
def sampleReplyBadQuestion : List Nat :=
  [0, 1, 0x81, 0x80, 0, 1, 0, 1, 0, 0, 0, 0,
   0x40, 101, 120, 97, 109, 112, 108, 101, 3, 99, 111, 109, 0, 0, 1, 0, 1,
   0xC0, 12, 0, 1, 0, 1, 0, 0, 0, 60, 0, 4, 93, 184, 216, 34]

/-- A datagram like `sampleReplyPtr` except that the owner name of its answer starts
with the length byte `0x40`. -/
def sampleReplyPtrBadOwner : List Nat :=
  [0, 1, 0x81, 0x80, 0, 1, 0, 1, 0, 0, 0, 0,
   2, 51, 52, 3, 50, 49, 54, 3, 49, 56, 52, 2, 57, 51,
   7, 105, 110, 45, 97, 100, 100, 114, 4, 97, 114, 112, 97, 0, 0, 12, 0, 1,
   0x40, 12, 0, 12, 0, 1, 0, 0, 0, 60, 0, 13,
   7, 101, 120, 97, 109, 112, 108, 101, 3, 99, 111, 109, 0]

/-- A socket on which every read yields `sampleReplyBadOwner`. -/
def sampleRecvBadOwner : Nat → Int × Mem := fun _ => (45, ofList sampleReplyBadOwner)

/-- A socket on which every read yields `sampleReplyBadQuestion`. -/
def sampleRecvBadQuestion : Nat → Int × Mem := fun _ => (45, ofList sampleReplyBadQuestion)

/-- A socket on which every read yields `sampleReplyPtrBadOwner`. -/
def sampleRecvPtrBadOwner : Nat → Int × Mem := fun _ => (69, ofList sampleReplyPtrBadOwner)

end Resolver

/-! ## `Resolver::getHostByAddress` -/

namespace Resolver

/-- Modelled from the spec: `sizeof(InAddr)`, a type declared in absent headers; an
IPv4 address has 4 octets. -/
def sizeofInAddr : Nat := 4

/-- Modelled from the spec: `sizeof(In6Addr)`, a type declared in absent headers; an
IPv6 address has 16 octets. -/
def sizeofIn6Addr : Nat := 16

/-- The states `Resolver::getHostByAddress` passes to the constructor of
`Inet4Address`. -/
inductive AddrState where
  /-- The constant `Inet4Address::statePreferred`. -/
  | statePreferred
  /-- The constant `Inet4Address::stateNonMember`. -/
  | stateNonMember
  /-- The constant `Inet4Address::stateInit`. -/
  | stateInit
  /-- The constant `Inet4Address::stateDestination`. -/
  | stateDestination
deriving DecidableEq, Repr

/-- An `Inet4Address` object, as far as the arguments of its constructor tell: the
address, the state, the scope id, and the fourth argument where one is passed. -/
structure Inet4Address where
  /-- The four octets of the address. -/
  addr : List Nat
  /-- The state. -/
  state : AddrState
  /-- The scope id. -/
  scopeID : Nat
  /-- The fourth argument of the constructor, `none` where the call passes three. -/
  fourth : Option Nat
deriving DecidableEq, Repr

/-- A call on the address family, the registry of address objects. -/
inductive RegistryCall where
  /-- The call `inFamily->getAddress(addr, scopeID)`. -/
  | getAddress (addr : List Nat) (scopeID : Nat)
  /-- The call `inFamily->onLink(addr, scopeID)`. -/
  | onLink (addr : List Nat) (scopeID : Nat)
  /-- The call `inFamily->addAddress(host)`. -/
  | addAddress (host : Inet4Address)
deriving DecidableEq, Repr

/-- What `Resolver::getHostByAddress` consults, all of it declared in absent headers:
the answers of the address family to `getAddress` and `onLink` (`none` is the null
pointer), and the macros `IN_IS_ADDR_LOOPBACK` and `IN_IS_ADDR_MULTICAST`. -/
structure InFamily where
  /-- The method `getAddress(addr, scopeID)`. -/
  getAddress : List Nat → Nat → Option Inet4Address
  /-- The method `onLink(addr, scopeID)`. -/
  onLink : List Nat → Nat → Option Inet4Address
  /-- The macro `IN_IS_ADDR_LOOPBACK`. -/
  isLoopback : List Nat → Bool
  /-- The macro `IN_IS_ADDR_MULTICAST`. -/
  isMulticast : List Nat → Bool

/-- The function `Resolver::getHostByAddress(address, len, scopeID)`: the object
returned (`none` is the null pointer) and the calls made on the address family, in
order.  `address` is the bytes `address` points to. -/
def getHostByAddress (F : InFamily) (address : List Nat) (len scopeID : Nat) :
    Option Inet4Address × List RegistryCall :=
  if len = sizeofInAddr then
    let addr := address.take sizeofInAddr
    match F.getAddress addr scopeID with
    | some host => (some host, [.getAddress addr scopeID])
    | none =>
      if F.isLoopback addr then
        let host : Inet4Address := ⟨addr, .statePreferred, 1, some 8⟩
        (some host, [.getAddress addr scopeID, .addAddress host])
      else if F.isMulticast addr then
        let host : Inet4Address := ⟨addr, .stateNonMember, scopeID, none⟩
        (some host, [.getAddress addr scopeID, .addAddress host])
      else
        match F.onLink addr scopeID with
        | some onLink =>
          let host : Inet4Address := ⟨addr, .stateInit, onLink.scopeID, none⟩
          (some host, [.getAddress addr scopeID, .onLink addr scopeID, .addAddress host])
        | none =>
          let host : Inet4Address := ⟨addr, .stateDestination, scopeID, none⟩
          (some host, [.getAddress addr scopeID, .onLink addr scopeID, .addAddress host])
  else if len = sizeofIn6Addr then (none, [])
  else (none, [])

/-- The objects registered by a list of calls on the address family. -/
def registered : List RegistryCall → List Inet4Address
  | [] => []
  | .addAddress host :: cs => host :: registered cs
  | _ :: cs => registered cs

end Resolver

namespace Resolver

/-- A message of 259 bytes: a zero byte at offset 0 and the byte 7 after it; from
offset 2 on three labels of 63 bytes and one of 62 bytes, which together use up an
output budget of 255 bytes; and at offset 257 a compression pointer to offset 0. -/
def sampleFullBudget : List Nat :=
  0 :: 7 :: (63 :: List.replicate 63 97) ++ (63 :: List.replicate 63 97)
    ++ (63 :: List.replicate 63 97) ++ (62 :: List.replicate 62 97) ++ [0xC0, 0]

/-- A reply to the PTR query for `93.184.216.34` with id 1 whose answer has the bare
root name, a single zero byte, as RDATA (RDLENGTH 1), followed in the datagram by the
five bytes `03 'com' 00`. -/
def sampleReplyPtrRoot : List Nat :=
  [0, 1, 0x81, 0x80, 0, 1, 0, 1, 0, 0, 0, 0,
   2, 51, 52, 3, 50, 49, 54, 3, 49, 56, 52, 2, 57, 51,
   7, 105, 110, 45, 97, 100, 100, 114, 4, 97, 114, 112, 97, 0, 0, 12, 0, 1,
   0xC0, 12, 0, 12, 0, 1, 0, 0, 0, 60, 0, 1,
   0, 3, 99, 111, 109, 0]

/-- A socket on which every read yields `sampleReplyPtrRoot`. -/
def sampleRecvPtrRoot : Nat → Int × Mem := fun _ => (62, ofList sampleReplyPtrRoot)

end Resolver

namespace Resolver

/-- The labels, each followed by a dot: the text `copyName` has stored after labels when
more of the name follows. -/
def dottedPrefix : List (List Nat) → List Nat
  | [] => []
  | l :: ls => l ++ dotChar :: dottedPrefix ls

end Resolver

/-! ## Vocabulary for the chains of compression pointers -/

namespace Resolver

/-- The cursor of the state stands on a compression pointer of the message: a byte
between `dns` and `end` with both top bits set. -/
def AtPointer (m : Mem) (dns end_ : Nat) (s : Control.CopyState) : Prop :=
  dns ≤ s.ptr ∧ s.ptr < end_ ∧ rd m s.ptr &&& 0xc0 = 0xc0

/-- Decoding from `ptr` follows at most `H` compression pointers in a row: from every
state that the loop of `Control::copyName` reaches, after at most `H` further passes the
function has returned or its cursor stands on a byte that is not a compression
pointer. -/
def HopsBounded (NameMax : Nat) (m : Mem) (dns ptr end_ H : Nat) : Prop :=
  ∀ n s, Control.copyNameIter m dns end_ n (Control.copyInit NameMax ptr) = some s →
    ∃ k, k ≤ H ∧ ∀ s2, Control.copyNameIter m dns end_ k s = some s2 →
      ¬ AtPointer m dns end_ s2

/-- Every compression pointer that decoding from `ptr` reaches targets an offset
strictly below its own. -/
def PointersGoBack (NameMax : Nat) (m : Mem) (dns ptr end_ : Nat) : Prop :=
  ∀ n s, Control.copyNameIter m dns end_ n (Control.copyInit NameMax ptr) = some s →
    AtPointer m dns end_ s → dns + (rd16 m s.ptr &&& 0x3fff) < s.ptr

/-- The message `03 'com' 00 03 'www' C0 00`: the name `www` followed by a compression
pointer to the name `com` at offset 0. -/
def sampleWwwCom : List Nat := [3, 99, 111, 109, 0, 3, 119, 119, 119, 0xC0, 0]

end Resolver

/-! # Properties -/

namespace Resolver

/-! ## Loads and stores -/

theorem rd_lt (m : Mem) (a : Nat) : rd m a < 256 := Nat.mod_lt _ (by decide)

theorem rd_wr (m : Mem) (a v x : Nat) :
    rd (wr m a v) x = if x = a then v % 256 else rd m x := by
  unfold rd wr
  by_cases h : x = a <;> simp [h]

theorem rd_wr16 (m : Mem) (a v x : Nat) :
    rd (wr16 m a v) x
      = if x = a + 1 then v % 256 else if x = a then v % 65536 / 256 else rd m x := by
  unfold wr16
  rw [rd_wr, rd_wr]
  have h : v % 65536 / 256 % 256 = v % 65536 / 256 := by omega
  simp [h]

theorem rd_wrList (l : List Nat) (m : Mem) (a x : Nat) :
    rd (Control.wrList m a l) x
      = if a ≤ x ∧ x < a + l.length then l.getD (x - a) 0 % 256 else rd m x := by
  induction l generalizing m a with
  | nil =>
    have h : ¬ (a ≤ x ∧ x < a) := by omega
    simp [Control.wrList, h]
  | cons c cs ih =>
    simp only [Control.wrList, ih, rd_wr, List.length_cons]
    by_cases h1 : x = a
    · subst h1
      simp
    · by_cases h2 : a + 1 ≤ x ∧ x < a + 1 + cs.length
      · have h3 : a ≤ x ∧ x < a + (cs.length + 1) := by omega
        have h4 : x - a = (x - (a + 1)) + 1 := by omega
        simp [h2, h3, h4]
      · have h3 : ¬ (a ≤ x ∧ x < a + (cs.length + 1)) := by omega
        simp [h1, h2, h3]

theorem bytes_length (m : Mem) (a n : Nat) : (bytes m a n).length = n := by
  simp [bytes]

theorem bytes_eq_iff (m1 m2 : Mem) (a1 a2 n : Nat) :
    bytes m1 a1 n = bytes m2 a2 n ↔ ∀ k, k < n → rd m1 (a1 + k) = rd m2 (a2 + k) := by
  unfold bytes
  constructor
  · intro h k hk
    have := congrArg (fun l => l.getD k 0) h
    simpa [List.getD_eq_getElem?_getD, List.getElem?_map, List.getElem?_range hk] using this
  · intro h
    apply List.map_congr_left
    intro k hk
    exact h k (List.mem_range.mp hk)

end Resolver

namespace Resolver

/-! ## The label loop of `Control::a` -/

theorem aLabel_append (NameMax org : Nat) (l rest : List Nat) (hl : LabelChars l)
    (hr : rest.headD 0 = 0 ∨ rest.headD 0 = dotChar) (i opt : Nat) (q : Mem) :
    Control.aLabel NameMax org (l ++ rest) i opt q
      = match Control.aLabel NameMax org l i opt q with
        | .ok (i1, o1, q1, _) => .ok (i1, o1, q1, rest)
        | .error e => .error e := by
  induction l generalizing i opt q with
  | nil =>
    cases rest with
    | nil => simp [Control.aLabel]
    | cons c cs =>
      have hc : c = 0 ∨ c = dotChar := by simpa using hr
      simp [Control.aLabel, hc]
  | cons c cs ih =>
    have hc := hl c (List.mem_cons_self _ _)
    have hcs : LabelChars cs := fun d hd => hl d (List.mem_cons_of_mem _ hd)
    have hc1 : ¬ (c = 0 ∨ c = dotChar) := by tauto
    simp only [List.cons_append, Control.aLabel]
    rw [if_neg hc1, if_neg hc1]
    by_cases hb : DNSHdr.LabelMax ≤ i ∨ NameMax - 1 ≤ opt - org
    · rw [if_pos hb, if_pos hb]
    · rw [if_neg hb, if_neg hb]
      exact ih hcs _ _ _

theorem aLabel_run (NameMax org : Nat) (l : List Nat) (hl : LabelChars l)
    (i opt : Nat) (q : Mem)
    (hfit : l = [] ∨ (i + l.length ≤ 63 ∧ opt + l.length - 1 - org < NameMax - 1)) :
    Control.aLabel NameMax org l i opt q
      = .ok (i + l.length, opt + l.length, Control.wrList q opt l, []) := by
  induction l generalizing i opt q with
  | nil => simp [Control.aLabel, Control.wrList]
  | cons c cs ih =>
    have hc := hl c (List.mem_cons_self _ _)
    have hcs : LabelChars cs := fun d hd => hl d (List.mem_cons_of_mem _ hd)
    have hc1 : ¬ (c = 0 ∨ c = dotChar) := by tauto
    have hf : i + (cs.length + 1) ≤ 63 ∧ opt + (cs.length + 1) - 1 - org < NameMax - 1 := by
      rcases hfit with h | h
      · exact absurd h (List.cons_ne_nil _ _)
      · rw [List.length_cons] at h
        exact h
    have hb : ¬ (DNSHdr.LabelMax ≤ i ∨ NameMax - 1 ≤ opt - org) := by
      unfold DNSHdr.LabelMax; omega
    simp only [Control.aLabel, Control.wrList, List.length_cons]
    rw [if_neg hc1, if_neg hb, ih hcs]
    · have e1 : i + 1 + cs.length = i + (cs.length + 1) := by omega
      have e2 : opt + 1 + cs.length = opt + (cs.length + 1) := by omega
      rw [e1, e2]
    · by_cases hn : cs = []
      · exact Or.inl hn
      · right
        have : 0 < cs.length := List.length_pos.mpr hn
        omega

theorem aLabel_fail (NameMax org : Nat) (l : List Nat) (hl : LabelChars l)
    (i opt : Nat) (q : Mem)
    (hfit : ¬ (l = [] ∨ (i + l.length ≤ 63 ∧ opt + l.length - 1 - org < NameMax - 1))) :
    ∃ e, Control.aLabel NameMax org l i opt q = .error e := by
  induction l generalizing i opt q with
  | nil => simp at hfit
  | cons c cs ih =>
    have hc := hl c (List.mem_cons_self _ _)
    have hcs : LabelChars cs := fun d hd => hl d (List.mem_cons_of_mem _ hd)
    have hc1 : ¬ (c = 0 ∨ c = dotChar) := by tauto
    simp only [Control.aLabel]
    rw [if_neg hc1]
    by_cases hb : DNSHdr.LabelMax ≤ i ∨ NameMax - 1 ≤ opt - org
    · exact ⟨q, by rw [if_pos hb]⟩
    · rw [if_neg hb]
      apply ih hcs
      intro h
      apply hfit
      right
      unfold DNSHdr.LabelMax at hb
      rw [List.length_cons]
      rcases h with h | h
      · subst h
        rw [List.length_nil]
        omega
      · omega

end Resolver

namespace Resolver

theorem aLabel_len (NameMax org : Nat) (hn : List Nat) (i opt : Nat) (q : Mem)
    (i1 o1 : Nat) (q1 : Mem) (rest : List Nat)
    (h : Control.aLabel NameMax org hn i opt q = .ok (i1, o1, q1, rest)) :
    rest.length + i1 = hn.length + i := by
  induction hn generalizing i opt q with
  | nil =>
    simp only [Control.aLabel, Except.ok.injEq, Prod.mk.injEq] at h
    obtain ⟨h1, -, -, h4⟩ := h
    subst h1 h4
    simp
  | cons c cs ih =>
    simp only [Control.aLabel] at h
    by_cases hc : c = 0 ∨ c = dotChar
    · rw [if_pos hc] at h
      simp only [Except.ok.injEq, Prod.mk.injEq] at h
      obtain ⟨h1, -, -, h4⟩ := h
      subst h1 h4
      simp
    · rw [if_neg hc] at h
      by_cases hb : DNSHdr.LabelMax ≤ i ∨ NameMax - 1 ≤ opt - org
      · rw [if_pos hb] at h
        cases h
      · rw [if_neg hb] at h
        have := ih _ _ _ h
        simp only [List.length_cons]
        omega

/-- The number of iterations `aLoop` is allowed does not matter once it covers the
characters still to be read. -/
theorem aLoop_fuel (NameMax : Nat) (suffix : List Nat) (org : Nat) (n m : Nat)
    (hostName : List Nat) (dot : Bool) (opt : Nat) (q : Mem)
    (hn : hostName.length + (if dot then 0 else suffix.length) ≤ n)
    (hm : hostName.length + (if dot then 0 else suffix.length) ≤ m) :
    Control.aLoop NameMax suffix org n hostName dot opt q
      = Control.aLoop NameMax suffix org m hostName dot opt q := by
  induction n generalizing m hostName dot opt q with
  | zero =>
    have h0 : hostName = [] := List.length_eq_zero.mp (by omega)
    subst h0
    cases m <;> simp [Control.aLoop]
  | succ n ih =>
    cases m with
    | zero =>
      have h0 : hostName = [] := List.length_eq_zero.mp (by omega)
      subst h0
      simp [Control.aLoop]
    | succ m =>
      rw [Control.aLoop, Control.aLoop]
      by_cases h0 : hostName.headD 0 = 0
      · rw [if_pos h0, if_pos h0]
      · rw [if_neg h0, if_neg h0]
        generalize hlab : Control.aLabel NameMax org hostName 0 (opt + 1) q = r
        rcases r with e | ⟨i1, o1, q1, rest⟩
        · rfl
        · have hlen := aLabel_len _ _ _ _ _ _ _ _ _ _ hlab
          simp only
          by_cases hi : i1 = 0
          · rw [if_pos hi, if_pos hi]
          · rw [if_neg hi, if_neg hi]
            by_cases hd : rest.headD 0 = dotChar
            · rw [if_pos hd, if_pos hd]
              have : rest.tail.length ≤ rest.length := by simp
              apply ih <;> simp <;> omega
            · rw [if_neg hd, if_neg hd]
              by_cases hs : (!dot && decide (suffix.headD 0 ≠ 0)) = true
              · rw [if_pos hs, if_pos hs]
                have hdot : dot = false := by
                  cases dot <;> simp_all
                subst hdot
                simp only [Bool.false_eq_true, if_false] at hn hm
                apply ih <;> simp <;> omega
              · rw [if_neg hs, if_neg hs]
                apply ih <;> omega

end Resolver

namespace Resolver

/-! ## One iteration of the `while` loop of `Control::a` -/

theorem aLoop_nil (NameMax : Nat) (suffix : List Nat) (org n : Nat) (dot : Bool)
    (opt : Nat) (q : Mem) :
    Control.aLoop NameMax suffix org n [] dot opt q = .ok (opt, q) := by
  cases n <;> simp [Control.aLoop]

theorem labelChars_head (l : List Nat) (hl : LabelChars l) (hne : l ≠ []) (rest : List Nat) :
    (l ++ rest).headD 0 ≠ 0 := by
  cases l with
  | nil => exact absurd rfl hne
  | cons c cs => simpa using (hl c (List.mem_cons_self _ _)).1

theorem aLoop_iter (NameMax : Nat) (suffix : List Nat) (org : Nat) (l rest : List Nat)
    (hl : LabelChars l) (hne : l ≠ [])
    (hr : rest.headD 0 = 0 ∨ rest.headD 0 = dotChar) (opt : Nat)
    (hfit : l.length ≤ 63 ∧ opt + 1 + l.length - 1 - org < NameMax - 1)
    (dot : Bool) (n : Nat) (q : Mem) :
    Control.aLoop NameMax suffix org (n + 1) (l ++ rest) dot opt q
      = if rest.headD 0 = dotChar then
          Control.aLoop NameMax suffix org n rest.tail true (opt + 1 + l.length)
            (wr (Control.wrList q (opt + 1) l) opt l.length)
        else if (!dot && decide (suffix.headD 0 ≠ 0)) = true then
          Control.aLoop NameMax suffix org n suffix true (opt + 1 + l.length)
            (wr (Control.wrList q (opt + 1) l) opt l.length)
        else
          Control.aLoop NameMax suffix org n rest dot (opt + 1 + l.length)
            (wr (Control.wrList q (opt + 1) l) opt l.length) := by
  rw [Control.aLoop, if_neg (labelChars_head l hl hne rest),
    aLabel_append NameMax org l rest hl hr,
    aLabel_run NameMax org l hl 0 (opt + 1) q (Or.inr (by omega))]
  have hi : ¬ (0 + l.length = 0) := by
    have : 0 < l.length := List.length_pos.mpr hne
    omega
  simp only
  rw [if_neg hi, Nat.zero_add]

theorem aLoop_iter_fail (NameMax : Nat) (suffix : List Nat) (org : Nat) (l rest : List Nat)
    (hl : LabelChars l) (hne : l ≠ [])
    (hr : rest.headD 0 = 0 ∨ rest.headD 0 = dotChar) (opt : Nat)
    (hfit : ¬ (l.length ≤ 63 ∧ opt + 1 + l.length - 1 - org < NameMax - 1))
    (dot : Bool) (n : Nat) (q : Mem) :
    ∃ e, Control.aLoop NameMax suffix org (n + 1) (l ++ rest) dot opt q = .error e := by
  obtain ⟨e, he⟩ := aLabel_fail NameMax org l hl 0 (opt + 1) q (by
    intro h
    rcases h with h | h
    · exact hne h
    · apply hfit
      omega)
  refine ⟨e, ?_⟩
  rw [Control.aLoop, if_neg (labelChars_head l hl hne rest),
    aLabel_append NameMax org l rest hl hr, he]

theorem aLoop_dot_first (NameMax : Nat) (suffix : List Nat) (org : Nat) (r : List Nat)
    (dot : Bool) (n opt : Nat) (q : Mem) :
    Control.aLoop NameMax suffix org (n + 1) (dotChar :: r) dot opt q = .error q := by
  simp [Control.aLoop, Control.aLabel, dotChar]

theorem label_written (q : Mem) (opt : Nat) (l : List Nat) (hlen : l.length ≤ 63) :
    rd (wr (Control.wrList q (opt + 1) l) opt l.length) opt = l.length
      ∧ bytes (wr (Control.wrList q (opt + 1) l) opt l.length) (opt + 1) l.length
          = l.map (· % 256)
      ∧ ∀ x, x < opt ∨ opt + 1 + l.length ≤ x →
          rd (wr (Control.wrList q (opt + 1) l) opt l.length) x = rd q x := by
  refine ⟨?_, ?_, ?_⟩
  · rw [rd_wr, if_pos rfl]
    omega
  · apply List.ext_getElem
    · simp [bytes_length]
    · intro k h1 h2
      rw [bytes_length] at h1
      simp only [bytes, List.getElem_map, List.getElem_range]
      rw [rd_wr, if_neg (by omega), rd_wrList, if_pos (by omega)]
      have : opt + 1 + k - (opt + 1) = k := by omega
      rw [this, List.getD_eq_getElem _ _ h1]
  · intro x hx
    rw [rd_wr, if_neg (by omega), rd_wrList, if_neg (by omega)]

theorem labelsAt_congr (ls : List (List Nat)) (m1 m2 : Mem) (p : Nat)
    (h : ∀ x, p ≤ x → x < p + encLen ls → rd m1 x = rd m2 x) (h1 : LabelsAt m1 p ls) :
    LabelsAt m2 p ls := by
  induction ls generalizing p with
  | nil => trivial
  | cons l ls ih =>
    obtain ⟨ha, hb, hc⟩ := h1
    simp only [encLen] at h
    refine ⟨?_, ?_, ?_⟩
    · rw [← h p (le_refl _) (by omega)]
      exact ha
    · rw [← hb]
      apply (bytes_eq_iff _ _ _ _ _).mpr
      intro k hk
      exact (h _ (by omega) (by omega)).symm
    · apply ih _ _ hc
      intro x hx1 hx2
      exact h x (by omega) (by omega)

end Resolver

namespace Resolver

/-! ## The `while` loop of `Control::a` on a name given by its labels -/

theorem aLoop_labels_ok (NameMax : Nat) (suffix : List Nat) (org : Nat)
    (ls : List (List Nat)) (hne : ls ≠ []) (hch : ∀ l ∈ ls, LabelChars l)
    (hlen : ∀ l ∈ dropEmptyLast ls, 1 ≤ l.length ∧ l.length ≤ 63)
    (opt : Nat) (horg : org ≤ opt)
    (hbud : dropEmptyLast ls = [] ∨ opt + encLen (dropEmptyLast ls) - org < NameMax)
    (n : Nat) (hn : (joinDots ls).length ≤ n) (q : Mem) :
    ∃ q1, Control.aLoop NameMax suffix org n (joinDots ls) true opt q
        = .ok (opt + encLen (dropEmptyLast ls), q1)
      ∧ LabelsAt q1 opt (dropEmptyLast ls)
      ∧ ∀ x, x < opt ∨ opt + encLen (dropEmptyLast ls) ≤ x → rd q1 x = rd q x := by
  induction ls generalizing opt n q with
  | nil => exact absurd rfl hne
  | cons l ls ih =>
    have hl : LabelChars l := hch l (List.mem_cons_self _ _)
    cases ls with
    | nil =>
      by_cases hl0 : l = []
      · subst hl0
        refine ⟨q, ?_, ?_, ?_⟩
        · simp [joinDots, dropEmptyLast, encLen, aLoop_nil]
        · simp [dropEmptyLast, LabelsAt]
        · intro x _; rfl
      · have hd : dropEmptyLast [l] = [l] := by simp [dropEmptyLast, hl0]
        rw [hd] at hlen hbud ⊢
        have hl1 := hlen l (List.mem_cons_self _ _)
        simp only [encLen] at hbud ⊢
        have hbud1 : opt + (1 + l.length + 0) - org < NameMax := by
          rcases hbud with h | h
          · exact absurd h (List.cons_ne_nil _ _)
          · exact h
        have hpos : 0 < l.length := List.length_pos.mpr hl0
        simp only [joinDots] at hn ⊢
        obtain ⟨n1, rfl⟩ : ∃ n1, n = n1 + 1 := ⟨n - 1, by omega⟩
        have hstep := aLoop_iter NameMax suffix org l [] hl hl0 (Or.inl rfl) opt
          (by omega) true n1 q
        rw [List.append_nil] at hstep
        have hnd : ¬ (([] : List Nat).headD 0 = dotChar) := by simp [dotChar]
        rw [if_neg hnd, if_neg (by simp), aLoop_nil] at hstep
        obtain ⟨w1, w2, w3⟩ := label_written q opt l hl1.2
        refine ⟨_, ?_, ⟨w1, w2, trivial⟩, ?_⟩
        · rw [hstep]
          have : opt + 1 + l.length = opt + (1 + l.length + 0) := by omega
          rw [this]
        · intro x hx
          exact w3 x (by omega)
    | cons l2 rest =>
      have hd : dropEmptyLast (l :: l2 :: rest) = l :: dropEmptyLast (l2 :: rest) := rfl
      rw [hd] at hlen hbud ⊢
      have hl1 := hlen l (List.mem_cons_self _ _)
      have hl0 : l ≠ [] := by
        intro h
        subst h
        simp at hl1
      simp only [encLen] at hbud ⊢
      have hbud1 : opt + (1 + l.length + encLen (dropEmptyLast (l2 :: rest))) - org
          < NameMax := by
        rcases hbud with h | h
        · exact absurd h (List.cons_ne_nil _ _)
        · exact h
      have hj : joinDots (l :: l2 :: rest) = l ++ dotChar :: joinDots (l2 :: rest) := rfl
      rw [hj] at hn ⊢
      simp only [List.length_append, List.length_cons] at hn
      obtain ⟨n1, rfl⟩ : ∃ n1, n = n1 + 1 := ⟨n - 1, by omega⟩
      have hstep := aLoop_iter NameMax suffix org l (dotChar :: joinDots (l2 :: rest)) hl hl0
        (Or.inr rfl) opt (by omega) true n1 q
      have hdd : (dotChar :: joinDots (l2 :: rest)).headD 0 = dotChar := rfl
      rw [if_pos hdd, List.tail_cons] at hstep
      obtain ⟨w1, w2, w3⟩ := label_written q opt l hl1.2
      obtain ⟨q1, e1, e2, e3⟩ := ih (List.cons_ne_nil _ _)
        (fun l' hl' => hch l' (List.mem_cons_of_mem _ hl'))
        (fun l' hl' => hlen l' (List.mem_cons_of_mem _ hl'))
        (opt + 1 + l.length) (by omega)
        (by
          by_cases he : dropEmptyLast (l2 :: rest) = []
          · exact Or.inl he
          · right; omega)
        n1 (by omega) (wr (Control.wrList q (opt + 1) l) opt l.length)
      refine ⟨q1, ?_, ⟨?_, ?_, e2⟩, ?_⟩
      · rw [hstep, e1]
        have : opt + 1 + l.length + encLen (dropEmptyLast (l2 :: rest))
            = opt + (1 + l.length + encLen (dropEmptyLast (l2 :: rest))) := by omega
        rw [this]
      · rw [e3 opt (by omega)]
        exact w1
      · rw [← w2]
        apply (bytes_eq_iff _ _ _ _ _).mpr
        intro k hk
        exact e3 _ (by omega)
      · intro x hx
        rw [e3 x (by omega)]
        exact w3 x (by omega)

theorem aLoop_labels_fail (NameMax : Nat) (suffix : List Nat) (org : Nat)
    (ls : List (List Nat)) (hne : ls ≠ []) (hch : ∀ l ∈ ls, LabelChars l)
    (opt : Nat) (horg : org ≤ opt)
    (hbad : ¬ ((∀ l ∈ dropEmptyLast ls, 1 ≤ l.length ∧ l.length ≤ 63)
      ∧ (dropEmptyLast ls = [] ∨ opt + encLen (dropEmptyLast ls) - org < NameMax)))
    (n : Nat) (hn : (joinDots ls).length ≤ n) (q : Mem) :
    ∃ e, Control.aLoop NameMax suffix org n (joinDots ls) true opt q = .error e := by
  induction ls generalizing opt n q with
  | nil => exact absurd rfl hne
  | cons l ls ih =>
    have hl : LabelChars l := hch l (List.mem_cons_self _ _)
    cases ls with
    | nil =>
      by_cases hl0 : l = []
      · subst hl0
        exact absurd (by simp [dropEmptyLast]) hbad
      · have hd : dropEmptyLast [l] = [l] := by simp [dropEmptyLast, hl0]
        rw [hd] at hbad
        have hpos : 0 < l.length := List.length_pos.mpr hl0
        simp only [joinDots] at hn ⊢
        obtain ⟨n1, rfl⟩ : ∃ n1, n = n1 + 1 := ⟨n - 1, by omega⟩
        have hstep := aLoop_iter_fail NameMax suffix org l [] hl hl0 (Or.inl rfl) opt
          (by
            intro hfit
            apply hbad
            refine ⟨?_, Or.inr ?_⟩
            · intro l' hl'
              rw [List.mem_singleton] at hl'
              subst hl'
              omega
            · simp only [encLen]
              omega) true n1 q
        rw [List.append_nil] at hstep
        exact hstep
    | cons l2 rest =>
      have hd : dropEmptyLast (l :: l2 :: rest) = l :: dropEmptyLast (l2 :: rest) := rfl
      rw [hd] at hbad
      have hj : joinDots (l :: l2 :: rest) = l ++ dotChar :: joinDots (l2 :: rest) := rfl
      rw [hj] at hn ⊢
      simp only [List.length_append, List.length_cons] at hn
      obtain ⟨n1, rfl⟩ : ∃ n1, n = n1 + 1 := ⟨n - 1, by omega⟩
      by_cases hl0 : l = []
      · subst hl0
        exact ⟨q, by rw [List.nil_append, aLoop_dot_first]⟩
      · have hpos : 0 < l.length := List.length_pos.mpr hl0
        by_cases hfit : l.length ≤ 63 ∧ opt + 1 + l.length - 1 - org < NameMax - 1
        · have hstep := aLoop_iter NameMax suffix org l (dotChar :: joinDots (l2 :: rest))
            hl hl0 (Or.inr rfl) opt hfit true n1 q
          have hdd : (dotChar :: joinDots (l2 :: rest)).headD 0 = dotChar := rfl
          rw [if_pos hdd, List.tail_cons] at hstep
          rw [hstep]
          apply ih (List.cons_ne_nil _ _)
            (fun l' hl' => hch l' (List.mem_cons_of_mem _ hl')) (opt + 1 + l.length)
            (by omega) _ n1 (by omega)
          intro hgood
          apply hbad
          refine ⟨?_, Or.inr ?_⟩
          · intro l' hl'
            rcases List.mem_cons.mp hl' with h | h
            · subst h; omega
            · exact hgood.1 l' h
          · simp only [encLen]
            rcases hgood.2 with h | h
            · rw [h]
              simp only [encLen]
              omega
            · omega
        · exact aLoop_iter_fail NameMax suffix org l (dotChar :: joinDots (l2 :: rest))
            hl hl0 (Or.inr rfl) opt hfit true n1 q

end Resolver

namespace Resolver

/-! ## Strings and their labels -/

theorem joinDots_eq_intercalate (ls : List (List Nat)) :
    joinDots ls = [dotChar].intercalate ls := by
  induction ls with
  | nil => rfl
  | cons l ls ih =>
    cases ls with
    | nil => simp [joinDots, List.intercalate]
    | cons l2 rest =>
      have hj : joinDots (l :: l2 :: rest) = l ++ dotChar :: joinDots (l2 :: rest) := rfl
      rw [hj, ih]
      simp [List.intercalate]

theorem joinDots_splitOn (e : List Nat) : joinDots (e.splitOn dotChar) = e := by
  rw [joinDots_eq_intercalate]
  exact List.intercalate_splitOn e dotChar

theorem splitOn_ne_nil (e : List Nat) : e.splitOn dotChar ≠ [] :=
  List.splitOnP_ne_nil _ _

theorem splitOn_cons (c : Nat) (e : List Nat) :
    (c :: e).splitOn dotChar
      = if c = dotChar then [] :: e.splitOn dotChar
        else (e.splitOn dotChar).modifyHead (List.cons c) := by
  unfold List.splitOn
  rw [List.splitOnP_cons]
  by_cases h : c = dotChar <;> simp [h]

theorem mem_modifyHead_cons (c : Nat) (ls : List (List Nat)) (l : List Nat)
    (h : l ∈ ls.modifyHead (List.cons c)) :
    l ∈ ls ∨ ∃ l0, l0 ∈ ls ∧ l = c :: l0 := by
  cases ls with
  | nil => simp at h
  | cons a as =>
    simp only [List.modifyHead, List.mem_cons] at h ⊢
    rcases h with h | h
    · exact Or.inr ⟨a, Or.inl rfl, h⟩
    · exact Or.inl (Or.inr h)

theorem splitOn_parts (e : List Nat) :
    ∀ l ∈ e.splitOn dotChar, ∀ c ∈ l, c ≠ dotChar ∧ c ∈ e := by
  induction e with
  | nil => simp
  | cons x xs ih =>
    intro l hl c hc
    rw [splitOn_cons] at hl
    by_cases hx : x = dotChar
    · rw [if_pos hx] at hl
      rcases List.mem_cons.mp hl with h | h
      · subst h; simp at hc
      · exact ⟨(ih l h c hc).1, List.mem_cons_of_mem _ (ih l h c hc).2⟩
    · rw [if_neg hx] at hl
      rcases mem_modifyHead_cons x _ l hl with h | ⟨l0, h0, rfl⟩
      · exact ⟨(ih l h c hc).1, List.mem_cons_of_mem _ (ih l h c hc).2⟩
      · rcases List.mem_cons.mp hc with h | h
        · subst h
          exact ⟨hx, List.mem_cons_self _ _⟩
        · exact ⟨(ih l0 h0 c h).1, List.mem_cons_of_mem _ (ih l0 h0 c h).2⟩

theorem splitOn_labelChars (e : List Nat) (he : IsCStr e) :
    ∀ l ∈ e.splitOn dotChar, LabelChars l := by
  intro l hl c hc
  obtain ⟨h1, h2⟩ := splitOn_parts e l hl c hc
  exact ⟨he c h2, h1⟩

theorem splitOn_eq_single_nil (e : List Nat) (h : e.splitOn dotChar = [[]]) : e = [] := by
  have := joinDots_splitOn e
  rw [h] at this
  exact this.symm

theorem dropEmptyLast_modifyHead (c : Nat) (ls : List (List Nat)) (h : ls ≠ [[]]) :
    dropEmptyLast (ls.modifyHead (List.cons c)) = (dropEmptyLast ls).modifyHead (List.cons c) := by
  cases ls with
  | nil => rfl
  | cons a as =>
    cases as with
    | nil =>
      have ha : a ≠ [] := by
        intro h0
        subst h0
        exact h rfl
      simp [List.modifyHead, dropEmptyLast, ha]
    | cons a2 as2 => rfl

theorem stripDot_cons (c : Nat) (e : List Nat) (he : e ≠ []) :
    stripDot (c :: e) = c :: stripDot e := by
  unfold stripDot
  cases e with
  | nil => exact absurd rfl he
  | cons d ds =>
    rw [List.getLast?_cons_cons]
    by_cases h : (d :: ds).getLast? = some dotChar
    · rw [if_pos h, if_pos h]
      rfl
    · rw [if_neg h, if_neg h]

theorem dropEmptyLast_splitOn (e : List Nat) (he : e ≠ []) :
    dropEmptyLast (e.splitOn dotChar) = labelsOf e := by
  unfold labelsOf
  induction e with
  | nil => exact absurd rfl he
  | cons c e ih =>
    by_cases he0 : e = []
    · subst he0
      by_cases hc : c = dotChar
      · subst hc
        simp [stripDot, splitOn_cons, dropEmptyLast]
      · have h1 : stripDot [c] = [c] := by simp [stripDot, hc]
        rw [h1]
        simp [splitOn_cons, hc, dropEmptyLast, List.modifyHead]
    · rw [stripDot_cons c e he0, splitOn_cons, splitOn_cons, ← ih he0]
      by_cases hc : c = dotChar
      · rw [if_pos hc, if_pos hc]
        obtain ⟨a, as, has⟩ := List.exists_cons_of_ne_nil (splitOn_ne_nil e)
        rw [has]
        rfl
      · rw [if_neg hc, if_neg hc]
        apply dropEmptyLast_modifyHead
        intro h
        exact he0 (splitOn_eq_single_nil e h)

theorem dropEmptyLast_splitOn_ne_nil (e : List Nat) (he : e ≠ []) :
    dropEmptyLast (e.splitOn dotChar) ≠ [] := by
  obtain ⟨a, as, has⟩ := List.exists_cons_of_ne_nil (splitOn_ne_nil e)
  rw [has]
  cases as with
  | nil =>
    have ha : a ≠ [] := by
      intro h0
      subst h0
      exact he (splitOn_eq_single_nil e has)
    simp [dropEmptyLast, ha]
  | cons a2 as2 => simp [dropEmptyLast]

end Resolver

namespace Resolver

/-! ## The suffix -/

theorem aLoop_suffix_irrel (NameMax : Nat) (s1 s2 : List Nat) (org n : Nat)
    (hostName : List Nat) (opt : Nat) (q : Mem) :
    Control.aLoop NameMax s1 org n hostName true opt q
      = Control.aLoop NameMax s2 org n hostName true opt q := by
  induction n generalizing hostName opt q with
  | zero => simp [Control.aLoop]
  | succ n ih =>
    rw [Control.aLoop, Control.aLoop]
    by_cases h0 : hostName.headD 0 = 0
    · rw [if_pos h0, if_pos h0]
    · rw [if_neg h0, if_neg h0]
      generalize Control.aLabel NameMax org hostName 0 (opt + 1) q = r
      rcases r with e | ⟨i1, o1, q1, rest⟩
      · rfl
      · simp only [ih, Bool.not_true, Bool.false_and, Bool.false_eq_true, if_false]

theorem split_first_label (h : List Nat) :
    ∃ l rest, h = l ++ rest ∧ (∀ c ∈ l, c ≠ dotChar)
      ∧ (rest = [] ∨ ∃ r, rest = dotChar :: r) := by
  induction h with
  | nil => exact ⟨[], [], rfl, by simp, Or.inl rfl⟩
  | cons c cs ih =>
    by_cases hc : c = dotChar
    · exact ⟨[], c :: cs, rfl, by simp, Or.inr ⟨cs, by rw [hc]⟩⟩
    · obtain ⟨l, rest, h1, h2, h3⟩ := ih
      refine ⟨c :: l, rest, by rw [h1]; rfl, ?_, h3⟩
      intro d hd
      rcases List.mem_cons.mp hd with h | h
      · rw [h]; exact hc
      · exact h2 d h

/-- From a non-empty host name, the loop of `Control::a` started with `dot = false` does
what it does, started with `dot = true`, on the effective name. -/
theorem aLoop_effective (NameMax : Nat) (s : List Nat) (org : Nat) (h : List Nat)
    (hh : IsCStr h) (hne : h ≠ []) (hs : IsCStr s) (n n2 : Nat)
    (hn : h.length + s.length ≤ n) (hn2 : (effectiveName s h).length ≤ n2)
    (opt : Nat) (q : Mem) :
    Control.aLoop NameMax s org n h false opt q
      = Control.aLoop NameMax s org n2 (effectiveName s h) true opt q := by
  obtain ⟨l, rest, rfl, hl, hrest⟩ := split_first_label h
  have hlc : LabelChars l := fun c hc => ⟨hh c (List.mem_append_left _ hc), hl c hc⟩
  rcases hrest with hr | ⟨r, hr⟩
  · -- no dot in the host name
    subst hr
    have hl0 : l ≠ [] := by simpa using hne
    have hpos : 0 < l.length := List.length_pos.mpr hl0
    have hnd : dotChar ∉ l ++ [] := by
      rw [List.append_nil]
      exact fun hd => hl _ hd rfl
    by_cases hs0 : s = []
    · subst hs0
      have he : effectiveName [] (l ++ []) = l ++ [] := by simp [effectiveName]
      rw [he] at hn2 ⊢
      simp only [List.length_append, List.length_nil] at hn hn2
      obtain ⟨n1, rfl⟩ : ∃ n1, n = n1 + 1 := ⟨n - 1, by omega⟩
      obtain ⟨m1, rfl⟩ : ∃ m1, n2 = m1 + 1 := ⟨n2 - 1, by omega⟩
      rw [Control.aLoop, Control.aLoop, if_neg (labelChars_head l hlc hl0 []),
        if_neg (labelChars_head l hlc hl0 []),
        aLabel_append NameMax org l [] hlc (Or.inl rfl)]
      generalize Control.aLabel NameMax org l 0 (opt + 1) q = res
      rcases res with e | ⟨i1, o1, q1, x⟩
      · rfl
      · simp [aLoop_nil, dotChar]
    · have he : effectiveName s (l ++ []) = l ++ dotChar :: s := by
        unfold effectiveName
        rw [if_neg (by tauto), List.append_nil]
      rw [he] at hn2 ⊢
      simp only [List.length_append, List.length_nil, List.length_cons] at hn hn2
      obtain ⟨n1, rfl⟩ : ∃ n1, n = n1 + 1 := ⟨n - 1, by omega⟩
      obtain ⟨m1, rfl⟩ : ∃ m1, n2 = m1 + 1 := ⟨n2 - 1, by omega⟩
      have hsh : s.headD 0 ≠ 0 := by
        cases s with
        | nil => exact absurd rfl hs0
        | cons d ds => simpa using hs d (List.mem_cons_self _ _)
      rw [Control.aLoop, Control.aLoop, if_neg (labelChars_head l hlc hl0 []),
        if_neg (labelChars_head l hlc hl0 _),
        aLabel_append NameMax org l [] hlc (Or.inl rfl),
        aLabel_append NameMax org l (dotChar :: s) hlc (Or.inr rfl)]
      generalize Control.aLabel NameMax org l 0 (opt + 1) q = res
      rcases res with e | ⟨i1, o1, q1, x⟩
      · rfl
      · simp only
        by_cases hi : i1 = 0
        · rw [if_pos hi, if_pos hi]
        · have h1 : ¬ (([] : List Nat).headD 0 = dotChar) := by simp [dotChar]
          have h2 : (dotChar :: s).headD 0 = dotChar := rfl
          have h3 : (!false && decide (s.headD 0 ≠ 0)) = true := by
            rw [Bool.not_false, Bool.true_and]
            exact decide_eq_true hsh
          rw [if_neg hi, if_neg hi, if_neg h1, if_pos h3, if_pos h2, List.tail_cons]
          apply aLoop_fuel <;> simp <;> omega
  · -- the host name contains a dot
    subst hr
    have he : effectiveName s (l ++ dotChar :: r) = l ++ dotChar :: r := by
      unfold effectiveName
      rw [if_pos (Or.inl (by simp))]
    rw [he] at hn2 ⊢
    simp only [List.length_append, List.length_cons] at hn hn2
    obtain ⟨n1, rfl⟩ : ∃ n1, n = n1 + 1 := ⟨n - 1, by omega⟩
    obtain ⟨m1, rfl⟩ : ∃ m1, n2 = m1 + 1 := ⟨n2 - 1, by omega⟩
    by_cases hl0 : l = []
    · subst hl0
      rw [List.nil_append, aLoop_dot_first, aLoop_dot_first]
    · rw [Control.aLoop, Control.aLoop, if_neg (labelChars_head l hlc hl0 _),
        if_neg (labelChars_head l hlc hl0 _),
        aLabel_append NameMax org l (dotChar :: r) hlc (Or.inr rfl)]
      generalize Control.aLabel NameMax org l 0 (opt + 1) q = res
      rcases res with e | ⟨i1, o1, q1, x⟩
      · rfl
      · simp only
        by_cases hi : i1 = 0
        · rw [if_pos hi, if_pos hi]
        · have h2 : (dotChar :: r).headD 0 = dotChar := rfl
          rw [if_neg hi, if_neg hi, if_pos h2, if_pos h2, List.tail_cons]
          apply aLoop_fuel <;> simp <;> omega

end Resolver

namespace Resolver

/-! ## `Control::a` on well-formed and on ill-formed names -/

theorem rd_stampHeader_frame (q : Mem) (id x : Nat) (hx : 12 ≤ x) :
    rd (Control.stampHeader q id) x = rd q x := by
  unfold Control.stampHeader
  simp only [rd_wr16]
  repeat rw [if_neg (by omega)]

theorem encLen_pos (ls : List (List Nat)) (h : ls ≠ []) : 0 < encLen ls := by
  cases ls with
  | nil => exact absurd rfl h
  | cons l ls => simp only [encLen]; omega

theorem effectiveName_ne_nil (s h : List Nat) (hne : h ≠ []) : effectiveName s h ≠ [] := by
  unfold effectiveName
  split
  · exact hne
  · simp

theorem length_le_effectiveName (s h : List Nat) : h.length ≤ (effectiveName s h).length := by
  unfold effectiveName
  split
  · exact le_refl _
  · simp

theorem wellFormed_hostName_ne_nil (NameMax : Nat) (s h : List Nat)
    (hw : WellFormed NameMax (effectiveName s h)) : h ≠ [] := by
  intro h0
  subst h0
  obtain ⟨h1, h2, -⟩ := hw
  by_cases hs : s = []
  · subst hs
    exact h1 (by simp [effectiveName])
  · have he : effectiveName s [] = dotChar :: s := by
      unfold effectiveName
      rw [if_neg (by simp [hs])]
      rfl
    rw [he] at h2
    rw [← dropEmptyLast_splitOn _ (List.cons_ne_nil _ _), splitOn_cons, if_pos rfl] at h2
    obtain ⟨x, xs, hx⟩ := List.exists_cons_of_ne_nil (splitOn_ne_nil s)
    rw [hx] at h2
    have := h2 [] (by simp [dropEmptyLast])
    simp at this

/-- On a well-formed effective name `Control::a` returns the length of the query and
leaves in the buffer the header, the labels, the terminator, the type and the class. -/
theorem a_ok (NameMax : Nat) (s : List Nat) (q : Mem) (id : Nat) (h : List Nat)
    (hh : IsCStr h) (hs : IsCStr s) (hw : WellFormed NameMax (effectiveName s h)) :
    ∃ q1, Control.a NameMax s q id h
        = (12 + encLen (labelsOf (effectiveName s h)) + 5, q1)
      ∧ LabelsAt q1 12 (labelsOf (effectiveName s h))
      ∧ rd q1 (12 + encLen (labelsOf (effectiveName s h))) = 0
      ∧ rd16 q1 (12 + encLen (labelsOf (effectiveName s h)) + 1) = DNSType.A
      ∧ rd16 q1 (12 + encLen (labelsOf (effectiveName s h)) + 3) = DNSClass.IN
      ∧ (∀ x, x < 12 → rd q1 x = rd (Control.stampHeader q id) x)
      ∧ (∀ x, 12 + encLen (labelsOf (effectiveName s h)) + 5 ≤ x → rd q1 x = rd q x) := by
  have hne := wellFormed_hostName_ne_nil NameMax s h hw
  have hene := effectiveName_ne_nil s h hne
  obtain ⟨-, hw2, hw3⟩ := hw
  have hd := dropEmptyLast_splitOn _ hene
  have hR := aLoop_effective NameMax s 12 h hh hne hs (h.length + s.length)
    (effectiveName s h).length (le_refl _) (le_refl _) 12 (Control.stampHeader q id)
  have hcs : IsCStr (effectiveName s h) := by
    unfold effectiveName
    split
    · exact hh
    · intro c hc
      rcases List.mem_append.mp hc with h1 | h1
      · exact hh c h1
      · rcases List.mem_cons.mp h1 with h2 | h2
        · rw [h2]; decide
        · exact hs c h2
  obtain ⟨q1, e1, e2, e3⟩ := aLoop_labels_ok NameMax s 12
    ((effectiveName s h).splitOn dotChar) (splitOn_ne_nil _)
    (splitOn_labelChars _ hcs) (by rw [hd]; exact hw2) 12 (le_refl _)
    (by rw [hd]; right; omega) (effectiveName s h).length
    (by rw [joinDots_splitOn]) (Control.stampHeader q id)
  rw [joinDots_splitOn, hd] at e1
  rw [hd] at e2 e3
  have hpos : 0 < encLen (labelsOf (effectiveName s h)) := by
    apply encLen_pos
    rw [← hd]
    exact dropEmptyLast_splitOn_ne_nil _ hene
  refine ⟨wr16 (wr16 (wr q1 (12 + encLen (labelsOf (effectiveName s h))) 0)
      (12 + encLen (labelsOf (effectiveName s h)) + 1) DNSType.A)
      (12 + encLen (labelsOf (effectiveName s h)) + 3) DNSClass.IN,
    ?_, ?_, ?_, ?_, ?_, ?_, ?_⟩
  · unfold Control.a
    simp only [DNSHdr.size]
    rw [hR, e1]
    simp only
    rw [if_neg (by omega)]
  · apply labelsAt_congr _ _ _ _ _ e2
    intro x hx1 hx2
    simp only [rd_wr16, rd_wr]
    split_ifs <;> omega
  · simp only [rd_wr16, rd_wr]
    split_ifs <;> omega
  · unfold rd16
    simp only [rd_wr16, rd_wr]
    split_ifs <;> first | omega | rfl
  · unfold rd16
    simp only [rd_wr16, rd_wr]
    split_ifs <;> first | omega | rfl
  · intro x hx
    simp only [rd_wr16, rd_wr]
    split_ifs <;> first | omega | exact e3 x (by omega)
  · intro x hx
    simp only [rd_wr16, rd_wr]
    split_ifs <;> first | omega | (rw [e3 x (by omega)]; exact rd_stampHeader_frame q id x (by omega))

end Resolver

namespace Resolver

theorem isCStr_effectiveName (s h : List Nat) (hh : IsCStr h) (hs : IsCStr s) :
    IsCStr (effectiveName s h) := by
  unfold effectiveName
  split
  · exact hh
  · intro c hc
    rcases List.mem_append.mp hc with h1 | h1
    · exact hh c h1
    · rcases List.mem_cons.mp h1 with h2 | h2
      · rw [h2]; decide
      · exact hs c h2

/-- On an effective name that is not well formed `Control::a` returns 0. -/
theorem a_fail (NameMax : Nat) (s : List Nat) (q : Mem) (id : Nat) (h : List Nat)
    (hh : IsCStr h) (hs : IsCStr s) (hw : ¬ WellFormed NameMax (effectiveName s h)) :
    (Control.a NameMax s q id h).1 = 0 := by
  by_cases hne : h = []
  · subst hne
    unfold Control.a
    simp [aLoop_nil]
  · have hene := effectiveName_ne_nil s h hne
    have hd := dropEmptyLast_splitOn _ hene
    have hR := aLoop_effective NameMax s 12 h hh hne hs (h.length + s.length)
      (effectiveName s h).length (le_refl _) (le_refl _) 12 (Control.stampHeader q id)
    obtain ⟨e, he⟩ := aLoop_labels_fail NameMax s 12
      ((effectiveName s h).splitOn dotChar) (splitOn_ne_nil _)
      (splitOn_labelChars _ (isCStr_effectiveName s h hh hs)) 12 (le_refl _)
      (by
        rw [hd]
        intro hgood
        apply hw
        refine ⟨hene, hgood.1, ?_⟩
        rcases hgood.2 with h1 | h1
        · exact absurd (hd ▸ h1) (dropEmptyLast_splitOn_ne_nil _ hene)
        · omega)
      (effectiveName s h).length (by rw [joinDots_splitOn]) (Control.stampHeader q id)
    rw [joinDots_splitOn] at he
    unfold Control.a
    simp only [DNSHdr.size]
    rw [hR, he]

end Resolver

namespace Resolver

/-! ## Encoding succeeds exactly on well-formed names -/

/-- C8: for C strings `hostName` and `suffix`, with `E = effectiveName suffix hostName`
(the host name when it contains a `.` or the suffix is empty, the host name, a `.` and
the suffix otherwise), `Control::a` returns a positive length iff `E` is not empty and,
one trailing `.` removed, splits on `.` into labels of 1 to 63 bytes whose wire form,
terminator included, takes at most `NameMax` bytes; in every other case it returns 0. -/
theorem a_positive_iff_wellFormed (NameMax : Nat) (suffix : List Nat) (query : Mem)
    (id : Nat) (hostName : List Nat) (hh : IsCStr hostName) (hs : IsCStr suffix) :
    (0 < (Control.a NameMax suffix query id hostName).1
        ↔ WellFormed NameMax (effectiveName suffix hostName))
      ∧ (¬ WellFormed NameMax (effectiveName suffix hostName)
        → (Control.a NameMax suffix query id hostName).1 = 0) := by
  refine ⟨⟨?_, ?_⟩, a_fail NameMax suffix query id hostName hh hs⟩
  · intro hpos
    by_contra hw
    have := a_fail NameMax suffix query id hostName hh hs hw
    omega
  · intro hw
    obtain ⟨q1, e1, -⟩ := a_ok NameMax suffix query id hostName hh hs hw
    rw [e1]
    show 0 < 12 + encLen (labelsOf (effectiveName suffix hostName)) + 5
    omega

/-- C8, at the host name `a.b` without a suffix and `NameMax = 255`. -/
theorem a_positive_iff_wellFormed_witness :
    IsCStr [97, 46, 98] ∧ IsCStr []
      ∧ ((0 < (Control.a 255 [] (fun _ => 0) 1 [97, 46, 98]).1
          ↔ WellFormed 255 (effectiveName [] [97, 46, 98]))
        ∧ (¬ WellFormed 255 (effectiveName [] [97, 46, 98])
          → (Control.a 255 [] (fun _ => 0) 1 [97, 46, 98]).1 = 0)) :=
  ⟨by decide, by decide,
    a_positive_iff_wellFormed 255 [] (fun _ => 0) 1 [97, 46, 98] (by decide) (by decide)⟩

end Resolver

namespace Resolver

/-! ## The label bound -/

theorem mem_dropEmptyLast (ls : List (List Nat)) (l : List Nat) (hl : l ∈ ls) (hne : l ≠ []) :
    l ∈ dropEmptyLast ls := by
  induction ls with
  | nil => simp at hl
  | cons a as ih =>
    cases as with
    | nil =>
      have : l = a := by simpa using hl
      subst this
      simp [dropEmptyLast, hne]
    | cons a2 as2 =>
      have hd : dropEmptyLast (a :: a2 :: as2) = a :: dropEmptyLast (a2 :: as2) := rfl
      rw [hd]
      rcases List.mem_cons.mp hl with h | h
      · rw [h]; exact List.mem_cons_self _ _
      · exact List.mem_cons_of_mem _ (ih h)

theorem splitOn_single (l : List Nat) (hl : ∀ c ∈ l, c ≠ dotChar) :
    l.splitOn dotChar = [l] := by
  apply List.splitOnP_eq_single
  intro x hx
  simpa using hl x hx

theorem splitOn_append_dot (l r : List Nat) (hl : ∀ c ∈ l, c ≠ dotChar) :
    (l ++ dotChar :: r).splitOn dotChar = l :: r.splitOn dotChar := by
  apply List.splitOnP_first
  · intro x hx
    simpa using hl x hx
  · simp

theorem long_label_not_wellFormed (NameMax : Nat) (s h : List Nat)
    (hlong : ∃ l ∈ h.splitOn dotChar, 64 ≤ l.length) :
    ¬ WellFormed NameMax (effectiveName s h) := by
  obtain ⟨l, hl, hlen⟩ := hlong
  have hl0 : l ≠ [] := by
    intro h0
    subst h0
    simp at hlen
  have hne : h ≠ [] := by
    intro h0
    subst h0
    simp at hl
    exact hl0 hl
  intro hw
  obtain ⟨-, hw2, -⟩ := hw
  rw [← dropEmptyLast_splitOn _ (effectiveName_ne_nil s h hne)] at hw2
  have hmem : l ∈ dropEmptyLast ((effectiveName s h).splitOn dotChar) := by
    apply mem_dropEmptyLast _ _ _ hl0
    unfold effectiveName
    by_cases hc : dotChar ∈ h ∨ s = []
    · rw [if_pos hc]
      exact hl
    · rw [if_neg hc]
      have hnd : ∀ c ∈ h, c ≠ dotChar := fun c hc1 hc2 => hc (Or.inl (hc2 ▸ hc1))
      rw [splitOn_append_dot h s hnd]
      rw [splitOn_single h hnd] at hl
      have : l = h := by simpa using hl
      rw [this]
      exact List.mem_cons_self _ _
  have := (hw2 l hmem).2
  omega

theorem single_label_wellFormed (NameMax : Nat) (h : List Nat) (hl : LabelChars h)
    (hlen : 1 ≤ h.length ∧ h.length ≤ 63) (hmax : h.length + 2 ≤ NameMax) :
    WellFormed NameMax (effectiveName [] h) ∧ labelsOf (effectiveName [] h) = [h] := by
  have he : effectiveName [] h = h := by simp [effectiveName]
  have hne : h ≠ [] := by
    intro h0
    subst h0
    simp at hlen
  have hlab : labelsOf h = [h] := by
    rw [← dropEmptyLast_splitOn h hne, splitOn_single h (fun c hc => (hl c hc).2)]
    simp [dropEmptyLast, hne]
  rw [he]
  refine ⟨⟨hne, ?_, ?_⟩, hlab⟩
  · rw [hlab]
    intro l hl1
    have : l = h := by simpa using hl1
    rw [this]
    exact hlen
  · rw [hlab]
    simp only [encLen]
    omega

/-- C9: for C strings, `Control::a` returns 0 on every host name one of whose labels
(what stands between its dots) has 64 bytes or more, whatever the suffix; and with no
suffix configured and `NameMax` at least 65, a host name that is a single label of
exactly 63 bytes is encoded, the returned length being positive. -/
theorem label_bound (NameMax : Nat) (suffix : List Nat) (query : Mem) (id : Nat)
    (hostName : List Nat) (hh : IsCStr hostName) (hs : IsCStr suffix) :
    ((∃ l ∈ hostName.splitOn dotChar, 64 ≤ l.length)
        → (Control.a NameMax suffix query id hostName).1 = 0)
      ∧ (LabelChars hostName → hostName.length = 63 → 65 ≤ NameMax
        → 0 < (Control.a NameMax [] query id hostName).1) := by
  constructor
  · intro hlong
    exact a_fail NameMax suffix query id hostName hh hs
      (long_label_not_wellFormed NameMax suffix hostName hlong)
  · intro hl hlen hmax
    obtain ⟨hw, -⟩ := single_label_wellFormed NameMax hostName hl (by omega) (by omega)
    obtain ⟨q1, e1, -⟩ := a_ok NameMax [] query id hostName hh (by intro c hc; simp at hc) hw
    rw [e1]
    show 0 < 12 + encLen (labelsOf (effectiveName [] hostName)) + 5
    omega

/-- C9, at a label of 64 letters `a` and at a label of 63 letters `a`, with
`NameMax = 255` and no suffix. -/
theorem label_bound_witness :
    IsCStr (List.replicate 64 97) ∧ IsCStr []
      ∧ (∃ l ∈ (List.replicate 64 97).splitOn dotChar, 64 ≤ l.length)
      ∧ (Control.a 255 [] (fun _ => 0) 1 (List.replicate 64 97)).1 = 0
      ∧ IsCStr (List.replicate 63 97) ∧ LabelChars (List.replicate 63 97)
      ∧ (List.replicate 63 97).length = 63 ∧ 65 ≤ 255
      ∧ 0 < (Control.a 255 [] (fun _ => 0) 1 (List.replicate 63 97)).1 :=
  ⟨by decide, by decide,
    ⟨List.replicate 64 97, by
      rw [splitOn_single _ (by decide)]
      exact List.mem_singleton_self _, by decide⟩,
    (label_bound 255 [] (fun _ => 0) 1 (List.replicate 64 97) (by decide) (by decide)).1
      ⟨List.replicate 64 97, by
        rw [splitOn_single _ (by decide)]
        exact List.mem_singleton_self _, by decide⟩,
    by decide, by decide, by decide, by decide,
    (label_bound 255 [] (fun _ => 0) 1 (List.replicate 63 97) (by decide) (by decide)).2
      (by decide) (by decide) (by decide)⟩

end Resolver

namespace Resolver

/-! ## The suffix is appended to a bare name -/

theorem bytes_append (m : Mem) (p a b : Nat) :
    bytes m p (a + b) = bytes m p a ++ bytes m (p + a) b := by
  apply List.ext_getElem
  · simp [bytes_length]
  · intro k h1 h2
    rw [bytes_length] at h1
    by_cases hk : k < a
    · rw [List.getElem_append_left (by rw [bytes_length]; exact hk)]
      simp [bytes]
    · rw [List.getElem_append_right (by rw [bytes_length]; omega)]
      simp only [bytes, List.getElem_map, List.getElem_range, List.length_map,
        List.length_range]
      congr 1
      omega

theorem bytes_one (m : Mem) (p : Nat) : bytes m p 1 = [rd m p] := rfl

theorem labelsAt_bytes (m : Mem) (p : Nat) (ls : List (List Nat))
    (h : LabelsAt m p ls) (hb : ∀ l ∈ ls, ∀ c ∈ l, c < 256) :
    bytes m p (encLen ls) = encodeLabels ls := by
  induction ls generalizing p with
  | nil => simp [encLen, encodeLabels, bytes]
  | cons l ls ih =>
    obtain ⟨h1, h2, h3⟩ := h
    have hl : l.map (· % 256) = l := by
      conv_rhs => rw [← List.map_id l]
      apply List.map_congr_left
      intro c hc
      exact Nat.mod_eq_of_lt (hb l (List.mem_cons_self _ _) c hc)
    simp only [encLen, encodeLabels]
    rw [Nat.add_assoc, bytes_append, bytes_append, bytes_one, h1, h2, hl,
      ih (p + 1 + l.length) h3 (fun l' hl' => hb l' (List.mem_cons_of_mem _ hl'))]
    simp

theorem a_congr_suffix (NameMax : Nat) (s s2 : List Nat) (q : Mem) (id : Nat) (h : List Nat)
    (hh : IsCStr h) (hne : h ≠ []) (hnd : dotChar ∉ h) (hs : IsCStr s) (hsne : s ≠ [])
    (hs2 : IsCStr s2) :
    Control.a NameMax s q id h = Control.a NameMax s2 q id (h ++ dotChar :: s) := by
  have he1 : effectiveName s h = h ++ dotChar :: s := by
    unfold effectiveName
    rw [if_neg (by tauto)]
  have he2 : effectiveName s2 (h ++ dotChar :: s) = h ++ dotChar :: s := by
    unfold effectiveName
    rw [if_pos (Or.inl (by simp))]
  have hc2 : IsCStr (h ++ dotChar :: s) := by
    rw [← he1]
    exact isCStr_effectiveName s h hh hs
  have e1 := aLoop_effective NameMax s 12 h hh hne hs (h.length + s.length)
    (h ++ dotChar :: s).length (le_refl _) (by rw [he1]) 12 (Control.stampHeader q id)
  have e2 := aLoop_effective NameMax s2 12 (h ++ dotChar :: s) hc2 (by simp) hs2
    ((h ++ dotChar :: s).length + s2.length) (h ++ dotChar :: s).length (le_refl _)
    (by rw [he2]) 12 (Control.stampHeader q id)
  rw [he1] at e1
  rw [he2, aLoop_suffix_irrel NameMax s2 s] at e2
  unfold Control.a
  simp only [DNSHdr.size]
  rw [e1, e2]

theorem host_example_labels :
    labelsOf (effectiveName [101, 120, 97, 109, 112, 108, 101, 46, 99, 111, 109]
        [104, 111, 115, 116])
      = [[104, 111, 115, 116], [101, 120, 97, 109, 112, 108, 101], [99, 111, 109]] := by
  decide

/-- C10: for C strings, a non-empty host name `h` without a `.` and a non-empty suffix
`s`, `Control::a(id, h)` under the suffix `s` returns the same length and leaves the same
query buffer as `Control::a(id, h + "." + s)` under any suffix `s2`; and when `NameMax` is
at least 18, `host` under the suffix `example.com` is encoded as the labels `host`,
`example`, `com` and the terminator, each once. -/
theorem suffix_application (NameMax : Nat) (s s2 : List Nat) (query : Mem) (id : Nat)
    (h : List Nat) (hh : IsCStr h) (hne : h ≠ []) (hnd : dotChar ∉ h) (hs : IsCStr s)
    (hsne : s ≠ []) (hs2 : IsCStr s2) :
    Control.a NameMax s query id h = Control.a NameMax s2 query id (h ++ dotChar :: s)
      ∧ (18 ≤ NameMax →
        (Control.a NameMax [101, 120, 97, 109, 112, 108, 101, 46, 99, 111, 109] query id
            [104, 111, 115, 116]).1 = 34
          ∧ bytes (Control.a NameMax [101, 120, 97, 109, 112, 108, 101, 46, 99, 111, 109]
              query id [104, 111, 115, 116]).2 12 18
            = encodeLabels [[104, 111, 115, 116], [101, 120, 97, 109, 112, 108, 101],
                [99, 111, 109]] ++ [0]) := by
  refine ⟨a_congr_suffix NameMax s s2 query id h hh hne hnd hs hsne hs2, ?_⟩
  intro hmax
  have hw : WellFormed NameMax
      (effectiveName [101, 120, 97, 109, 112, 108, 101, 46, 99, 111, 109]
        [104, 111, 115, 116]) := by
    refine ⟨by decide, ?_, ?_⟩
    · rw [host_example_labels]
      decide
    · rw [host_example_labels]
      simp only [encLen, List.length_cons, List.length_nil]
      omega
  obtain ⟨q1, e1, e2, e3, -⟩ := a_ok NameMax _ query id _ (by decide) (by decide) hw
  rw [host_example_labels] at e1 e2 e3
  rw [e1]
  refine ⟨by simp [encLen], ?_⟩
  have hb := labelsAt_bytes q1 12 _ e2 (by decide)
  have h18 : (18 : Nat) = encLen [[104, 111, 115, 116], [101, 120, 97, 109, 112, 108, 101],
      [99, 111, 109]] + 1 := by simp [encLen]
  show bytes q1 12 18 = _
  rw [h18, bytes_append, bytes_one, hb, e3]

/-- C10, at the host name `host`, the suffix `example.com` and `NameMax = 255`. -/
theorem suffix_application_witness :
    IsCStr [104, 111, 115, 116] ∧ [104, 111, 115, 116] ≠ []
      ∧ dotChar ∉ [104, 111, 115, 116]
      ∧ IsCStr [101, 120, 97, 109, 112, 108, 101, 46, 99, 111, 109]
      ∧ [101, 120, 97, 109, 112, 108, 101, 46, 99, 111, 109] ≠ [] ∧ IsCStr []
      ∧ Control.a 255 [101, 120, 97, 109, 112, 108, 101, 46, 99, 111, 109] (fun _ => 0) 1
          [104, 111, 115, 116]
        = Control.a 255 [] (fun _ => 0) 1
          ([104, 111, 115, 116]
            ++ dotChar :: [101, 120, 97, 109, 112, 108, 101, 46, 99, 111, 109])
      ∧ (Control.a 255 [101, 120, 97, 109, 112, 108, 101, 46, 99, 111, 109] (fun _ => 0) 1
            [104, 111, 115, 116]).1 = 34
      ∧ bytes (Control.a 255 [101, 120, 97, 109, 112, 108, 101, 46, 99, 111, 109]
            (fun _ => 0) 1 [104, 111, 115, 116]).2 12 18
          = encodeLabels [[104, 111, 115, 116], [101, 120, 97, 109, 112, 108, 101],
              [99, 111, 109]] ++ [0] :=
  ⟨by decide, by decide, by decide, by decide, by decide, by decide,
    (suffix_application 255 [101, 120, 97, 109, 112, 108, 101, 46, 99, 111, 109] []
      (fun _ => 0) 1 [104, 111, 115, 116] (by decide) (by decide)
      (by decide) (by decide) (by decide) (by decide)).1,
    (suffix_application 255 [101, 120, 97, 109, 112, 108, 101, 46, 99, 111, 109] []
      (fun _ => 0) 1 [104, 111, 115, 116] (by decide) (by decide)
      (by decide) (by decide) (by decide) (by decide)).2 (by decide)⟩

end Resolver

namespace Resolver

/-! ## The top bits of a length byte -/

set_option maxRecDepth 100000 in
theorem land_c0 : ∀ c, c < 256 →
    ((c &&& 0xc0 = 0 ↔ c < 64) ∧ (c &&& 0xc0 = 0xc0 ↔ 192 ≤ c)) := by
  decide

theorem land_c0_eq_zero (c : Nat) (h : c < 64) : c &&& 0xc0 = 0 :=
  ((land_c0 c (by omega)).1).mpr h

theorem land_3fff (x : Nat) : x &&& 0x3fff = x % 0x4000 :=
  Nat.and_pow_two_sub_one_eq_mod x 14

/-! ## One pass of `Control::copyName` over a label -/

theorem copyNameStep_label (m : Mem) (dns end_ : Nat) (s : Control.CopyState) (n : Nat)
    (hdns : dns ≤ s.ptr) (hcount : rd m s.ptr = n) (hn : n < 64)
    (hend : s.ptr + n < end_) (hbud : n + 1 ≤ s.namelen) :
    Control.copyNameStep m dns end_ s
      = if rd m (s.ptr + 1 + n) ≠ 0 then
          .next (Control.CopyState.mk (s.ptr + 1 + n) (s.namelen - (n + 1))
            (s.name ++ bytes m (s.ptr + 1) n ++ [dotChar])
            (s.reads ++ [s.ptr] ++ (List.range n).map (fun k => s.ptr + 1 + k)
              ++ [s.ptr + 1 + n]))
        else
          .ret true (Control.CopyState.mk (s.ptr + 1 + n) (s.namelen - (n + 1))
            (s.name ++ bytes m (s.ptr + 1) n ++ [0])
            (s.reads ++ [s.ptr] ++ (List.range n).map (fun k => s.ptr + 1 + k)
              ++ [s.ptr + 1 + n])) := by
  unfold Control.copyNameStep
  have h1 : dns ≤ s.ptr ∧ s.ptr < end_ := ⟨hdns, by omega⟩
  have h2 : ¬ (rd m s.ptr &&& 0xc0 ≠ 0) := by
    rw [hcount, land_c0_eq_zero n hn]
    simp
  have h3 : ¬ (end_ ≤ s.ptr + rd m s.ptr) := by rw [hcount]; omega
  have h4 : ¬ (s.namelen < rd m s.ptr + 1) := by rw [hcount]; omega
  simp only [h1, h2, h3, h4, and_self, if_true, if_false]
  rw [hcount]

end Resolver

namespace Resolver

/-! ## Decoding what was encoded -/

theorem copyNameRun_labels (m : Mem) (dns end_ : Nat) (ls : List (List Nat)) (hne : ls ≠ [])
    (hlen : ∀ l ∈ ls, 1 ≤ l.length ∧ l.length ≤ 63) (s : Control.CopyState)
    (hat : LabelsAt m s.ptr ls) (hz : rd m (s.ptr + encLen ls) = 0) (hdns : dns ≤ s.ptr)
    (hend : s.ptr + encLen ls < end_) (hbud : encLen ls ≤ s.namelen) (k : Nat) :
    ∃ st, Control.copyNameRun m dns end_ (ls.length + k) s = some (true, st)
      ∧ st.name = s.name ++ joinDots (ls.map (fun l => l.map (· % 256))) ++ [0] := by
  induction ls generalizing s with
  | nil => exact absurd rfl hne
  | cons l ls ih =>
    obtain ⟨h1, h2, h3⟩ := hat
    have hl := hlen l (List.mem_cons_self _ _)
    simp only [encLen] at hz hend hbud
    have hstep := copyNameStep_label m dns end_ s l.length hdns h1 (by omega) (by omega)
      (by omega)
    have hfuel : (l :: ls).length + k = (ls.length + k) + 1 := by
      simp only [List.length_cons]; omega
    rw [hfuel, Control.copyNameRun, hstep]
    cases ls with
    | nil =>
      have hz0 : rd m (s.ptr + 1 + l.length) = 0 := by
        rw [← hz]; congr 1; simp only [encLen]; omega
      rw [if_neg (by rw [hz0]; simp)]
      refine ⟨_, rfl, ?_⟩
      simp [joinDots, h2]
    | cons l2 rest =>
      obtain ⟨g1, g2, g3⟩ := h3
      have hl2 := hlen l2 (List.mem_cons_of_mem _ (List.mem_cons_self _ _))
      have hnz : rd m (s.ptr + 1 + l.length) ≠ 0 := by rw [g1]; omega
      rw [if_pos hnz]
      simp only
      obtain ⟨st, e1, e2⟩ := ih (List.cons_ne_nil _ _)
        (fun l' hl' => hlen l' (List.mem_cons_of_mem _ hl'))
        (Control.CopyState.mk (s.ptr + 1 + l.length) (s.namelen - (l.length + 1))
          (s.name ++ bytes m (s.ptr + 1) l.length ++ [dotChar])
          (s.reads ++ [s.ptr] ++ (List.range l.length).map (fun k => s.ptr + 1 + k)
            ++ [s.ptr + 1 + l.length]))
        ⟨g1, g2, g3⟩
        (by
          show rd m (s.ptr + 1 + l.length + encLen (l2 :: rest)) = 0
          rw [← hz]; congr 1; omega)
        (by show dns ≤ s.ptr + 1 + l.length; omega)
        (by show s.ptr + 1 + l.length + encLen (l2 :: rest) < end_; omega)
        (by show encLen (l2 :: rest) ≤ s.namelen - (l.length + 1); omega)
      refine ⟨st, e1, ?_⟩
      rw [e2]
      simp [joinDots, h2]

theorem map_mod_id (l : List Nat) (h : ∀ c ∈ l, c < 256) : l.map (· % 256) = l := by
  conv_rhs => rw [← List.map_id l]
  apply List.map_congr_left
  intro c hc
  exact Nat.mod_eq_of_lt (h c hc)

theorem map_map_mod_id (ls : List (List Nat)) (h : ∀ l ∈ ls, ∀ c ∈ l, c < 256) :
    ls.map (fun l => l.map (· % 256)) = ls := by
  conv_rhs => rw [← List.map_id ls]
  apply List.map_congr_left
  intro l hl
  exact map_mod_id l (h l hl)

theorem dropEmptyLast_of_nonempty (ls : List (List Nat)) (h : ∀ l ∈ ls, l ≠ []) :
    dropEmptyLast ls = ls := by
  induction ls with
  | nil => rfl
  | cons a as ih =>
    cases as with
    | nil => simp [dropEmptyLast, h a (List.mem_cons_self _ _)]
    | cons a2 as2 =>
      have hd : dropEmptyLast (a :: a2 :: as2) = a :: dropEmptyLast (a2 :: as2) := rfl
      rw [hd, ih (fun l hl => h l (List.mem_cons_of_mem _ hl))]

/-- C3: for every C string `hostName` of bytes whose labels (what stands between its
dots) have 1 to 63 bytes each and whose wire form takes at most `NameMax` bytes, with no
suffix applied (the name contains a `.` or the suffix is empty), `Control::a` returns a
positive length `len`, and `copyName` run on the query buffer with the message starting at
offset 0, the cursor at offset 12 and the end at `len` returns `true`, within as many
passes as there are labels, having stored exactly the host name followed by a NUL. -/
theorem encode_decode_roundtrip (NameMax : Nat) (suffix : List Nat) (query : Mem) (id : Nat)
    (hostName : List Nat) (hh : IsCStr hostName) (hb : ∀ c ∈ hostName, c < 256)
    (hs : IsCStr suffix)
    (hlab : ∀ l ∈ hostName.splitOn dotChar, 1 ≤ l.length ∧ l.length ≤ 63)
    (hmax : encLen (hostName.splitOn dotChar) + 1 ≤ NameMax)
    (hnosuffix : dotChar ∈ hostName ∨ suffix = []) :
    0 < (Control.a NameMax suffix query id hostName).1
      ∧ ∀ fuel, (hostName.splitOn dotChar).length ≤ fuel →
        ∃ st, Control.copyName NameMax (Control.a NameMax suffix query id hostName).2 0 12
            (Control.a NameMax suffix query id hostName).1 fuel = some (true, st)
          ∧ st.name = hostName ++ [0] := by
  have hne : hostName ≠ [] := by
    intro h0
    subst h0
    have := hlab [] (by simp)
    simp at this
  have he : effectiveName suffix hostName = hostName := by
    unfold effectiveName
    rw [if_pos hnosuffix]
  have hnonempty : ∀ l ∈ hostName.splitOn dotChar, l ≠ [] := by
    intro l hl h0
    have := (hlab l hl).1
    rw [h0] at this
    simp at this
  have hlabels : labelsOf hostName = hostName.splitOn dotChar := by
    rw [← dropEmptyLast_splitOn hostName hne, dropEmptyLast_of_nonempty _ hnonempty]
  have hw : WellFormed NameMax (effectiveName suffix hostName) := by
    rw [he]
    refine ⟨hne, ?_, ?_⟩
    · rw [hlabels]; exact hlab
    · rw [hlabels]; exact hmax
  obtain ⟨q1, e1, e2, e3, -⟩ := a_ok NameMax suffix query id hostName hh hs hw
  rw [he, hlabels] at e1 e2 e3
  rw [e1]
  refine ⟨by show 0 < 12 + encLen (hostName.splitOn dotChar) + 5; omega, ?_⟩
  intro fuel hfuel
  obtain ⟨k, rfl⟩ : ∃ k, fuel = (hostName.splitOn dotChar).length + k :=
    ⟨fuel - (hostName.splitOn dotChar).length, by omega⟩
  obtain ⟨st, r1, r2⟩ := copyNameRun_labels q1 0 (12 + encLen (hostName.splitOn dotChar) + 5)
    (hostName.splitOn dotChar) (splitOn_ne_nil _) hlab (Control.copyInit NameMax 12)
    e2 e3 (Nat.zero_le _)
    (by show 12 + encLen (hostName.splitOn dotChar) < _; omega)
    (by show encLen (hostName.splitOn dotChar) ≤ NameMax; omega) k
  refine ⟨st, r1, ?_⟩
  rw [r2, map_map_mod_id _ (fun l hl c hc => hb c (splitOn_parts hostName l hl c hc).2),
    joinDots_splitOn]
  rfl

/-- C3, at the host name `ab.c` without a suffix and `NameMax = 255`. -/
theorem encode_decode_roundtrip_witness :
    IsCStr [97, 98, 46, 99] ∧ (∀ c ∈ [97, 98, 46, 99], c < 256) ∧ IsCStr []
      ∧ (∀ l ∈ [97, 98, 46, 99].splitOn dotChar, 1 ≤ l.length ∧ l.length ≤ 63)
      ∧ encLen ([97, 98, 46, 99].splitOn dotChar) + 1 ≤ 255
      ∧ (dotChar ∈ [97, 98, 46, 99] ∨ ([] : List Nat) = [])
      ∧ 0 < (Control.a 255 [] (fun _ => 0) 1 [97, 98, 46, 99]).1
      ∧ ∀ fuel, ([97, 98, 46, 99].splitOn dotChar).length ≤ fuel →
        ∃ st, Control.copyName 255 (Control.a 255 [] (fun _ => 0) 1 [97, 98, 46, 99]).2 0 12
            (Control.a 255 [] (fun _ => 0) 1 [97, 98, 46, 99]).1 fuel = some (true, st)
          ∧ st.name = [97, 98, 46, 99] ++ [0] :=
  ⟨by decide, by decide, by decide, by decide, by decide, by decide,
    encode_decode_roundtrip 255 [] (fun _ => 0) 1 [97, 98, 46, 99] (by decide) (by decide)
      (by decide) (by decide) (by decide) (by decide)⟩

end Resolver

namespace Resolver

/-! ## What one pass of `Control::copyName` can do -/

theorem copyNameStep_cases (m : Mem) (dns end_ : Nat) (s : Control.CopyState) :
    match Control.copyNameStep m dns end_ s with
    | .next s1 =>
      s1.name.length + s1.namelen = s.name.length + s.namelen
        ∧ dns ≤ s.ptr ∧ s.ptr < end_
        ∧ ((rd m s.ptr &&& 0xc0 = 0xc0 ∧ s1.ptr = dns + (rd16 m s.ptr &&& 0x3fff)
              ∧ s1.namelen = s.namelen)
          ∨ (s1.ptr ≤ end_ ∧ s1.namelen < s.namelen))
    | .ret r s1 =>
      s1.name.length + s1.namelen = s.name.length + s.namelen
        ∧ (r = true → s1.name ≠ [] ∧ s1.name.getLast? = some 0) := by
  unfold Control.copyNameStep
  by_cases h1 : dns ≤ s.ptr ∧ s.ptr < end_
  · rw [if_pos h1]
    by_cases h2 : rd m s.ptr &&& 0xc0 ≠ 0
    · simp only []
      rw [if_pos h2]
      by_cases h3 : rd m s.ptr &&& 0xc0 ≠ 0xc0
      · rw [if_pos h3]
        exact ⟨rfl, fun h => by cases h⟩
      · have h3e : rd m s.ptr &&& 0xc0 = 0xc0 := not_not.mp h3
        rw [if_neg h3]
        exact ⟨rfl, h1.1, h1.2, Or.inl ⟨h3e, rfl, rfl⟩⟩
    · simp only []
      rw [if_neg h2]
      by_cases h4 : end_ ≤ s.ptr + rd m s.ptr
      · rw [if_pos h4]
        exact ⟨rfl, fun h => by cases h⟩
      · rw [if_neg h4]
        by_cases h5 : s.namelen < rd m s.ptr + 1
        · rw [if_pos h5]
          exact ⟨rfl, fun h => by cases h⟩
        · rw [if_neg h5]
          by_cases h6 : rd m (s.ptr + 1 + rd m s.ptr) ≠ 0
          · rw [if_pos h6]
            refine ⟨?_, h1.1, h1.2, Or.inr ⟨?_, ?_⟩⟩
            · simp only [List.length_append, bytes_length, List.length_singleton]
              omega
            · show s.ptr + 1 + rd m s.ptr ≤ end_
              omega
            · show s.namelen - (rd m s.ptr + 1) < s.namelen
              omega
          · rw [if_neg h6]
            refine ⟨?_, fun _ => ⟨by simp, by simp⟩⟩
            simp only [List.length_append, bytes_length, List.length_singleton]
            omega
  · rw [if_neg h1]
    exact ⟨rfl, fun h => by cases h⟩

end Resolver

namespace Resolver

/-! ## Runs of `Control::copyName` -/

theorem copyNameRun_inv (m : Mem) (dns end_ : Nat) (fuel : Nat) (s : Control.CopyState)
    (r : Bool) (st : Control.CopyState)
    (h : Control.copyNameRun m dns end_ fuel s = some (r, st)) :
    st.name.length + st.namelen = s.name.length + s.namelen
      ∧ (r = true → st.name ≠ [] ∧ st.name.getLast? = some 0) := by
  induction fuel generalizing s with
  | zero => simp [Control.copyNameRun] at h
  | succ fuel ih =>
    rw [Control.copyNameRun] at h
    have hc := copyNameStep_cases m dns end_ s
    generalize Control.copyNameStep m dns end_ s = c at h hc
    cases c with
    | next s1 =>
      simp only at h hc
      have := ih s1 h
      exact ⟨by omega, this.2⟩
    | ret r1 s1 =>
      simp only [Option.some.injEq, Prod.mk.injEq] at h hc
      obtain ⟨rfl, rfl⟩ := h
      exact hc

theorem copyNameIter_inv (m : Mem) (dns end_ : Nat) (n : Nat) (s st : Control.CopyState)
    (h : Control.copyNameIter m dns end_ n s = some st) :
    st.name.length + st.namelen = s.name.length + s.namelen := by
  induction n generalizing s with
  | zero =>
    simp only [Control.copyNameIter, Option.some.injEq] at h
    rw [h]
  | succ n ih =>
    rw [Control.copyNameIter] at h
    have hc := copyNameStep_cases m dns end_ s
    generalize Control.copyNameStep m dns end_ s = c at h hc
    cases c with
    | next s1 =>
      simp only at h hc
      have := ih s1 h
      omega
    | ret r1 s1 => simp at h

theorem copyNameRun_of_iter (m : Mem) (dns end_ : Nat) (n k : Nat) (s st : Control.CopyState)
    (h : Control.copyNameIter m dns end_ n s = some st) :
    Control.copyNameRun m dns end_ (n + k) s = Control.copyNameRun m dns end_ k st := by
  induction n generalizing s with
  | zero =>
    simp only [Control.copyNameIter, Option.some.injEq] at h
    rw [h, Nat.zero_add]
  | succ n ih =>
    rw [Control.copyNameIter] at h
    have e : n + 1 + k = (n + k) + 1 := by omega
    rw [e, Control.copyNameRun]
    generalize Control.copyNameStep m dns end_ s = c at h
    cases c with
    | next s1 => exact ih s1 h
    | ret r1 s1 => simp at h

end Resolver

namespace Resolver

/-! ## Termination of `Control::copyName` -/

theorem self_pointer_step (s : Control.CopyState) (hp : s.ptr = 0) :
    Control.copyNameStep (ofList [192, 0]) 0 2 s
      = .next ⟨0, s.namelen, s.name, s.reads ++ [0] ++ [0, 1]⟩ := by
  have h : (49152 : Nat) &&& 16383 = 0 := by decide
  simp [Control.copyNameStep, hp, rd, rd16, ofList, h]

theorem self_pointer_run (fuel : Nat) (s : Control.CopyState) (hp : s.ptr = 0) :
    Control.copyNameRun (ofList [192, 0]) 0 2 fuel s = none := by
  induction fuel generalizing s with
  | zero => rfl
  | succ fuel ih =>
    rw [Control.copyNameRun, self_pointer_step s hp]
    exact ih _ rfl

/-- C4, as stated, fails: on the two-byte message `C0 00`, a compression pointer whose
target is its own offset 0, there is no number of passes of its loop after which
`copyName` has returned (here with `NameMax = 255`). -/
theorem copyName_self_pointer_never_returns :
    ¬ ∃ fuel r, Control.copyName 255 (ofList [192, 0]) 0 0 2 fuel = some r := by
  rintro ⟨fuel, r, h⟩
  rw [Control.copyName, self_pointer_run fuel _ rfl] at h
  cases h

/-- The passes of `Control::copyName` compose: the state after `n + k` passes is the
state `k` passes after the state after `n` passes. -/
theorem copyNameIter_add (m : Mem) (dns end_ : Nat) (n k : Nat) (s st : Control.CopyState)
    (h : Control.copyNameIter m dns end_ n s = some st) :
    Control.copyNameIter m dns end_ (n + k) s = Control.copyNameIter m dns end_ k st := by
  induction n generalizing s with
  | zero =>
    simp only [Control.copyNameIter, Option.some.injEq] at h
    rw [h, Nat.zero_add]
  | succ n ih =>
    rw [Control.copyNameIter] at h
    have e : n + 1 + k = (n + k) + 1 := by omega
    rw [e, Control.copyNameIter]
    generalize Control.copyNameStep m dns end_ s = c at h
    cases c with
    | next s1 => exact ih s1 h
    | ret r1 s1 => simp at h

/-- Once `Control::copyName` has returned, more passes change nothing. -/
theorem copyNameRun_mono (m : Mem) (dns end_ : Nat) (f j : Nat) :
    ∀ (s : Control.CopyState) (r : Bool × Control.CopyState),
      Control.copyNameRun m dns end_ f s = some r →
      Control.copyNameRun m dns end_ (f + j) s = some r := by
  induction f with
  | zero => intro s r h; simp [Control.copyNameRun] at h
  | succ f ih =>
    intro s r h
    have e : f + 1 + j = (f + j) + 1 := by omega
    rw [e, Control.copyNameRun]
    rw [Control.copyNameRun] at h
    generalize Control.copyNameStep m dns end_ s = c at h
    cases c with
    | next s1 => exact ih s1 r h
    | ret r1 s1 => exact h

/-- With enough passes allowed the result is the same. -/
theorem copyNameRun_le (m : Mem) (dns end_ : Nat) (f g : Nat) (hfg : f ≤ g)
    (s : Control.CopyState) (r : Bool × Control.CopyState)
    (h : Control.copyNameRun m dns end_ f s = some r) :
    Control.copyNameRun m dns end_ g s = some r := by
  have e : g = f + (g - f) := by omega
  rw [e]
  exact copyNameRun_mono m dns end_ f (g - f) s r h

/-- There is no state after `k` passes exactly when `Control::copyName` has returned
within `k` passes. -/
theorem copyNameIter_none_iff (m : Mem) (dns end_ : Nat) (k : Nat) :
    ∀ s : Control.CopyState, Control.copyNameIter m dns end_ k s = none ↔
      ∃ r, Control.copyNameRun m dns end_ k s = some r := by
  induction k with
  | zero =>
    intro s
    simp [Control.copyNameIter, Control.copyNameRun]
  | succ k ih =>
    intro s
    rw [Control.copyNameIter, Control.copyNameRun]
    generalize Control.copyNameStep m dns end_ s = c
    cases c with
    | next s1 => exact ih s1
    | ret r1 s1 => simp

/-- A pass of `Control::copyName` from a byte that is not a compression pointer
returns or lowers the budget; a pass from a compression pointer keeps the budget. -/
theorem copyNameStep_progress (m : Mem) (dns end_ : Nat) (s : Control.CopyState) :
    match Control.copyNameStep m dns end_ s with
    | .next s1 => s1.namelen ≤ s.namelen
        ∧ (¬ AtPointer m dns end_ s → s1.namelen < s.namelen)
        ∧ (AtPointer m dns end_ s → s1.ptr = dns + (rd16 m s.ptr &&& 0x3fff))
    | .ret _ _ => ¬ AtPointer m dns end_ s := by
  unfold AtPointer
  unfold Control.copyNameStep
  by_cases h1 : dns ≤ s.ptr ∧ s.ptr < end_
  · rw [if_pos h1]
    by_cases h2 : rd m s.ptr &&& 0xc0 ≠ 0
    · simp only []
      rw [if_pos h2]
      by_cases h3 : rd m s.ptr &&& 0xc0 ≠ 0xc0
      · rw [if_pos h3]
        exact fun h => h3 h.2.2
      · rw [if_neg h3]
        exact ⟨le_refl _, fun h => absurd ⟨h1.1, h1.2, not_not.mp h3⟩ h, fun _ => rfl⟩
    · have h2e : rd m s.ptr &&& 0xc0 = 0 := not_not.mp h2
      have hnp : ¬ (dns ≤ s.ptr ∧ s.ptr < end_ ∧ rd m s.ptr &&& 0xc0 = 0xc0) := by
        intro h
        rw [h2e] at h
        exact absurd h.2.2 (by decide)
      simp only []
      rw [if_neg h2]
      by_cases h4 : end_ ≤ s.ptr + rd m s.ptr
      · rw [if_pos h4]
        exact hnp
      · rw [if_neg h4]
        by_cases h5 : s.namelen < rd m s.ptr + 1
        · rw [if_pos h5]
          exact hnp
        · rw [if_neg h5]
          by_cases h6 : rd m (s.ptr + 1 + rd m s.ptr) ≠ 0
          · rw [if_pos h6]
            refine ⟨?_, fun _ => ?_, fun h => absurd h hnp⟩
            · show s.namelen - (rd m s.ptr + 1) ≤ s.namelen
              omega
            · show s.namelen - (rd m s.ptr + 1) < s.namelen
              omega
          · rw [if_neg h6]
            exact hnp
  · rw [if_neg h1]
    exact fun h => h1 ⟨h.1, h.2.1⟩

/-- The budget never grows along the passes of `Control::copyName`. -/
theorem copyNameIter_budget (m : Mem) (dns end_ : Nat) (n : Nat) :
    ∀ s st : Control.CopyState, Control.copyNameIter m dns end_ n s = some st →
      st.namelen ≤ s.namelen := by
  induction n with
  | zero =>
    intro s st h
    simp only [Control.copyNameIter, Option.some.injEq] at h
    rw [h]
  | succ n ih =>
    intro s st h
    rw [Control.copyNameIter] at h
    have hp := copyNameStep_progress m dns end_ s
    generalize Control.copyNameStep m dns end_ s = c at h hp
    cases c with
    | next s1 =>
      simp only at h hp
      have := ih s1 st h
      omega
    | ret r1 s1 => simp at h

/-- When the walk from `init` follows at most `H` compression pointers in a row, a state
it reaches with a budget of at most `b` is followed by the return within
`(b + 1) * (H + 1)` passes: each run of pointers ends in a return or in a label, and a
label lowers the budget. -/
theorem copyNameRun_hops (m : Mem) (dns end_ H : Nat) (init : Control.CopyState)
    (hb : ∀ n s, Control.copyNameIter m dns end_ n init = some s →
      ∃ k, k ≤ H ∧ ∀ s2, Control.copyNameIter m dns end_ k s = some s2 →
        ¬ AtPointer m dns end_ s2) (b : Nat) :
    ∀ n s, Control.copyNameIter m dns end_ n init = some s → s.namelen ≤ b →
      ∃ r, Control.copyNameRun m dns end_ ((b + 1) * (H + 1)) s = some r := by
  induction b with
  | zero =>
    intro n s hs hbud
    obtain ⟨k, hk, hnp⟩ := hb n s hs
    rw [Nat.zero_add, Nat.one_mul]
    cases hi : Control.copyNameIter m dns end_ k s with
    | none =>
      obtain ⟨r, hr⟩ := (copyNameIter_none_iff m dns end_ k s).mp hi
      exact ⟨r, copyNameRun_le m dns end_ k _ (by omega) s r hr⟩
    | some s2 =>
      have h2 := copyNameIter_budget m dns end_ k s s2 hi
      have hp := copyNameStep_progress m dns end_ s2
      have hrun : Control.copyNameRun m dns end_ (k + 1) s
          = match Control.copyNameStep m dns end_ s2 with
            | .ret r s1 => some (r, s1)
            | .next s1 => Control.copyNameRun m dns end_ 0 s1 :=
        (copyNameRun_of_iter m dns end_ k 1 s s2 hi).trans (by rw [Control.copyNameRun])
      generalize Control.copyNameStep m dns end_ s2 = c at hp hrun
      cases c with
      | next s3 =>
        have := hp.2.1 (hnp s2 hi)
        omega
      | ret r1 s3 =>
        exact ⟨_, copyNameRun_le m dns end_ (k + 1) _ (by omega) s _ hrun⟩
  | succ b ih =>
    intro n s hs hbud
    obtain ⟨k, hk, hnp⟩ := hb n s hs
    have eF : (b + 1 + 1) * (H + 1) = (b + 1) * (H + 1) + (H + 1) := by
      rw [Nat.add_mul (b + 1) 1 (H + 1), Nat.one_mul]
    cases hi : Control.copyNameIter m dns end_ k s with
    | none =>
      obtain ⟨r, hr⟩ := (copyNameIter_none_iff m dns end_ k s).mp hi
      exact ⟨r, copyNameRun_le m dns end_ k _ (by omega) s r hr⟩
    | some s2 =>
      have h2 := copyNameIter_budget m dns end_ k s s2 hi
      have hp := copyNameStep_progress m dns end_ s2
      have hreach : Control.copyNameIter m dns end_ (n + k) init = some s2 := by
        rw [copyNameIter_add m dns end_ n k init s hs, hi]
      have hrun : ∀ j, Control.copyNameRun m dns end_ (k + (j + 1)) s
          = match Control.copyNameStep m dns end_ s2 with
            | .ret r s1 => some (r, s1)
            | .next s1 => Control.copyNameRun m dns end_ j s1 :=
        fun j => (copyNameRun_of_iter m dns end_ k (j + 1) s s2 hi).trans
          (by rw [Control.copyNameRun])
      have hnext : Control.copyNameIter m dns end_ (n + k + 1) init
          = match Control.copyNameStep m dns end_ s2 with
            | .ret _ _ => none
            | .next s1 => some s1 :=
        (copyNameIter_add m dns end_ (n + k) 1 init s2 hreach).trans
          (by rw [Control.copyNameIter]; rfl)
      generalize Control.copyNameStep m dns end_ s2 = c at hp hrun hnext
      cases c with
      | next s3 =>
        have hlt := hp.2.1 (hnp s2 hi)
        obtain ⟨r, hr⟩ := ih (n + k + 1) s3 hnext (by omega)
        have h3 := hrun ((b + 1) * (H + 1))
        simp only at h3
        rw [hr] at h3
        exact ⟨r, copyNameRun_le m dns end_ _ _ (by omega) s r h3⟩
      | ret r1 s3 =>
        exact ⟨_, copyNameRun_le m dns end_ (k + (0 + 1)) _ (by omega) s _ (hrun 0)⟩

/-- When `Control::copyName` returns within `fuel` passes, its walk follows at most
`fuel` compression pointers in a row. -/
theorem hopsBounded_of_returns (NameMax : Nat) (m : Mem) (dns ptr end_ fuel : Nat)
    (r : Bool × Control.CopyState)
    (h : Control.copyName NameMax m dns ptr end_ fuel = some r) :
    HopsBounded NameMax m dns ptr end_ fuel := by
  intro n s hs
  have hnone : Control.copyNameIter m dns end_ fuel (Control.copyInit NameMax ptr) = none :=
    (copyNameIter_none_iff m dns end_ fuel _).mpr ⟨r, h⟩
  by_cases hn : n ≤ fuel
  · refine ⟨fuel - n, by omega, ?_⟩
    intro s2 hs2
    have e := copyNameIter_add m dns end_ n (fuel - n) _ s hs
    have e2 : n + (fuel - n) = fuel := by omega
    rw [e2, hnone, hs2] at e
    cases e
  · exfalso
    have hr2 := copyNameRun_le m dns end_ fuel n (by omega) _ r h
    have := (copyNameIter_none_iff m dns end_ n _).mpr ⟨r, hr2⟩
    rw [this] at hs
    cases hs

/-- When every compression pointer the walk reaches targets an offset below its own,
a run of pointers that starts at the offset `p` has at most `p + 1 - dns` hops. -/
theorem pointersGoBack_hops (NameMax : Nat) (m : Mem) (dns ptr end_ : Nat)
    (hback : PointersGoBack NameMax m dns ptr end_) (N : Nat) :
    ∀ n s, Control.copyNameIter m dns end_ n (Control.copyInit NameMax ptr) = some s →
      s.ptr ≤ N →
      ∃ k, k ≤ s.ptr + 1 - dns ∧ (¬ AtPointer m dns end_ s → k = 0)
        ∧ ∀ s2, Control.copyNameIter m dns end_ k s = some s2 → ¬ AtPointer m dns end_ s2 := by
  induction N with
  | zero =>
    intro n s hs hN
    by_cases hat : AtPointer m dns end_ s
    · have := hback n s hs hat
      omega
    · refine ⟨0, by omega, fun _ => rfl, ?_⟩
      intro s2 hs2
      simp only [Control.copyNameIter, Option.some.injEq] at hs2
      rw [← hs2]
      exact hat
  | succ N ih =>
    intro n s hs hN
    by_cases hat : AtPointer m dns end_ s
    · have hlt := hback n s hs hat
      have hp := copyNameStep_progress m dns end_ s
      have hnext : Control.copyNameIter m dns end_ (n + 1) (Control.copyInit NameMax ptr)
          = match Control.copyNameStep m dns end_ s with
            | .ret _ _ => none
            | .next s1 => some s1 :=
        (copyNameIter_add m dns end_ n 1 _ s hs).trans (by rw [Control.copyNameIter]; rfl)
      have hstep : ∀ k, Control.copyNameIter m dns end_ (k + 1) s
          = match Control.copyNameStep m dns end_ s with
            | .ret _ _ => none
            | .next s1 => Control.copyNameIter m dns end_ k s1 := fun k => by
        rw [Control.copyNameIter]
      generalize Control.copyNameStep m dns end_ s = c at hp hnext hstep
      cases c with
      | ret r1 s1 => exact absurd hat hp
      | next s1 =>
        simp only at hp hnext hstep
        have hptr := hp.2.2 hat
        obtain ⟨k1, hk1, hz, hnp⟩ := ih (n + 1) s1 hnext (by omega)
        refine ⟨k1 + 1, ?_, fun h => absurd hat h, ?_⟩
        · by_cases hat1 : AtPointer m dns end_ s1
          · have := hat1.1
            have := hat.1
            omega
          · have := hz hat1
            have := hat.1
            omega
        · intro s2 hs2
          rw [hstep k1] at hs2
          exact hnp s2 hs2
    · refine ⟨0, by omega, fun _ => rfl, ?_⟩
      intro s2 hs2
      simp only [Control.copyNameIter, Option.some.injEq] at hs2
      rw [← hs2]
      exact hat

/-- C4, amended: `copyName` returns, `true` or `false`, after finitely many passes of
its loop if and only if for some number `H` its walk never follows more than `H`
compression pointers in a row, and then it returns within `(NameMax + 1) * (H + 1)`
passes; this is so with `H = end - dns` when every compression pointer the walk reaches
targets an offset strictly below its own; and whenever `copyName` returns it has stored
at most `NameMax` bytes.  All this for every message, every `end` and every start
cursor. -/
theorem copyName_returns_iff_hops_bounded (NameMax : Nat) (m : Mem) (dns ptr end_ : Nat) :
    ((∃ fuel r, Control.copyName NameMax m dns ptr end_ fuel = some r)
        ↔ ∃ H, HopsBounded NameMax m dns ptr end_ H)
      ∧ (∀ H, HopsBounded NameMax m dns ptr end_ H →
          ∀ fuel, (NameMax + 1) * (H + 1) ≤ fuel →
            ∃ r st, Control.copyName NameMax m dns ptr end_ fuel = some (r, st))
      ∧ (PointersGoBack NameMax m dns ptr end_ →
          HopsBounded NameMax m dns ptr end_ (end_ - dns))
      ∧ (∀ fuel r st, Control.copyName NameMax m dns ptr end_ fuel = some (r, st) →
          st.name.length ≤ NameMax) := by
  have hret : ∀ H, HopsBounded NameMax m dns ptr end_ H →
      ∀ fuel, (NameMax + 1) * (H + 1) ≤ fuel →
        ∃ r st, Control.copyName NameMax m dns ptr end_ fuel = some (r, st) := by
    intro H hH fuel hfuel
    obtain ⟨⟨r, st⟩, hr⟩ := copyNameRun_hops m dns end_ H (Control.copyInit NameMax ptr) hH
      NameMax 0 (Control.copyInit NameMax ptr) rfl (le_refl _)
    exact ⟨r, st, copyNameRun_le m dns end_ _ fuel hfuel _ _ hr⟩
  refine ⟨⟨?_, ?_⟩, hret, ?_, ?_⟩
  · rintro ⟨fuel, r, h⟩
    exact ⟨fuel, hopsBounded_of_returns NameMax m dns ptr end_ fuel r h⟩
  · rintro ⟨H, hH⟩
    obtain ⟨r, st, h⟩ := hret H hH _ (le_refl _)
    exact ⟨_, _, h⟩
  · intro hback n s hs
    obtain ⟨k, hk, hz, hnp⟩ := pointersGoBack_hops NameMax m dns ptr end_ hback s.ptr n s hs
      (le_refl _)
    refine ⟨k, ?_, hnp⟩
    by_cases hat : AtPointer m dns end_ s
    · have := hat.2.1
      have := hat.1
      omega
    · have := hz hat
      omega
  · intro fuel r st h
    have := (copyNameRun_inv m dns end_ fuel _ r st h).1
    simp only [Control.copyInit, List.length_nil] at this
    omega

/-- In the message `sampleWwwCom` decoded from offset 5 the walk reaches one compression
pointer, at offset 9, and its target 0 lies below it. -/
theorem sampleWwwCom_pointers_go_back :
    PointersGoBack 255 (ofList sampleWwwCom) 0 5 11 := by
  intro n s hs hat
  have h1 : Control.copyNameIter (ofList sampleWwwCom) 0 11 1 (Control.copyInit 255 5)
      = some ⟨9, 251, [119, 119, 119, 46], [5, 6, 7, 8, 9]⟩ := by decide
  have h2 : Control.copyNameIter (ofList sampleWwwCom) 0 11 2 (Control.copyInit 255 5)
      = some ⟨0, 251, [119, 119, 119, 46], [5, 6, 7, 8, 9, 9, 9, 10]⟩ := by decide
  have h3 : Control.copyNameIter (ofList sampleWwwCom) 0 11 3 (Control.copyInit 255 5)
      = none := by decide
  by_cases hn : n < 3
  · interval_cases n
    · simp only [Control.copyNameIter, Option.some.injEq] at hs
      subst hs
      exact absurd hat.2.2 (by decide)
    · rw [h1] at hs
      simp only [Option.some.injEq] at hs
      subst hs
      decide
    · rw [h2] at hs
      simp only [Option.some.injEq] at hs
      subst hs
      exact absurd hat.2.2 (by decide)
  · exfalso
    obtain ⟨r, hr⟩ := (copyNameIter_none_iff _ 0 11 3 _).mp h3
    have := (copyNameIter_none_iff _ 0 11 n _).mpr
      ⟨r, copyNameRun_le _ 0 11 3 n (by omega) _ r hr⟩
    rw [this] at hs
    cases hs

/-- C4 amended, at the message `sampleWwwCom`, `03 'com' 00 03 'www' C0 00`, decoded
from offset 5 with `NameMax = 255`: `copyName` follows the pointer at offset 9 back to
offset 0 and returns `true` with the text `www.com` in its fourth pass; the pointer it
reaches goes back, so its walk follows at most 11 pointers in a row, and `copyName`
returns within `256 * 12` passes. -/
theorem copyName_returns_iff_hops_bounded_witness :
    (Control.copyName 255 (ofList sampleWwwCom) 0 5 11 4).map (fun r => (r.1, r.2.name))
        = some (true, [119, 119, 119, 46, 99, 111, 109, 0])
      ∧ AtPointer (ofList sampleWwwCom) 0 11 ⟨9, 251, [119, 119, 119, 46], []⟩
      ∧ PointersGoBack 255 (ofList sampleWwwCom) 0 5 11
      ∧ HopsBounded 255 (ofList sampleWwwCom) 0 5 11 (11 - 0)
      ∧ ∃ r st, Control.copyName 255 (ofList sampleWwwCom) 0 5 11 ((255 + 1) * (11 - 0 + 1))
          = some (r, st) :=
  have h := copyName_returns_iff_hops_bounded 255 (ofList sampleWwwCom) 0 5 11
  ⟨by decide, ⟨by decide, by decide, by decide⟩, sampleWwwCom_pointers_go_back,
    h.2.2.1 sampleWwwCom_pointers_go_back,
    h.2.1 (11 - 0) (h.2.2.1 sampleWwwCom_pointers_go_back) _ (le_refl _)⟩

/-! ## Loads of `Control::copyName` at and beyond `end` -/

/-- C5, at a failing input: in the message whose bytes 12 and 13 are `C0 0D`, with the
end at offset 13, the cursor at offset 12 is a compression pointer whose target, 13, is
not below the end.  `copyName` returns `false`, but on the way it has loaded the byte at
offset 13, the target, as the second byte of the pointer. -/
theorem copyName_loads_target_at_end :
    Control.copyName 255 (ofList (List.replicate 12 0 ++ [192, 13])) 0 12 13 2
        = some (false, ⟨13, 255, [], [12, 12, 13]⟩)
      ∧ 0 + (rd16 (ofList (List.replicate 12 0 ++ [192, 13])) 12 &&& 0x3fff) = 13 := by
  decide

/-- C6, at a failing input: the messages `01 61 00` and `01 61 05` agree on their first
two bytes; with the end at offset 2, `copyName` loads the byte at offset 2 in both, and
returns `true` with the text `a` on the first and `false` on the second. -/
theorem copyName_result_depends_on_byte_at_end :
    Control.copyName 255 (ofList [1, 97, 0]) 0 0 2 3
        = some (true, ⟨2, 253, [97, 0], [0, 1, 2]⟩)
      ∧ Control.copyName 255 (ofList [1, 97, 5]) 0 0 2 3
        = some (false, ⟨2, 253, [97, dotChar], [0, 1, 2]⟩)
      ∧ bytes (ofList [1, 97, 0]) 0 2 = bytes (ofList [1, 97, 5]) 0 2 := by
  decide

end Resolver

namespace Resolver

/-! ## The output budget of `Control::copyName` and the caller's buffer -/

theorem answersPtr_budget (C : Consts) (fuel : Nat) (m : Mem) (end_ : Nat) (n opt : Nat) :
    (Control.answersPtr C fuel m end_ n opt).2.length ≤ C.NameMax
      ∧ ((Control.answersPtr C fuel m end_ n opt).1 = .found () →
        (Control.answersPtr C fuel m end_ n opt).2.getLast? = some 0) := by
  induction n generalizing opt with
  | zero => simp [Control.answersPtr]
  | succ n ih =>
    rw [Control.answersPtr]
    cases hs : Control.skipName m opt end_ with
    | none => simp
    | some opt1 =>
      simp only
      split_ifs
      · exact ih opt1
      · exact ih opt1
      · simp
      · cases hc : Control.copyName C.NameMax m 0 (opt1 + C.DNSRRSize) end_ fuel with
        | none => simp
        | some r =>
          obtain ⟨b, st⟩ := r
          have hinv := copyNameRun_inv m 0 end_ fuel _ b st hc
          simp only [Control.copyInit, List.length_nil] at hinv
          cases b with
          | false =>
            simp only
            exact ⟨by omega, fun h => by cases h⟩
          | true =>
            simp only
            exact ⟨by omega, fun _ => (hinv.2 rfl).2⟩

theorem attemptPtr_budget (C : Consts) (fuel : Nat) (query : Mem) (len xid : Nat)
    (rlen : Int) (m : Mem) :
    (Control.attemptPtr C fuel query len xid rlen m).2.length ≤ C.NameMax
      ∧ ((Control.attemptPtr C fuel query len xid rlen m).1 = .found () →
        (Control.attemptPtr C fuel query len xid rlen m).2.getLast? = some 0) := by
  unfold Control.attemptPtr
  cases Control.validate query len xid rlen m with
  | nothing => simp
  | found opt => exact answersPtr_budget C fuel m rlen.toNat _ opt
  | undef => simp
  | outOfFuel => simp

theorem overlay_length (w buf : List Nat) (h : w.length ≤ buf.length) :
    (Control.overlay w buf).length = buf.length := by
  simp only [Control.overlay, List.length_append, List.length_drop]
  omega

theorem zero_mem_take_overlay (w buf : List Nat) (n : Nat) (hw : w.getLast? = some 0)
    (hn : w.length ≤ n) : 0 ∈ (Control.overlay w buf).take n := by
  unfold Control.overlay
  rw [List.take_append_eq_append_take, List.take_of_length_le hn]
  exact List.mem_append_left _ (List.mem_of_getLast?_eq_some hw)

theorem rxmitPtr_budget (C : Consts) (fuel : Nat) (query : Mem) (len xid : Nat)
    (recv : Nat → Int × Mem) (nlen : Nat) (hn : C.NameMax ≤ nlen) (n k : Nat)
    (response : Mem) (buf : List Nat) (io : List IOEvent) (hbuf : buf.length = nlen) :
    (Control.rxmitPtr C fuel query len xid recv n k response buf io).2.2.1.length = nlen
      ∧ ((Control.rxmitPtr C fuel query len xid recv n k response buf io).1 = .found () →
        0 ∈ ((Control.rxmitPtr C fuel query len xid recv n k response buf io).2.2.1).take
          C.NameMax) := by
  induction n generalizing k response buf io with
  | zero => simp [Control.rxmitPtr, hbuf]
  | succ n ih =>
    rw [Control.rxmitPtr]
    have hb := attemptPtr_budget C fuel query len xid (recv k).1 (recv k).2
    have hlen : (Control.overlay (Control.attemptPtr C fuel query len xid (recv k).1
        (recv k).2).2 buf).length = nlen := by
      rw [overlay_length _ _ (by omega), hbuf]
    generalize Control.attemptPtr C fuel query len xid (recv k).1 (recv k).2 = o at hb hlen
    obtain ⟨o1, w⟩ := o
    cases o1 with
    | nothing => exact ih _ _ _ _ hlen
    | found x =>
      simp only at hb hlen ⊢
      exact ⟨hlen, fun _ => zero_mem_take_overlay w buf _ (hb.2 trivial) hb.1⟩
    | undef =>
      simp only at hlen ⊢
      exact ⟨hlen, fun h => by cases h⟩
    | outOfFuel =>
      simp only at hlen ⊢
      exact ⟨hlen, fun h => by cases h⟩

theorem getHostName_budget (C : Consts) (fuel : Nat) (c : Control) (recv : Nat → Int × Mem)
    (got : Int × List Nat) (buf : List Nat) (nlen : Nat) (hbuf : buf.length = nlen) :
    (Control.getHostName C fuel c recv got buf nlen).2.2.1.length = nlen
      ∧ ((Control.getHostName C fuel c recv got buf nlen).1 = .found () →
        0 ∈ ((Control.getHostName C fuel c recv got buf nlen).2.2.1).take C.NameMax) := by
  unfold Control.getHostName
  by_cases h1 : nlen < C.NameMax
  · rw [if_pos h1]
    exact ⟨hbuf, fun h => by cases h⟩
  · rw [if_neg h1]
    by_cases h2 : got.1 ≠ 4
    · rw [if_pos h2]
      exact ⟨hbuf, fun h => by cases h⟩
    · rw [if_neg h2]
      simp only []
      by_cases h3 : (Control.ptr c.query ((c.id + 1) % 65536) got.2).1 ≤ 0
      · rw [if_pos h3]
        exact ⟨hbuf, fun h => by cases h⟩
      · rw [if_neg h3]
        exact rxmitPtr_budget C fuel _ _ _ recv nlen (by omega) _ _ _ _ _ hbuf

end Resolver

namespace Resolver

/-- C7: in every call `copyName` has stored at most `NameMax` bytes, separators and the
final NUL included, at every moment of its run and when it returns, `true` or `false`;
when it returns `true` the last byte stored is a NUL.  Hence, for a caller's buffer of
`nlen` bytes, `Control::getHostName` never stores beyond the buffer (the modelled buffer
keeps its length `nlen`), and when it returns `true` there is a NUL among the first
`NameMax` bytes. -/
theorem output_budget (C : Consts) (fuel : Nat) (c : Control) (recv : Nat → Int × Mem)
    (got : Int × List Nat) (buf : List Nat) (nlen : Nat) (m : Mem) (dns ptr end_ : Nat)
    (hbuf : buf.length = nlen) :
    (∀ n s, Control.copyNameIter m dns end_ n (Control.copyInit C.NameMax ptr) = some s →
        s.name.length ≤ C.NameMax)
      ∧ (∀ k r st, Control.copyName C.NameMax m dns ptr end_ k = some (r, st) →
        st.name.length ≤ C.NameMax ∧ (r = true → st.name.getLast? = some 0))
      ∧ (Control.getHostName C fuel c recv got buf nlen).2.2.1.length = nlen
      ∧ ((Control.getHostName C fuel c recv got buf nlen).1 = .found () →
        0 ∈ ((Control.getHostName C fuel c recv got buf nlen).2.2.1).take C.NameMax) := by
  refine ⟨?_, ?_, getHostName_budget C fuel c recv got buf nlen hbuf⟩
  · intro n s h
    have := copyNameIter_inv m dns end_ n _ s h
    simp only [Control.copyInit, List.length_nil] at this
    omega
  · intro k r st h
    have := copyNameRun_inv m dns end_ k _ r st h
    simp only [Control.copyInit, List.length_nil] at this
    exact ⟨by omega, fun hr => (this.2 hr).2⟩

/-- C7, at a caller's buffer of 255 bytes with `NameMax = 255`. -/
theorem output_budget_witness :
    (List.replicate 255 0).length = 255
      ∧ (∀ n s, Control.copyNameIter (ofList [1, 97, 0]) 0 3 n (Control.copyInit 255 0)
          = some s → s.name.length ≤ 255)
      ∧ (∀ k r st, Control.copyName 255 (ofList [1, 97, 0]) 0 0 3 k = some (r, st) →
        st.name.length ≤ 255 ∧ (r = true → st.name.getLast? = some 0))
      ∧ (Control.getHostName ⟨255, 3, 1, 10, 10⟩ 8 ⟨0, fun _ => 0, fun _ => 0, []⟩
          (fun _ => (0, fun _ => 0)) (4, [93, 184, 216, 34]) (List.replicate 255 0)
          255).2.2.1.length = 255
      ∧ ((Control.getHostName ⟨255, 3, 1, 10, 10⟩ 8 ⟨0, fun _ => 0, fun _ => 0, []⟩
          (fun _ => (0, fun _ => 0)) (4, [93, 184, 216, 34]) (List.replicate 255 0)
          255).1 = .found () →
        0 ∈ ((Control.getHostName ⟨255, 3, 1, 10, 10⟩ 8 ⟨0, fun _ => 0, fun _ => 0, []⟩
          (fun _ => (0, fun _ => 0)) (4, [93, 184, 216, 34]) (List.replicate 255 0)
          255).2.2.1).take 255) :=
  ⟨List.length_replicate 255 0,
    output_budget ⟨255, 3, 1, 10, 10⟩ 8 ⟨0, fun _ => 0, fun _ => 0, []⟩
      (fun _ => (0, fun _ => 0)) (4, [93, 184, 216, 34]) (List.replicate 255 0) 255
      (ofList [1, 97, 0]) 0 0 3 (List.length_replicate 255 0)⟩

end Resolver

namespace Resolver

/-! ## `Control::skipName` -/

theorem skipNameLoop_bounds (m : Mem) (end_ : Nat) (fuel p r : Nat)
    (h : Control.skipNameLoop m end_ fuel p = some r) :
    r ≤ end_ ∧ (p ≤ end_ → p ≤ r) ∧ (end_ ≤ p → r = end_) := by
  induction fuel generalizing p with
  | zero =>
    simp only [Control.skipNameLoop, Option.some.injEq] at h
    subst h
    exact ⟨le_refl _, fun hp => hp, fun _ => rfl⟩
  | succ fuel ih =>
    rw [Control.skipNameLoop] at h
    by_cases h1 : p < end_
    · rw [if_pos h1] at h
      by_cases h2 : rd m p = 0
      · rw [if_pos h2, if_pos (by omega)] at h
        simp only [Option.some.injEq] at h
        omega
      · rw [if_neg h2] at h
        simp only [] at h
        by_cases h3 : rd m p &&& 0xc0 ≠ 0
        · rw [if_pos h3] at h
          by_cases h4 : rd m p &&& 0xc0 ≠ 0xc0
          · rw [if_pos h4] at h
            cases h
          · rw [if_neg h4] at h
            simp only [Option.some.injEq] at h
            by_cases h5 : p + 2 ≤ end_
            · rw [if_pos h5] at h; omega
            · rw [if_neg h5] at h; omega
        · rw [if_neg h3] at h
          have := ih _ h
          omega
    · rw [if_neg h1] at h
      simp only [Option.some.injEq] at h
      omega

theorem skipNameLoop_echo (query m : Mem) (end_ : Nat) (ls : List (List Nat))
    (hlen : ∀ l ∈ ls, 1 ≤ l.length ∧ l.length ≤ 63) (p fuel opt0 : Nat)
    (hq : LabelsAt query p ls) (hz : rd query (p + encLen ls) = 0)
    (hskip : Control.skipNameLoop m end_ fuel p = some opt0)
    (hroom : opt0 + 4 ≤ end_)
    (hecho : ∀ x, p ≤ x → x < opt0 + 4 → rd m x = rd query x) :
    opt0 = p + encLen ls + 1 := by
  induction ls generalizing p fuel with
  | nil =>
    simp only [encLen, Nat.add_zero] at hz ⊢
    cases fuel with
    | zero =>
      simp only [Control.skipNameLoop, Option.some.injEq] at hskip
      omega
    | succ fuel =>
      have hb := skipNameLoop_bounds m end_ _ p opt0 hskip
      have hp : p < end_ := by
        by_contra hc
        have := hb.2.2 (by omega)
        omega
      have hmp : rd m p = 0 := by rw [hecho p (le_refl _) (by omega)]; exact hz
      rw [Control.skipNameLoop, if_pos hp, if_pos hmp, if_pos (by omega)] at hskip
      simp only [Option.some.injEq] at hskip
      omega
  | cons l ls ih =>
    obtain ⟨h1, h2, h3⟩ := hq
    have hl := hlen l (List.mem_cons_self _ _)
    simp only [encLen] at hz ⊢
    cases fuel with
    | zero =>
      simp only [Control.skipNameLoop, Option.some.injEq] at hskip
      omega
    | succ fuel =>
      have hb := skipNameLoop_bounds m end_ _ p opt0 hskip
      have hp : p < end_ := by
        by_contra hc
        have := hb.2.2 (by omega)
        omega
      have hmp : rd m p = l.length := by rw [hecho p (le_refl _) (by omega)]; exact h1
      have hbits : ¬ (rd m p &&& 0xc0 ≠ 0) := by
        rw [hmp, land_c0_eq_zero _ (by omega)]
        simp
      rw [Control.skipNameLoop, if_pos hp, if_neg (by omega)] at hskip
      simp only [] at hskip
      rw [if_neg hbits, hmp] at hskip
      have hb2 := skipNameLoop_bounds m end_ _ _ opt0 hskip
      have := ih (fun l' hl' => hlen l' (List.mem_cons_of_mem _ hl')) (p + 1 + l.length) fuel
        h3 (by rw [← hz]; congr 1; omega) hskip
        (fun x hx1 hx2 => hecho x (by omega) hx2)
      omega

end Resolver

namespace Resolver

/-! ## The checks on a datagram -/

theorem validate_bad_header (query : Mem) (len xid : Nat) (rlen : Int) (m : Mem)
    (h : ¬ HeaderOk xid rlen m) : Control.validate query len xid rlen m = .nothing := by
  unfold Control.validate
  by_cases h1 : (rlen % 2 ^ 32).toNat ≤ DNSHdr.size
  · rw [if_pos h1]
  · rw [if_neg h1]
    by_cases h2 : DNSHdr.getID m ≠ xid ∨ (!DNSHdr.isResponse m) = true ∨ DNSHdr.qdcount m ≠ 1
        ∨ DNSHdr.ancount m = 0
    · rw [if_pos h2]
    · rw [if_neg h2]
      by_cases h3 : rlen < 0
      · rw [if_pos h3]
      · exfalso
        apply h
        unfold DNSHdr.size at h1
        have e : (2 : Int) ^ 32 = 4294967296 := by norm_num
        rw [e] at h1
        refine ⟨by omega, ?_, ?_, ?_, ?_⟩
        · by_contra hc; exact h2 (Or.inl hc)
        · by_contra hc
          exact h2 (Or.inr (Or.inl (by simpa using hc)))
        · by_contra hc; exact h2 (Or.inr (Or.inr (Or.inl hc)))
        · intro hc; exact h2 (Or.inr (Or.inr (Or.inr hc)))

theorem validate_found (query : Mem) (len xid : Nat) (rlen : Int) (m : Mem) (opt : Nat)
    (h : Control.validate query len xid rlen m = .found opt) :
    HeaderOk xid rlen m
      ∧ ∃ opt0, Control.skipName m 12 rlen.toNat = some opt0 ∧ opt = opt0 + 4
        ∧ opt ≤ rlen.toNat ∧ opt ≤ len
        ∧ bytes query 12 (opt - 12) = bytes m 12 (opt - 12) := by
  have hok : HeaderOk xid rlen m := by
    by_contra hc
    rw [validate_bad_header query len xid rlen m hc] at h
    cases h
  refine ⟨hok, ?_⟩
  unfold Control.validate at h
  split_ifs at h with h1 h2 h3
  simp only [DNSHdr.size] at h
  cases hs : Control.skipName m 12 rlen.toNat with
  | none =>
    rw [hs] at h
    simp only at h
    split_ifs at h
  | some opt0 =>
    rw [hs] at h
    simp only at h
    split_ifs at h with h4 h5
    simp only [Outcome.found.injEq] at h
    subst h
    refine ⟨opt0, rfl, rfl, by omega, by omega, ?_⟩
    by_contra hc
    exact h5 (Or.inr hc)

/-- A datagram that passes the checks on a query whose question name is made of labels
of 1 to 63 bytes echoes the whole question. -/
theorem validate_echo (query : Mem) (len xid : Nat) (rlen : Int) (m : Mem) (opt : Nat)
    (ls : List (List Nat)) (hlen : ∀ l ∈ ls, 1 ≤ l.length ∧ l.length ≤ 63)
    (hq : LabelsAt query 12 ls) (hz : rd query (12 + encLen ls) = 0)
    (hl : len = 12 + encLen ls + 5)
    (h : Control.validate query len xid rlen m = .found opt) :
    opt = len ∧ ∀ i, 12 ≤ i → i < len → rd m i = rd query i := by
  obtain ⟨-, opt0, h1, h2, h3, h4, h5⟩ := validate_found query len xid rlen m opt h
  have hecho : ∀ x, 12 ≤ x → x < opt → rd m x = rd query x := by
    intro x hx1 hx2
    have := (bytes_eq_iff _ _ _ _ _).mp h5 (x - 12) (by omega)
    have e : 12 + (x - 12) = x := by omega
    rw [e] at this
    exact this.symm
  have := skipNameLoop_echo query m rlen.toNat ls hlen 12 _ opt0 hq hz h1 (by omega)
    (fun x hx1 hx2 => hecho x hx1 (by omega))
  have hopt : opt = len := by omega
  exact ⟨hopt, fun i hi1 hi2 => hecho i hi1 (by omega)⟩

end Resolver

namespace Resolver

/-! ## `Control::ptr` -/

theorem decimal_length (x : Nat) :
    1 ≤ (Control.decimal x).length ∧ (Control.decimal x).length ≤ 3 := by
  unfold Control.decimal
  split_ifs <;> simp

theorem octetLabels_length (h n i : Nat) :
    ∀ l ∈ octetLabels h n i, 1 ≤ l.length ∧ l.length ≤ 63 := by
  induction n generalizing i with
  | zero => simp [octetLabels]
  | succ n ih =>
    intro l hl
    rw [octetLabels] at hl
    rcases List.mem_cons.mp hl with h1 | h1
    · have := decimal_length (h / 2 ^ (8 * i) % 256)
      rw [h1]
      omega
    · exact ih _ l h1

theorem ptrLabels_length (addr : List Nat) :
    ∀ l ∈ ptrLabels addr, 1 ≤ l.length ∧ l.length ≤ 63 := by
  intro l hl
  unfold ptrLabels at hl
  rcases List.mem_append.mp hl with h1 | h1
  · exact octetLabels_length _ _ _ l h1
  · simp only [List.mem_cons, List.mem_singleton, List.not_mem_nil, or_false] at h1
    rcases h1 with h2 | h2 <;> rw [h2] <;> simp

theorem labelsAt_append (m : Mem) (p : Nat) (l1 l2 : List (List Nat)) :
    LabelsAt m p (l1 ++ l2) ↔ LabelsAt m p l1 ∧ LabelsAt m (p + encLen l1) l2 := by
  induction l1 generalizing p with
  | nil => simp [LabelsAt, encLen]
  | cons l ls ih =>
    have e : p + encLen (l :: ls) = p + 1 + l.length + encLen ls := by
      simp only [encLen]; omega
    rw [e, List.cons_append]
    constructor
    · rintro ⟨a, b, c⟩
      have := (ih _).mp c
      exact ⟨⟨a, b, this.1⟩, this.2⟩
    · rintro ⟨⟨a, b, c⟩, d⟩
      exact ⟨a, b, (ih _).mpr ⟨c, d⟩⟩

theorem encLen_append (l1 l2 : List (List Nat)) :
    encLen (l1 ++ l2) = encLen l1 + encLen l2 := by
  induction l1 with
  | nil => simp [encLen]
  | cons l ls ih => rw [List.cons_append, encLen, encLen, ih]; omega

theorem ptrLoop_spec (h n i opt : Nat) (q : Mem) :
    (Control.ptrLoop h n i opt q).1 = opt + encLen (octetLabels h n i)
      ∧ LabelsAt (Control.ptrLoop h n i opt q).2 opt (octetLabels h n i)
      ∧ ∀ x, x < opt → rd (Control.ptrLoop h n i opt q).2 x = rd q x := by
  induction n generalizing i opt q with
  | zero => simp [Control.ptrLoop, octetLabels, encLen, LabelsAt]
  | succ n ih =>
    rw [Control.ptrLoop, octetLabels]
    have hd := decimal_length (h / 2 ^ (8 * i) % 256)
    generalize Control.decimal (h / 2 ^ (8 * i) % 256) = text at hd ⊢
    have hcount : rd (wr (wr (Control.wrList q (opt + 1) text) (opt + 1 + text.length) 0) opt
        text.length) opt = text.length := by
      rw [rd_wr, if_pos rfl]
      omega
    rw [hcount]
    obtain ⟨e1, e2, e3⟩ := ih (i + 1) (opt + 1 + text.length)
      (wr (wr (Control.wrList q (opt + 1) text) (opt + 1 + text.length) 0) opt text.length)
    refine ⟨?_, ⟨?_, ?_, e2⟩, ?_⟩
    · rw [e1]
      simp only [encLen]
      omega
    · rw [e3 opt (by omega)]
      exact hcount
    · apply List.ext_getElem
      · simp [bytes_length]
      · intro k h1 h2
        rw [bytes_length] at h1
        simp only [bytes, List.getElem_map, List.getElem_range]
        rw [e3 _ (by omega), rd_wr, if_neg (by omega), rd_wr, if_neg (by omega), rd_wrList,
          if_pos (by omega)]
        have : opt + 1 + k - (opt + 1) = k := by omega
        rw [this, List.getD_eq_getElem _ _ h1]
    · intro x hx
      rw [e3 x (by omega), rd_wr, if_neg (by omega), rd_wr, if_neg (by omega), rd_wrList,
        if_neg (by omega)]

end Resolver

namespace Resolver

theorem rd_ptr_tail (q4 : Mem) (o x : Nat) :
    rd (wr16 (wr16 (wr (Control.wrList (wr (Control.wrList (wr q4 o 7) (o + 1)
        [105, 110, 45, 97, 100, 100, 114]) (o + 8) 4) (o + 8 + 1) [97, 114, 112, 97])
        (o + 8 + 5) 0) (o + 8 + 5 + 1) DNSType.PTR) (o + 8 + 5 + 1 + 2) DNSClass.IN) x
      = if x < o ∨ o + 18 ≤ x then rd q4 x
        else ([7, 105, 110, 45, 97, 100, 100, 114, 4, 97, 114, 112, 97, 0, 0, 12, 0, 1] :
          List Nat).getD (x - o) 0 := by
  by_cases hx : x < o ∨ o + 18 ≤ x
  · rw [if_pos hx]
    simp only [rd_wr16, rd_wr, rd_wrList, List.length_cons, List.length_nil]
    split_ifs <;> omega
  · rw [if_neg hx]
    obtain ⟨k, hk, rfl⟩ : ∃ k, k < 18 ∧ x = o + k := ⟨x - o, by omega, by omega⟩
    have e : o + k - o = k := by omega
    rw [e]
    simp only [rd_wr16, rd_wr, rd_wrList, List.length_cons, List.length_nil, DNSType.PTR,
      DNSClass.IN]
    interval_cases k <;> simp [Nat.add_assoc]

end Resolver

namespace Resolver

/-- What `Control::ptr` returns and leaves in the buffer: the header, the labels of the
reverse name, the terminator, the type `PTR` and the class `IN`. -/
theorem ptr_ok (q : Mem) (id : Nat) (addr : List Nat) :
    ∃ q1, Control.ptr q id addr = (12 + encLen (ptrLabels addr) + 5, q1)
      ∧ LabelsAt q1 12 (ptrLabels addr)
      ∧ rd q1 (12 + encLen (ptrLabels addr)) = 0
      ∧ rd16 q1 (12 + encLen (ptrLabels addr) + 1) = DNSType.PTR
      ∧ rd16 q1 (12 + encLen (ptrLabels addr) + 3) = DNSClass.IN
      ∧ (∀ x, x < 12 → rd q1 x = rd (Control.stampHeader q id) x) := by
  obtain ⟨e1, e2, e3⟩ := ptrLoop_spec (Control.hostOrder addr) 4 0 12 (Control.stampHeader q id)
  unfold Control.ptr
  simp only [DNSHdr.size]
  generalize Control.ptrLoop (Control.hostOrder addr) 4 0 12 (Control.stampHeader q id) = P
    at e1 e2 e3
  obtain ⟨o, q4⟩ := P
  simp only at e1 e2 e3 ⊢
  have hE : encLen (ptrLabels addr) = encLen (octetLabels (Control.hostOrder addr) 4 0) + 13 := by
    unfold ptrLabels
    rw [encLen_append]
    simp [encLen]
  refine ⟨wr16 (wr16 (wr (Control.wrList (wr (Control.wrList (wr q4 o 7) (o + 1)
      [105, 110, 45, 97, 100, 100, 114]) (o + 8) 4) (o + 8 + 1) [97, 114, 112, 97])
      (o + 8 + 5) 0) (o + 8 + 5 + 1) DNSType.PTR) (o + 8 + 5 + 1 + 2) DNSClass.IN,
    ?_, ?_, ?_, ?_, ?_, ?_⟩
  · congr 1
    omega
  · unfold ptrLabels
    rw [labelsAt_append]
    constructor
    · apply labelsAt_congr _ _ _ _ _ e2
      intro x hx1 hx2
      rw [rd_ptr_tail, if_pos (Or.inl (by omega))]
    · rw [← e1]
      refine ⟨?_, ?_, ?_, ?_, trivial⟩
      · rw [rd_ptr_tail, if_neg (by omega)]
        simp
      · apply List.ext_getElem
        · simp [bytes_length]
        · intro k h1 h2
          rw [bytes_length] at h1
          simp only [List.length_cons, List.length_nil] at h1
          simp only [bytes, List.getElem_map, List.getElem_range]
          rw [rd_ptr_tail, if_neg (by omega)]
          interval_cases k <;> simp [Nat.add_assoc]
      · rw [rd_ptr_tail, if_neg (by simp only [List.length_cons, List.length_nil]; omega)]
        simp [Nat.add_assoc]
      · apply List.ext_getElem
        · simp [bytes_length]
        · intro k h1 h2
          rw [bytes_length] at h1
          simp only [List.length_cons, List.length_nil] at h1
          simp only [bytes, List.getElem_map, List.getElem_range]
          rw [rd_ptr_tail, if_neg (by simp only [List.length_cons, List.length_nil]; omega)]
          interval_cases k <;> simp [Nat.add_assoc]
  · rw [hE, ← Nat.add_assoc, ← e1, rd_ptr_tail, if_neg (by omega)]
    simp
  · unfold rd16
    rw [hE, ← Nat.add_assoc, ← e1, rd_ptr_tail, rd_ptr_tail, if_neg (by omega),
      if_neg (by omega)]
    simp [Nat.add_assoc, DNSType.PTR]
  · unfold rd16
    rw [hE, ← Nat.add_assoc, ← e1, rd_ptr_tail, rd_ptr_tail, if_neg (by omega),
      if_neg (by omega)]
    simp [Nat.add_assoc, DNSClass.IN]
  · intro x hx
    rw [rd_ptr_tail, if_pos (Or.inl (by omega))]
    exact e3 x (by omega)

end Resolver

namespace Resolver

/-! ## From a lookup that returns a result to the datagram it came from -/

theorem attemptA_found (C : Consts) (query : Mem) (len xid : Nat) (rlen : Int) (m : Mem)
    (x : List Nat) (h : Control.attemptA C query len xid rlen m = .found x) :
    ∃ opt, Control.validate query len xid rlen m = .found opt := by
  unfold Control.attemptA at h
  cases hv : Control.validate query len xid rlen m with
  | nothing => rw [hv] at h; cases h
  | found opt => exact ⟨opt, rfl⟩
  | undef => rw [hv] at h; cases h
  | outOfFuel => rw [hv] at h; cases h

theorem attemptPtr_found (C : Consts) (fuel : Nat) (query : Mem) (len xid : Nat) (rlen : Int)
    (m : Mem) (h : (Control.attemptPtr C fuel query len xid rlen m).1 = .found ()) :
    ∃ opt, Control.validate query len xid rlen m = .found opt := by
  unfold Control.attemptPtr at h
  cases hv : Control.validate query len xid rlen m with
  | nothing => rw [hv] at h; cases h
  | found opt => exact ⟨opt, rfl⟩
  | undef => rw [hv] at h; cases h
  | outOfFuel => rw [hv] at h; cases h

theorem rxmitA_found (C : Consts) (query : Mem) (len xid : Nat) (recv : Nat → Int × Mem)
    (n k : Nat) (response : Mem) (io : List IOEvent) (x : List Nat)
    (h : (Control.rxmitA C query len xid recv n k response io).1 = .found x) :
    ∃ j, k ≤ j ∧ j < k + n
      ∧ Control.attemptA C query len xid (recv j).1 (recv j).2 = .found x
      ∧ ∀ i, k ≤ i → i < j →
        Control.attemptA C query len xid (recv i).1 (recv i).2 = .nothing := by
  induction n generalizing k response io with
  | zero =>
    simp only [Control.rxmitA] at h
    cases h
  | succ n ih =>
    rw [Control.rxmitA] at h
    cases hA : Control.attemptA C query len xid (recv k).1 (recv k).2 with
    | nothing =>
      rw [hA] at h
      obtain ⟨j, h1, h2, h3, h4⟩ := ih _ _ _ h
      refine ⟨j, by omega, by omega, h3, ?_⟩
      intro i hi1 hi2
      by_cases hik : i = k
      · rw [hik]; exact hA
      · exact h4 i (by omega) hi2
    | found y =>
      rw [hA] at h
      simp only [Outcome.found.injEq] at h
      subst h
      exact ⟨k, le_refl _, by omega, hA, fun i hi1 hi2 => by omega⟩
    | undef => rw [hA] at h; cases h
    | outOfFuel => rw [hA] at h; cases h

theorem rxmitPtr_found (C : Consts) (fuel : Nat) (query : Mem) (len xid : Nat)
    (recv : Nat → Int × Mem) (n k : Nat) (response : Mem) (buf : List Nat)
    (io : List IOEvent)
    (h : (Control.rxmitPtr C fuel query len xid recv n k response buf io).1 = .found ()) :
    ∃ j, k ≤ j ∧ j < k + n
      ∧ (Control.attemptPtr C fuel query len xid (recv j).1 (recv j).2).1 = .found ()
      ∧ ∀ i, k ≤ i → i < j →
        (Control.attemptPtr C fuel query len xid (recv i).1 (recv i).2).1 = .nothing := by
  induction n generalizing k response buf io with
  | zero =>
    simp only [Control.rxmitPtr] at h
    cases h
  | succ n ih =>
    rw [Control.rxmitPtr] at h
    cases hA : (Control.attemptPtr C fuel query len xid (recv k).1 (recv k).2).1 with
    | nothing =>
      rw [hA] at h
      obtain ⟨j, h1, h2, h3, h4⟩ := ih _ _ _ _ h
      refine ⟨j, by omega, by omega, h3, ?_⟩
      intro i hi1 hi2
      by_cases hik : i = k
      · rw [hik]; exact hA
      · exact h4 i (by omega) hi2
    | found y =>
      exact ⟨k, le_refl _, by omega, hA, fun i hi1 hi2 => by omega⟩
    | undef => rw [hA] at h; cases h
    | outOfFuel => rw [hA] at h; cases h

theorem getHostByName_found (C : Consts) (AF_INET : Int) (c : Control)
    (recv : Nat → Int × Mem) (hostName : Option (List Nat)) (addressFamily : Int)
    (x : List Nat)
    (h : (Control.getHostByName C AF_INET c recv hostName addressFamily).1 = .found x) :
    ∃ hn j, hostName = some hn ∧ j < C.MaxQuery
      ∧ 0 < (Control.a C.NameMax c.suffix c.query ((c.id + 1) % 65536) hn).1
      ∧ Control.attemptA C (Control.a C.NameMax c.suffix c.query ((c.id + 1) % 65536) hn).2
          (Control.a C.NameMax c.suffix c.query ((c.id + 1) % 65536) hn).1
          ((c.id + 1) % 65536) (recv j).1 (recv j).2 = .found x := by
  unfold Control.getHostByName at h
  cases hostName with
  | none => cases h
  | some hn =>
    simp only [] at h
    by_cases h1 : addressFamily ≠ AF_INET
    · rw [if_pos h1] at h
      cases h
    · rw [if_neg h1] at h
      by_cases h2 : (Control.a C.NameMax c.suffix c.query ((c.id + 1) % 65536) hn).1 ≤ 0
      · rw [if_pos h2] at h
        cases h
      · rw [if_neg h2] at h
        obtain ⟨j, -, hj, hA, -⟩ := rxmitA_found C _ _ _ recv _ _ _ _ x h
        exact ⟨hn, j, rfl, by omega, by omega, hA⟩

theorem getHostName_found (C : Consts) (fuel : Nat) (c : Control) (recv : Nat → Int × Mem)
    (got : Int × List Nat) (buf : List Nat) (nlen : Nat)
    (h : (Control.getHostName C fuel c recv got buf nlen).1 = .found ()) :
    ∃ j, j < C.MaxQuery
      ∧ (Control.attemptPtr C fuel (Control.ptr c.query ((c.id + 1) % 65536) got.2).2
          (Control.ptr c.query ((c.id + 1) % 65536) got.2).1
          ((c.id + 1) % 65536) (recv j).1 (recv j).2).1 = .found () := by
  unfold Control.getHostName at h
  by_cases h1 : nlen < C.NameMax
  · rw [if_pos h1] at h
    cases h
  · rw [if_neg h1] at h
    by_cases h2 : got.1 ≠ 4
    · rw [if_pos h2] at h
      cases h
    · rw [if_neg h2] at h
      simp only [] at h
      by_cases h3 : (Control.ptr c.query ((c.id + 1) % 65536) got.2).1 ≤ 0
      · rw [if_pos h3] at h
        cases h
      · rw [if_neg h3] at h
        obtain ⟨j, -, hj, hA, -⟩ := rxmitPtr_found C fuel _ _ _ recv _ _ _ _ _ h
        exact ⟨j, by omega, hA⟩

end Resolver

namespace Resolver

/-! ## Header validation and echo enforcement -/

theorem a_echo (NameMax : Nat) (s : List Nat) (q : Mem) (id : Nat) (h : List Nat)
    (hh : IsCStr h) (hs : IsCStr s) (xid : Nat) (rlen : Int) (m : Mem) (opt : Nat)
    (hv : Control.validate (Control.a NameMax s q id h).2 (Control.a NameMax s q id h).1 xid
      rlen m = .found opt) :
    ∀ i, 12 ≤ i → i < (Control.a NameMax s q id h).1 →
      rd m i = rd (Control.a NameMax s q id h).2 i := by
  by_cases hw : WellFormed NameMax (effectiveName s h)
  · obtain ⟨q1, e1, e2, e3, -⟩ := a_ok NameMax s q id h hh hs hw
    rw [e1] at hv ⊢
    exact (validate_echo q1 _ xid rlen m opt _ hw.2.1 e2 e3 rfl hv).2
  · intro i _ hi
    rw [a_fail NameMax s q id h hh hs hw] at hi
    omega

theorem ptr_echo (q : Mem) (id : Nat) (addr : List Nat) (xid : Nat) (rlen : Int) (m : Mem)
    (opt : Nat)
    (hv : Control.validate (Control.ptr q id addr).2 (Control.ptr q id addr).1 xid rlen m
      = .found opt) :
    ∀ i, 12 ≤ i → i < (Control.ptr q id addr).1 → rd m i = rd (Control.ptr q id addr).2 i := by
  obtain ⟨q1, e1, e2, e3, -⟩ := ptr_ok q id addr
  rw [e1] at hv ⊢
  exact (validate_echo q1 _ xid rlen m opt _ (ptrLabels_length addr) e2 e3 rfl hv).2

/-- C2: a datagram that violates one of the header conditions (length above the 12
header bytes, the id of the outstanding query, the response flag, exactly one question,
at least one answer) is skipped by both lookups, whatever else it holds; and when
`Control::getHostByName` or `Control::getHostName` returns a result, it is the result of
the datagram of some attempt `j < MaxQuery`, and that datagram satisfies them all for
the transaction id of the query. -/
theorem header_validation (C : Consts) (AF_INET : Int) (c : Control)
    (recv : Nat → Int × Mem) (hostName : Option (List Nat)) (addressFamily : Int)
    (fuel : Nat) (got : Int × List Nat) (buf : List Nat) (nlen : Nat) :
    (∀ query len xid rlen m, ¬ HeaderOk xid rlen m →
        Control.attemptA C query len xid rlen m = .nothing
          ∧ Control.attemptPtr C fuel query len xid rlen m = (.nothing, []))
      ∧ (∀ x, (Control.getHostByName C AF_INET c recv hostName addressFamily).1 = .found x →
        ∃ hn j, hostName = some hn ∧ j < C.MaxQuery
          ∧ Control.attemptA C (queryA C c hn).2 (queryA C c hn).1 (nextId c)
              (recv j).1 (recv j).2 = .found x
          ∧ HeaderOk (nextId c) (recv j).1 (recv j).2)
      ∧ ((Control.getHostName C fuel c recv got buf nlen).1 = .found () →
        ∃ j, j < C.MaxQuery
          ∧ (Control.attemptPtr C fuel (queryPtr c got.2).2 (queryPtr c got.2).1 (nextId c)
              (recv j).1 (recv j).2).1 = .found ()
          ∧ HeaderOk (nextId c) (recv j).1 (recv j).2) := by
  refine ⟨?_, ?_, ?_⟩
  · intro query len xid rlen m hbad
    unfold Control.attemptA Control.attemptPtr
    rw [validate_bad_header query len xid rlen m hbad]
    exact ⟨rfl, rfl⟩
  · intro x hx
    obtain ⟨hn, j, h1, h2, -, h4⟩ := getHostByName_found C AF_INET c recv hostName
      addressFamily x hx
    obtain ⟨opt, hv⟩ := attemptA_found C _ _ _ _ _ x h4
    exact ⟨hn, j, h1, h2, h4, (validate_found _ _ _ _ _ opt hv).1⟩
  · intro hx
    obtain ⟨j, h2, h4⟩ := getHostName_found C fuel c recv got buf nlen hx
    obtain ⟨opt, hv⟩ := attemptPtr_found C fuel _ _ _ _ _ h4
    exact ⟨j, h2, h4, (validate_found _ _ _ _ _ opt hv).1⟩

/-- C1: for C strings `hostName` and `suffix`: when `Control::getHostByName` returns a
result, it is the result of the datagram of some attempt `j < MaxQuery`, and the bytes of
that datagram at the offsets 12 to `len - 1` equal those of the query that `Control::a`
built, `len` being the length it returned; the same holds for `Control::getHostName` and
the query that `Control::ptr` built.  Hence a datagram that differs from the query in one
of these bytes never yields a result, whatever its transaction id. -/
theorem echo_enforcement (C : Consts) (AF_INET : Int) (c : Control)
    (recv : Nat → Int × Mem) (hostName : Option (List Nat)) (addressFamily : Int)
    (fuel : Nat) (got : Int × List Nat) (buf : List Nat) (nlen : Nat)
    (hs : IsCStr c.suffix) (hh : ∀ hn, hostName = some hn → IsCStr hn) :
    (∀ x, (Control.getHostByName C AF_INET c recv hostName addressFamily).1 = .found x →
        ∃ hn j, hostName = some hn ∧ j < C.MaxQuery
          ∧ Control.attemptA C (queryA C c hn).2 (queryA C c hn).1 (nextId c)
              (recv j).1 (recv j).2 = .found x
          ∧ ∀ i, 12 ≤ i → i < (queryA C c hn).1 →
              rd (recv j).2 i = rd (queryA C c hn).2 i)
      ∧ ((Control.getHostName C fuel c recv got buf nlen).1 = .found () →
        ∃ j, j < C.MaxQuery
          ∧ (Control.attemptPtr C fuel (queryPtr c got.2).2 (queryPtr c got.2).1 (nextId c)
              (recv j).1 (recv j).2).1 = .found ()
          ∧ ∀ i, 12 ≤ i → i < (queryPtr c got.2).1 →
              rd (recv j).2 i = rd (queryPtr c got.2).2 i)
      ∧ (∀ hn xid rlen m, hostName = some hn →
        (∃ i, 12 ≤ i ∧ i < (queryA C c hn).1 ∧ rd m i ≠ rd (queryA C c hn).2 i) →
        ∀ x, Control.attemptA C (queryA C c hn).2 (queryA C c hn).1 xid rlen m ≠ .found x)
      ∧ (∀ xid rlen m,
        (∃ i, 12 ≤ i ∧ i < (queryPtr c got.2).1 ∧ rd m i ≠ rd (queryPtr c got.2).2 i) →
        (Control.attemptPtr C fuel (queryPtr c got.2).2 (queryPtr c got.2).1 xid rlen m).1
          ≠ .found ()) := by
  refine ⟨?_, ?_, ?_, ?_⟩
  · intro x hx
    obtain ⟨hn, j, h1, h2, -, h4⟩ := getHostByName_found C AF_INET c recv hostName
      addressFamily x hx
    obtain ⟨opt, hv⟩ := attemptA_found C _ _ _ _ _ x h4
    exact ⟨hn, j, h1, h2, h4, a_echo _ _ _ _ hn (hh hn h1) hs _ _ _ opt hv⟩
  · intro hx
    obtain ⟨j, h2, h4⟩ := getHostName_found C fuel c recv got buf nlen hx
    obtain ⟨opt, hv⟩ := attemptPtr_found C fuel _ _ _ _ _ h4
    exact ⟨j, h2, h4, ptr_echo _ _ _ _ _ _ opt hv⟩
  · intro hn xid rlen m h1 ⟨i, hi1, hi2, hi3⟩ x hx
    obtain ⟨opt, hv⟩ := attemptA_found C _ _ _ _ _ x hx
    exact hi3 (a_echo _ _ _ _ hn (hh hn h1) hs _ _ _ opt hv i hi1 hi2)
  · intro xid rlen m ⟨i, hi1, hi2, hi3⟩ hx
    obtain ⟨opt, hv⟩ := attemptPtr_found C fuel _ _ _ _ _ hx
    exact hi3 (ptr_echo _ _ _ _ _ _ opt hv i hi1 hi2)

end Resolver

namespace Resolver

/-- C1, at the lookup of `a` answered at once by `sampleReplyA`: the lookup returns
`1.2.3.4`, and the datagram it comes from echoes the bytes 12 to `len - 1` of the
query. -/
theorem echo_enforcement_witness :
    IsCStr sampleControl.suffix ∧ (∀ hn, some [97] = some hn → IsCStr hn)
      ∧ (Control.getHostByName sampleConsts 2 sampleControl sampleRecvA (some [97]) 2).1
        = .found [1, 2, 3, 4]
      ∧ ∃ hn j, some [97] = some hn ∧ j < sampleConsts.MaxQuery
        ∧ Control.attemptA sampleConsts (queryA sampleConsts sampleControl hn).2
            (queryA sampleConsts sampleControl hn).1 (nextId sampleControl)
            (sampleRecvA j).1 (sampleRecvA j).2 = .found [1, 2, 3, 4]
        ∧ ∀ i, 12 ≤ i → i < (queryA sampleConsts sampleControl hn).1 →
            rd (sampleRecvA j).2 i = rd (queryA sampleConsts sampleControl hn).2 i :=
  ⟨by decide,
    by
      intro hn h
      cases h
      decide,
    by decide,
    (echo_enforcement sampleConsts 2 sampleControl sampleRecvA (some [97]) 2 0 (0, []) [] 0
      (by decide) (by
        intro hn h
        cases h
        decide)).1 [1, 2, 3, 4] (by decide)⟩

end Resolver

namespace Resolver

/-! ## A pointer whose target is out of range -/

/-- From a cursor at a compression pointer whose target is at or beyond `end`, `copyName`
loads the two bytes of the pointer, nothing after them, and returns `false`. -/
theorem copyNameRun_pointer_out_of_range (m : Mem) (dns end_ : Nat) (s : Control.CopyState)
    (k : Nat) (hdns : dns ≤ s.ptr) (hend : s.ptr < end_)
    (hptr : rd m s.ptr &&& 0xc0 = 0xc0)
    (hout : end_ ≤ dns + (rd16 m s.ptr &&& 0x3fff)) :
    Control.copyNameRun m dns end_ (k + 2) s
      = some (false, ⟨dns + (rd16 m s.ptr &&& 0x3fff), s.namelen, s.name,
          s.reads ++ [s.ptr] ++ [s.ptr, s.ptr + 1]⟩) := by
  have h1 : dns ≤ s.ptr ∧ s.ptr < end_ := ⟨hdns, hend⟩
  have h2 : rd m s.ptr &&& 0xc0 ≠ 0 := by rw [hptr]; decide
  have h3 : ¬ (rd m s.ptr &&& 0xc0 ≠ 0xc0) := not_not.mpr hptr
  have h4 : ¬ (dns ≤ dns + (rd16 m s.ptr &&& 0x3fff)
      ∧ dns + (rd16 m s.ptr &&& 0x3fff) < end_) := by omega
  rw [Control.copyNameRun, Control.copyNameStep, if_pos h1]
  simp only []
  rw [if_pos h2, if_neg h3]
  simp only []
  rw [Control.copyNameRun, Control.copyNameStep, if_neg h4]

end Resolver

namespace Resolver

/-- C2, at `sampleReplyA`: taken as a reply to a query with id 2 it fails the header
conditions and is skipped; the lookup of `a`, whose id is 1, returns a result from a
datagram that satisfies them. -/
theorem header_validation_witness :
    ¬ HeaderOk 2 35 (ofList sampleReplyA)
      ∧ Control.attemptA sampleConsts (queryA sampleConsts sampleControl [97]).2
          (queryA sampleConsts sampleControl [97]).1 2 35 (ofList sampleReplyA) = .nothing
      ∧ ∃ hn j, some [97] = some hn ∧ j < sampleConsts.MaxQuery
        ∧ Control.attemptA sampleConsts (queryA sampleConsts sampleControl hn).2
            (queryA sampleConsts sampleControl hn).1 (nextId sampleControl)
            (sampleRecvA j).1 (sampleRecvA j).2 = .found [1, 2, 3, 4]
        ∧ HeaderOk (nextId sampleControl) (sampleRecvA j).1 (sampleRecvA j).2 :=
  ⟨fun h => absurd h.2.1 (by decide),
    ((header_validation sampleConsts 2 sampleControl sampleRecvA (some [97]) 2 0 (0, []) []
      0).1 _ _ 2 35 (ofList sampleReplyA) (fun h => absurd h.2.1 (by decide))).1,
    (header_validation sampleConsts 2 sampleControl sampleRecvA (some [97]) 2 0 (0, []) []
      0).2.1 [1, 2, 3, 4] (by decide)⟩

end Resolver

/-! ## The layout of the A query -/

namespace Resolver

/-- The six header fields `stampHeader` leaves, read as big-endian 16-bit values. -/
theorem rd16_stampHeader (q : Mem) (id : Nat) :
    rd16 (Control.stampHeader q id) 0 = id % 65536
      ∧ rd16 (Control.stampHeader q id) 2 = DNSHdr.queryFlags
      ∧ rd16 (Control.stampHeader q id) 4 = 1
      ∧ rd16 (Control.stampHeader q id) 6 = 0
      ∧ rd16 (Control.stampHeader q id) 8 = 0
      ∧ rd16 (Control.stampHeader q id) 10 = 0 := by
  unfold Control.stampHeader rd16 DNSHdr.queryFlags
  simp only [rd_wr16]
  refine ⟨?_, ?_, ?_, ?_, ?_, ?_⟩
  · simp; omega
  all_goals simp

/-- Two buffers that agree below offset 12 have the same header fields. -/
theorem rd16_header_congr (m1 m2 : Mem) (h : ∀ x, x < 12 → rd m1 x = rd m2 x)
    (k : Nat) (hk : k ≤ 10) : rd16 m1 k = rd16 m2 k := by
  unfold rd16
  rw [h k (by omega), h (k + 1) (by omega)]

/-- Every character of a label of a name is a character of the name, and no dot. -/
theorem labelsOf_chars (e : List Nat) :
    ∀ l ∈ labelsOf e, ∀ c ∈ l, c ≠ dotChar ∧ c ∈ e := by
  intro l hl c hc
  have h := splitOn_parts (stripDot e) l hl c hc
  refine ⟨h.1, ?_⟩
  have h2 := h.2
  unfold stripDot at h2
  split at h2
  · exact List.dropLast_subset e h2
  · exact h2

/-- An element of the wire form of a label list is a length or a character of one of
the labels. -/
theorem mem_encodeLabels (ls : List (List Nat)) (x : Nat) (hx : x ∈ encodeLabels ls) :
    ∃ l ∈ ls, x = l.length ∨ x ∈ l := by
  induction ls with
  | nil => simp [encodeLabels] at hx
  | cons l ls ih =>
    rw [encodeLabels] at hx
    rcases List.mem_cons.mp hx with h1 | h1
    · exact ⟨l, List.mem_cons_self _ _, Or.inl h1⟩
    · rcases List.mem_append.mp h1 with h2 | h2
      · exact ⟨l, List.mem_cons_self _ _, Or.inr h2⟩
      · obtain ⟨l2, hl2, h3⟩ := ih h2
        exact ⟨l2, List.mem_cons_of_mem _ hl2, h3⟩

/-- The wire form of a label list has the length `encLen` gives. -/
theorem encodeLabels_length (ls : List (List Nat)) :
    (encodeLabels ls).length = encLen ls := by
  induction ls with
  | nil => rfl
  | cons l ls ih =>
    simp only [encodeLabels, encLen, List.length_cons, List.length_append, ih]
    omega

/-- C11: when `Control::a(id, hostName)` succeeds (returns a positive length) on C
strings of bytes, the query buffer holds `id` as a big-endian 16-bit value at offset 0,
the flags `Query|StandardQuery|RD` at offset 2, qdcount 1 at offset 4 and the counts 0 at
offsets 6, 8 and 10; from offset 12 on it holds the wire form of the labels of the name,
in which no byte is zero, followed by one zero byte, then type A and class IN as
big-endian 16-bit values; and the returned length is 12 + (the length of the encoded
name with its terminator) + 4. -/
theorem a_query_layout (NameMax : Nat) (s : List Nat) (q : Mem) (id : Nat) (h : List Nat)
    (hh : IsCStr h) (hs : IsCStr s) (hbh : ∀ c ∈ h, c < 256) (hbs : ∀ c ∈ s, c < 256)
    (hok : 0 < (Control.a NameMax s q id h).1) :
    rd16 (Control.a NameMax s q id h).2 0 = id % 65536
      ∧ rd16 (Control.a NameMax s q id h).2 2 = DNSHdr.queryFlags
      ∧ rd16 (Control.a NameMax s q id h).2 4 = 1
      ∧ rd16 (Control.a NameMax s q id h).2 6 = 0
      ∧ rd16 (Control.a NameMax s q id h).2 8 = 0
      ∧ rd16 (Control.a NameMax s q id h).2 10 = 0
      ∧ bytes (Control.a NameMax s q id h).2 12 (encLen (labelsOf (effectiveName s h)) + 1)
          = encodeLabels (labelsOf (effectiveName s h)) ++ [0]
      ∧ 0 ∉ encodeLabels (labelsOf (effectiveName s h))
      ∧ rd16 (Control.a NameMax s q id h).2 (12 + encLen (labelsOf (effectiveName s h)) + 1)
          = DNSType.A
      ∧ rd16 (Control.a NameMax s q id h).2 (12 + encLen (labelsOf (effectiveName s h)) + 3)
          = DNSClass.IN
      ∧ (Control.a NameMax s q id h).1
          = 12 + (encLen (labelsOf (effectiveName s h)) + 1) + 4 := by
  have hw : WellFormed NameMax (effectiveName s h) := by
    by_contra hn
    have := a_fail NameMax s q id h hh hs hn
    omega
  obtain ⟨q1, e, hl, hz, ht, hc, hhd, -⟩ := a_ok NameMax s q id h hh hs hw
  have hcs := isCStr_effectiveName s h hh hs
  have hb : ∀ c ∈ effectiveName s h, c < 256 := by
    intro c hc
    unfold effectiveName at hc
    split at hc
    · exact hbh c hc
    · rcases List.mem_append.mp hc with h1 | h1
      · exact hbh c h1
      · rcases List.mem_cons.mp h1 with h2 | h2
        · rw [h2]; decide
        · exact hbs c h2
  obtain ⟨g0, g2, g4, g6, g8, g10⟩ := rd16_stampHeader q id
  rw [e]
  simp only
  refine ⟨?_, ?_, ?_, ?_, ?_, ?_, ?_, ?_, ht, hc, by omega⟩
  · rw [rd16_header_congr q1 _ hhd 0 (by omega)]; exact g0
  · rw [rd16_header_congr q1 _ hhd 2 (by omega)]; exact g2
  · rw [rd16_header_congr q1 _ hhd 4 (by omega)]; exact g4
  · rw [rd16_header_congr q1 _ hhd 6 (by omega)]; exact g6
  · rw [rd16_header_congr q1 _ hhd 8 (by omega)]; exact g8
  · rw [rd16_header_congr q1 _ hhd 10 (by omega)]; exact g10
  · rw [bytes_append, bytes_one, hz,
      labelsAt_bytes q1 12 _ hl (fun l hl2 c hc2 => hb c (labelsOf_chars _ l hl2 c hc2).2)]
  · intro h0
    obtain ⟨l, hl2, h3⟩ := mem_encodeLabels _ 0 h0
    rcases h3 with h3 | h3
    · have := (hw.2.1 l hl2).1
      omega
    · exact hcs 0 (labelsOf_chars _ l hl2 0 h3).2 rfl

/-- C11 at a concrete input: the A query for `a.bc` with id 258 and no suffix. -/
theorem a_query_layout_witness :
    rd16 (Control.a 255 [] (fun _ => 0) 258 [97, 46, 98, 99]).2 0 = 258 % 65536
      ∧ bytes (Control.a 255 [] (fun _ => 0) 258 [97, 46, 98, 99]).2 12
          (encLen (labelsOf (effectiveName [] [97, 46, 98, 99])) + 1)
          = encodeLabels (labelsOf (effectiveName [] [97, 46, 98, 99])) ++ [0]
      ∧ (Control.a 255 [] (fun _ => 0) 258 [97, 46, 98, 99]).1
          = 12 + (encLen (labelsOf (effectiveName [] [97, 46, 98, 99])) + 1) + 4 :=
  have h := a_query_layout 255 [] (fun _ => 0) 258 [97, 46, 98, 99] (by decide) (by decide)
    (by decide) (by decide) (by decide)
  ⟨h.1, h.2.2.2.2.2.2.1, h.2.2.2.2.2.2.2.2.2.2⟩

end Resolver

/-! ## The reverse question name -/

namespace Resolver

set_option maxRecDepth 100000 in
/-- For an octet `sprintf("%u")` gives the canonical decimal text. -/
theorem decimal_eq_decimalText : ∀ x, x < 256 → Control.decimal x = decimalText x := by
  decide

/-- The value `ntohl` gives for octets in memory order. -/
theorem hostOrder_quad (a b c d : Nat) (ha : a < 256) (hb : b < 256) (hc : c < 256)
    (hd : d < 256) :
    Control.hostOrder [a, b, c, d] = a * 2 ^ 24 + b * 2 ^ 16 + c * 2 ^ 8 + d := by
  unfold Control.hostOrder rd ofList
  simp [Nat.mod_eq_of_lt ha, Nat.mod_eq_of_lt hb, Nat.mod_eq_of_lt hc, Nat.mod_eq_of_lt hd]

/-- The four octet labels, written out. -/
theorem octetLabels_four (h : Nat) :
    octetLabels h 4 0 = [Control.decimal (h % 256), Control.decimal (h / 2 ^ 8 % 256),
      Control.decimal (h / 2 ^ 16 % 256), Control.decimal (h / 2 ^ 24 % 256)] := by
  simp [octetLabels]

/-- The labels `Control::ptr` writes are those the specification lists. -/
theorem ptrLabels_quad (a b c d : Nat) (ha : a < 256) (hb : b < 256) (hc : c < 256)
    (hd : d < 256) : ptrLabels [a, b, c, d] = reverseLabels a b c d := by
  unfold ptrLabels reverseLabels inAddrText arpaText
  rw [octetLabels_four, hostOrder_quad a b c d ha hb hc hd]
  have e0 : (a * 2 ^ 24 + b * 2 ^ 16 + c * 2 ^ 8 + d) % 256 = d := by omega
  have e1 : (a * 2 ^ 24 + b * 2 ^ 16 + c * 2 ^ 8 + d) / 2 ^ 8 % 256 = c := by omega
  have e2 : (a * 2 ^ 24 + b * 2 ^ 16 + c * 2 ^ 8 + d) / 2 ^ 16 % 256 = b := by omega
  have e3 : (a * 2 ^ 24 + b * 2 ^ 16 + c * 2 ^ 8 + d) / 2 ^ 24 % 256 = a := by omega
  rw [e0, e1, e2, e3, decimal_eq_decimalText a ha, decimal_eq_decimalText b hb,
    decimal_eq_decimalText c hc, decimal_eq_decimalText d hd]
  rfl

set_option maxRecDepth 100000 in
/-- The canonical decimal text of an octet has 1 to 3 characters, all of them digits,
and starts with `0` only when it is the one digit `0`. -/
theorem decimalText_octet : ∀ x, x < 256 →
    1 ≤ (decimalText x).length ∧ (decimalText x).length ≤ 3
      ∧ (∀ c ∈ decimalText x, 48 ≤ c ∧ c ≤ 57)
      ∧ ((decimalText x).head? = some 48 → decimalText x = [48]) := by
  decide

/-- The characters of the labels of a reverse name are bytes. -/
theorem reverseLabels_bytes (a b c d : Nat) (ha : a < 256) (hb : b < 256) (hc : c < 256)
    (hd : d < 256) : ∀ l ∈ reverseLabels a b c d, ∀ x ∈ l, x < 256 := by
  intro l hl x hx
  have key : ∀ y, y < 256 → x ∈ decimalText y → x < 256 := by
    intro y hy h
    have := (decimalText_octet y hy).2.2.1 x h
    omega
  unfold reverseLabels at hl
  simp only [List.mem_cons, List.mem_singleton, List.not_mem_nil, or_false] at hl
  rcases hl with h | h | h | h | h | h
  · rw [h] at hx; exact key d hd hx
  · rw [h] at hx; exact key c hc hx
  · rw [h] at hx; exact key b hb hx
  · rw [h] at hx; exact key a ha hx
  · rw [h] at hx
    simp only [inAddrText, List.mem_cons, List.mem_singleton, List.not_mem_nil,
      or_false] at hx
    omega
  · rw [h] at hx
    simp only [arpaText, List.mem_cons, List.mem_singleton, List.not_mem_nil,
      or_false] at hx
    omega

/-- C12: for every IPv4 address with the octets `a.b.c.d` in network (dotted-quad)
order, `Control::ptr` writes at offset 12 the wire form of the labels `decimal(d)`,
`decimal(c)`, `decimal(b)`, `decimal(a)`, `in-addr`, `arpa` followed by a zero byte,
where `decimal(x)` is the canonical decimal text of the octet (1 to 3 digits, no leading
zero), then type PTR and class IN as big-endian 16-bit values. -/
theorem reverse_question_name (q : Mem) (id a b c d : Nat) (ha : a < 256) (hb : b < 256)
    (hc : c < 256) (hd : d < 256) :
    bytes (Control.ptr q id [a, b, c, d]).2 12 (encLen (reverseLabels a b c d) + 1)
        = encodeLabels (reverseLabels a b c d) ++ [0]
      ∧ rd16 (Control.ptr q id [a, b, c, d]).2 (12 + encLen (reverseLabels a b c d) + 1)
          = DNSType.PTR
      ∧ rd16 (Control.ptr q id [a, b, c, d]).2 (12 + encLen (reverseLabels a b c d) + 3)
          = DNSClass.IN
      ∧ (∀ x ∈ [a, b, c, d], 1 ≤ (decimalText x).length ∧ (decimalText x).length ≤ 3
          ∧ ((decimalText x).head? = some 48 → decimalText x = [48])) := by
  obtain ⟨q1, e, hl, hz, ht, hcl, -⟩ := ptr_ok q id [a, b, c, d]
  rw [ptrLabels_quad a b c d ha hb hc hd] at e hl hz ht hcl
  rw [e]
  simp only
  refine ⟨?_, ht, hcl, ?_⟩
  · rw [bytes_append, bytes_one, hz,
      labelsAt_bytes q1 12 _ hl (reverseLabels_bytes a b c d ha hb hc hd)]
  · intro x hx
    have hx2 : x < 256 := by
      simp only [List.mem_cons, List.mem_singleton, List.not_mem_nil, or_false] at hx
      rcases hx with h | h | h | h <;> omega
    have := decimalText_octet x hx2
    exact ⟨this.1, this.2.1, this.2.2.2⟩

/-- C12 at the address `{93,184,216,34}`: the labels join to the text
`34.216.184.93.in-addr.arpa`, and the buffer holds their wire form. -/
theorem reverse_question_name_witness :
    joinDots (reverseLabels 93 184 216 34)
        = (String.toList "34.216.184.93.in-addr.arpa").map Char.toNat
      ∧ bytes (Control.ptr (fun _ => 0) 1 [93, 184, 216, 34]).2 12
          (encLen (reverseLabels 93 184 216 34) + 1)
        = encodeLabels (reverseLabels 93 184 216 34) ++ [0] :=
  ⟨by decide, (reverse_question_name (fun _ => 0) 1 93 184 216 34 (by decide) (by decide)
    (by decide) (by decide)).1⟩

end Resolver

/-! ## The octet order of the reverse name -/

namespace Resolver

/-- The octet labels of `Control::ptr` are the decimal texts, least significant octet
first. -/
theorem octetLabels_lsbFirst (h : Nat) : octetLabels h 4 0 = octetTextsLsbFirst h := by
  rw [octetLabels_four]
  unfold octetTextsLsbFirst
  rw [decimal_eq_decimalText _ (Nat.mod_lt _ (by decide)),
    decimal_eq_decimalText _ (Nat.mod_lt _ (by decide)),
    decimal_eq_decimalText _ (Nat.mod_lt _ (by decide)),
    decimal_eq_decimalText _ (Nat.mod_lt _ (by decide))]

/-- C13, as stated, fails: for the address `{93,184,216,34}` the labels at offset 12 of
the query of `Control::ptr` are not the decimal texts of the octets of `ntohl(addr)`
taken most significant octet first (the first label is `34`, not `93`). -/
theorem ptr_labels_not_msb_first :
    ¬ LabelsAt (Control.ptr (fun _ => 0) 1 [93, 184, 216, 34]).2 12
        (octetTextsMsbFirst (Control.hostOrder [93, 184, 216, 34])) :=
  fun h => absurd h.2.1 (by decide)

/-- C13, amended: the four decimal labels `Control::ptr` writes at offset 12 are the
decimal texts of the octets of `ntohl(addr)` taken least significant octet first: the
first label is the text of the least significant octet, the fourth that of the most
significant octet. -/
theorem ptr_labels_lsb_first (q : Mem) (id : Nat) (addr : List Nat) :
    LabelsAt (Control.ptr q id addr).2 12 (octetTextsLsbFirst (Control.hostOrder addr)) := by
  obtain ⟨q1, e, hl, -⟩ := ptr_ok q id addr
  rw [e]
  unfold ptrLabels at hl
  rw [labelsAt_append, octetLabels_lsbFirst] at hl
  exact hl.1

/-- C13, amended, at the address `{93,184,216,34}`: the labels are `34`, `216`, `184`,
`93`. -/
theorem ptr_labels_lsb_first_witness :
    octetTextsLsbFirst (Control.hostOrder [93, 184, 216, 34])
        = [[51, 52], [50, 49, 54], [49, 56, 52], [57, 51]]
      ∧ LabelsAt (Control.ptr (fun _ => 0) 1 [93, 184, 216, 34]).2 12
          (octetTextsLsbFirst (Control.hostOrder [93, 184, 216, 34])) :=
  ⟨by decide, ptr_labels_lsb_first (fun _ => 0) 1 [93, 184, 216, 34]⟩

end Resolver

/-! ## Failures before any socket call -/

namespace Resolver

/-- C19: for every host name on which `Control::a` fails (returns 0),
`Control::getHostByName` returns null and makes no socket call: no write, no
`setTimeout`, no read. -/
theorem encoding_error_no_io (C : Consts) (AF_INET : Int) (c : Control)
    (recv : Nat → Int × Mem) (h : List Nat) (af : Int) (hfail : (queryA C c h).1 = 0) :
    (Control.getHostByName C AF_INET c recv (some h) af).1 = .nothing
      ∧ (Control.getHostByName C AF_INET c recv (some h) af).2.2 = [] := by
  unfold queryA nextId at hfail
  unfold Control.getHostByName
  simp only
  by_cases h1 : af ≠ AF_INET
  · rw [if_pos h1]
    exact ⟨rfl, rfl⟩
  · rw [if_neg h1, if_pos (by omega)]
    exact ⟨rfl, rfl⟩

/-- C19 at a concrete input: the name `a..b`, which has an empty label. -/
theorem encoding_error_no_io_witness :
    (queryA sampleConsts sampleControl [97, 46, 46, 98]).1 = 0
      ∧ (Control.getHostByName sampleConsts 2 sampleControl sampleRecvA
          (some [97, 46, 46, 98]) 2).1 = .nothing
      ∧ (Control.getHostByName sampleConsts 2 sampleControl sampleRecvA
          (some [97, 46, 46, 98]) 2).2.2 = [] :=
  ⟨by decide, encoding_error_no_io sampleConsts 2 sampleControl sampleRecvA [97, 46, 46, 98] 2
    (by decide)⟩

/-- C20: for every call of `Control::getHostName` with `nlen < NameMax` the result is
`false`, no socket call is made, the connection (its transaction id counter included)
is as before, and the caller's buffer is unchanged. -/
theorem small_buffer_rejected (C : Consts) (fuel : Nat) (c : Control)
    (recv : Nat → Int × Mem) (got : Int × List Nat) (buf : List Nat) (nlen : Nat)
    (hsmall : nlen < C.NameMax) :
    Control.getHostName C fuel c recv got buf nlen = (.nothing, c, buf, []) := by
  unfold Control.getHostName
  rw [if_pos hsmall]

/-- C20 at a concrete input: a buffer of 254 bytes with `NameMax = 255`. -/
theorem small_buffer_rejected_witness :
    Control.getHostName sampleConsts 10 sampleControl sampleRecvA (4, [93, 184, 216, 34])
      (List.replicate 254 7) 254 = (.nothing, sampleControl, List.replicate 254 7, []) :=
  small_buffer_rejected sampleConsts 10 sampleControl sampleRecvA (4, [93, 184, 216, 34])
    (List.replicate 254 7) 254 (by decide)

end Resolver

/-! ## The retransmission loop -/

namespace Resolver

/-- The socket calls of the attempts `k, ..., k + n - 1`. -/
theorem range'_events_succ (MinWait : Nat) (data : List Nat) (k n : Nat) :
    (List.range' k (n + 1)).flatMap (attemptEvents MinWait data)
      = attemptEvents MinWait data k
        ++ (List.range' (k + 1) n).flatMap (attemptEvents MinWait data) := by
  rw [List.range'_succ, List.flatMap_cons]

/-- While the attempts are discarded the loop of `Control::getHostByName` goes on: when
the attempts `k, ..., j - 1` yield nothing and attempt `j` yields `o`, which is a result
or the last attempt, the loop ends with `o` after the socket calls of the attempts
`k, ..., j`. -/
theorem rxmitA_run (C : Consts) (query : Mem) (len xid : Nat) (recv : Nat → Int × Mem)
    (o : Outcome (List Nat)) (n k : Nat) :
    ∀ (d : Nat) (response : Mem) (io : List IOEvent), d < n →
      (∀ i, k ≤ i → i < k + d →
        Control.attemptA C query len xid (recv i).1 (recv i).2 = .nothing) →
      Control.attemptA C query len xid (recv (k + d)).1 (recv (k + d)).2 = o →
      (o ≠ .nothing ∨ d + 1 = n) →
      (Control.rxmitA C query len xid recv n k response io).1 = o
        ∧ (Control.rxmitA C query len xid recv n k response io).2.2
          = io ++ (List.range' k (d + 1)).flatMap
              (attemptEvents C.MinWait (bytes query 0 len)) := by
  induction n generalizing k with
  | zero => intro d _ _ hd; omega
  | succ n ih =>
    intro d response io hd hno hj hlast
    rw [Control.rxmitA]
    cases d with
    | zero =>
      rw [Nat.add_zero] at hj
      rw [hj]
      have ev : (List.range' k (0 + 1)).flatMap (attemptEvents C.MinWait (bytes query 0 len))
          = [.write (bytes query 0 len), .setTimeout (Control.shlInt C.MinWait k), .read] := by
        simp [attemptEvents]
      rw [ev]
      cases o with
      | nothing =>
        have hn0 : n = 0 := by
          rcases hlast with h | h
          · exact absurd rfl h
          · omega
        subst hn0
        simp only [Control.rxmitA]
        exact ⟨trivial, trivial⟩
      | found x => exact ⟨rfl, rfl⟩
      | undef => exact ⟨rfl, rfl⟩
      | outOfFuel => exact ⟨rfl, rfl⟩
    | succ d =>
      rw [hno k (le_refl _) (by omega)]
      simp only
      have e : k + (d + 1) = k + 1 + d := by omega
      rw [e] at hj
      have := ih (k + 1) d (recv k).2
        (io ++ [.write (bytes query 0 len), .setTimeout (Control.shlInt C.MinWait k), .read])
        (by omega) (fun i h1 h2 => hno i (by omega) (by omega)) hj
        (by rcases hlast with h | h
            · exact Or.inl h
            · exact Or.inr (by omega))
      rw [this.1, this.2, range'_events_succ C.MinWait _ k (d + 1), List.append_assoc]
      refine ⟨rfl, ?_⟩
      simp only [attemptEvents]

/-- The loop of `Control::getHostName` goes on in the same way. -/
theorem rxmitPtr_run (C : Consts) (fuel : Nat) (query : Mem) (len xid : Nat)
    (recv : Nat → Int × Mem) (o : Outcome Unit) (n k : Nat) :
    ∀ (d : Nat) (response : Mem) (buf : List Nat) (io : List IOEvent), d < n →
      (∀ i, k ≤ i → i < k + d →
        (Control.attemptPtr C fuel query len xid (recv i).1 (recv i).2).1 = .nothing) →
      (Control.attemptPtr C fuel query len xid (recv (k + d)).1 (recv (k + d)).2).1 = o →
      (o ≠ .nothing ∨ d + 1 = n) →
      (Control.rxmitPtr C fuel query len xid recv n k response buf io).1 = o
        ∧ (Control.rxmitPtr C fuel query len xid recv n k response buf io).2.2.2
          = io ++ (List.range' k (d + 1)).flatMap
              (attemptEvents C.MinWait (bytes query 0 len)) := by
  induction n generalizing k with
  | zero => intro d _ _ _ hd; omega
  | succ n ih =>
    intro d response buf io hd hno hj hlast
    rw [Control.rxmitPtr]
    cases d with
    | zero =>
      rw [Nat.add_zero] at hj
      rw [hj]
      have ev : (List.range' k (0 + 1)).flatMap (attemptEvents C.MinWait (bytes query 0 len))
          = [.write (bytes query 0 len), .setTimeout (Control.shlInt C.MinWait k), .read] := by
        simp [attemptEvents]
      rw [ev]
      cases o with
      | nothing =>
        have hn0 : n = 0 := by
          rcases hlast with h | h
          · exact absurd rfl h
          · omega
        subst hn0
        simp only [Control.rxmitPtr]
        exact ⟨trivial, trivial⟩
      | found x => exact ⟨rfl, rfl⟩
      | undef => exact ⟨rfl, rfl⟩
      | outOfFuel => exact ⟨rfl, rfl⟩
    | succ d =>
      rw [hno k (le_refl _) (by omega)]
      simp only
      have e : k + (d + 1) = k + 1 + d := by omega
      rw [e] at hj
      have := ih (k + 1) d (recv k).2
        (Control.overlay (Control.attemptPtr C fuel query len xid (recv k).1 (recv k).2).2 buf)
        (io ++ [.write (bytes query 0 len), .setTimeout (Control.shlInt C.MinWait k), .read])
        (by omega) (fun i h1 h2 => hno i (by omega) (by omega)) hj
        (by rcases hlast with h | h
            · exact Or.inl h
            · exact Or.inr (by omega))
      rw [this.1, this.2, range'_events_succ C.MinWait _ k (d + 1), List.append_assoc]
      refine ⟨rfl, ?_⟩
      simp only [attemptEvents]

/-- The socket calls of the attempts `0, ..., n - 1`, by the list of attempt numbers
from 0. -/
theorem backoffTrace_eq (MinWait : Nat) (data : List Nat) (n : Nat) :
    backoffTrace MinWait data n
      = (List.range' 0 n).flatMap (attemptEvents MinWait data) := by
  unfold backoffTrace
  rw [List.range_eq_range']

/-- While `x * 2 ^ k` fits an `int`, the shift `x << k` is that product. -/
theorem shlInt_of_fits (x k : Nat) (h : x * 2 ^ k < 2 ^ 31) :
    Control.shlInt x k = ((x * 2 ^ k : Nat) : Int) := by
  unfold Control.shlInt
  rcases Nat.eq_zero_or_pos x with hx | hx
  · subst hx
    simp
  · have hk : k < 31 := by
      by_contra hc
      have h1 : 2 ^ 31 ≤ 2 ^ k := Nat.pow_le_pow_right (by norm_num) (by omega)
      have h2 : 2 ^ k ≤ x * 2 ^ k := Nat.le_mul_of_pos_left _ hx
      omega
    rw [Nat.mod_eq_of_lt (by omega)]
    have e : (x : Int) * 2 ^ k = ((x * 2 ^ k : Nat) : Int) := by push_cast; rfl
    rw [e]
    generalize x * 2 ^ k = v at h
    unfold Int.bmod
    have e2 : ((2 ^ 32 : Nat) : Int) = 4294967296 := by norm_num
    simp only [e2]
    norm_num at h
    have e3 : (v : Int) % 4294967296 = v := Int.emod_eq_of_lt (by omega) (by omega)
    rw [e3]
    split_ifs with h3
    · rfl
    · exfalso; apply h3; norm_num; omega

/-- Beyond the range of an `int` the shift is no longer the product: with `MinWait = 1`
the attempts 31, 32 and 33 would wait `-2147483648`, `1` and `2` seconds. -/
theorem shlInt_beyond_int :
    Control.shlInt 1 31 = -2147483648 ∧ Control.shlInt 1 32 = 1 ∧ Control.shlInt 1 33 = 2 := by
  decide

/-- The timeouts of the attempts `k, ..., k + n - 1` are `MinWait * 2 ^ i`, as long as
these products fit an `int`. -/
theorem timeouts_range' (MinWait : Nat) (data : List Nat) (n : Nat) :
    ∀ k, (∀ i, i < k + n → MinWait * 2 ^ i < 2 ^ 31) →
      timeouts ((List.range' k n).flatMap (attemptEvents MinWait data))
        = (List.range' k n).map (fun i => ((MinWait * 2 ^ i : Nat) : Int)) := by
  induction n with
  | zero => intro k _; rfl
  | succ n ih =>
    intro k hfit
    rw [range'_events_succ, List.range'_succ, List.map_cons,
      ← ih (k + 1) (fun i hi => hfit i (by omega))]
    simp only [attemptEvents, List.cons_append, timeouts]
    rw [shlInt_of_fits MinWait k (hfit k (by omega))]
    rfl

/-- The length `Control::ptr` returns is positive. -/
theorem ptr_pos (q : Mem) (id : Nat) (addr : List Nat) : 0 < (Control.ptr q id addr).1 := by
  obtain ⟨q1, e, -⟩ := ptr_ok q id addr
  rw [e]
  simp only
  omega

/-- C17: when no read yields a valid answer, that is, every attempt `k < MaxQuery` ends
with its datagram (or time-out) discarded, `Control::getHostByName` (on a host name that
encodes) and `Control::getHostName` (on a buffer of at least `NameMax` bytes and an
IPv4 address) report not-found, and the socket calls they made are exactly those of
`MaxQuery` attempts: for `k = 0, ..., MaxQuery - 1` in turn one write of the query, one
`setTimeout` of `MinWait << k` seconds and one read; the timeouts are `MinWait`,
`2 * MinWait`, `4 * MinWait`, ..., provided the largest of them,
`MinWait * 2 ^ (MaxQuery - 1)`, fits the `int` in which the code computes the shift. -/
theorem exhausted_retries (C : Consts) (AF_INET : Int) (c : Control)
    (recvA recvP : Nat → Int × Mem) (h : List Nat) (fuel : Nat) (got : Int × List Nat)
    (buf : List Nat) (nlen : Nat)
    (hlen : 0 < (queryA C c h).1)
    (hA : ∀ k, k < C.MaxQuery →
      Control.attemptA C (queryA C c h).2 (queryA C c h).1 (nextId c) (recvA k).1 (recvA k).2
        = .nothing)
    (hn : C.NameMax ≤ nlen) (hg : got.1 = 4)
    (hP : ∀ k, k < C.MaxQuery →
      (Control.attemptPtr C fuel (queryPtr c got.2).2 (queryPtr c got.2).1 (nextId c)
        (recvP k).1 (recvP k).2).1 = .nothing)
    (hfit : C.MinWait * 2 ^ (C.MaxQuery - 1) < 2 ^ 31) :
    (Control.getHostByName C AF_INET c recvA (some h) AF_INET).1 = .nothing
      ∧ (Control.getHostByName C AF_INET c recvA (some h) AF_INET).2.2
          = backoffTrace C.MinWait (bytes (queryA C c h).2 0 (queryA C c h).1) C.MaxQuery
      ∧ (Control.getHostName C fuel c recvP got buf nlen).1 = .nothing
      ∧ (Control.getHostName C fuel c recvP got buf nlen).2.2.2
          = backoffTrace C.MinWait (bytes (queryPtr c got.2).2 0 (queryPtr c got.2).1)
              C.MaxQuery
      ∧ ∀ data, timeouts (backoffTrace C.MinWait data C.MaxQuery)
          = (List.range C.MaxQuery).map (fun k => ((C.MinWait * 2 ^ k : Nat) : Int)) := by
  have hpl := ptr_pos c.query ((c.id + 1) % 65536) got.2
  unfold queryA nextId at hlen hA ⊢
  unfold queryPtr nextId at hP ⊢
  have hfwd : (Control.getHostByName C AF_INET c recvA (some h) AF_INET).1 = .nothing
      ∧ (Control.getHostByName C AF_INET c recvA (some h) AF_INET).2.2
          = backoffTrace C.MinWait
              (bytes (Control.a C.NameMax c.suffix c.query ((c.id + 1) % 65536) h).2 0
                (Control.a C.NameMax c.suffix c.query ((c.id + 1) % 65536) h).1) C.MaxQuery := by
    unfold Control.getHostByName
    simp only
    rw [if_neg (by simp), if_neg (by omega)]
    simp only
    cases hM : C.MaxQuery with
    | zero => exact ⟨rfl, rfl⟩
    | succ n =>
      rw [hM] at hA
      have := rxmitA_run C (Control.a C.NameMax c.suffix c.query ((c.id + 1) % 65536) h).2
        (Control.a C.NameMax c.suffix c.query ((c.id + 1) % 65536) h).1 ((c.id + 1) % 65536)
        recvA .nothing (n + 1) 0 n c.response [] (by omega)
        (fun i _ hi => hA i (by omega)) (by rw [Nat.zero_add]; exact hA n (by omega))
        (Or.inr rfl)
      rw [this.1, this.2, backoffTrace_eq, List.nil_append]
      exact ⟨rfl, rfl⟩
  have hrev : (Control.getHostName C fuel c recvP got buf nlen).1 = .nothing
      ∧ (Control.getHostName C fuel c recvP got buf nlen).2.2.2
          = backoffTrace C.MinWait
              (bytes (Control.ptr c.query ((c.id + 1) % 65536) got.2).2 0
                (Control.ptr c.query ((c.id + 1) % 65536) got.2).1) C.MaxQuery := by
    unfold Control.getHostName
    rw [if_neg (by omega), if_neg (by simp [hg])]
    simp only
    rw [if_neg (by omega)]
    simp only
    cases hM : C.MaxQuery with
    | zero => exact ⟨rfl, rfl⟩
    | succ n =>
      rw [hM] at hP
      have := rxmitPtr_run C fuel (Control.ptr c.query ((c.id + 1) % 65536) got.2).2
        (Control.ptr c.query ((c.id + 1) % 65536) got.2).1 ((c.id + 1) % 65536)
        recvP .nothing (n + 1) 0 n c.response buf [] (by omega)
        (fun i _ hi => hP i (by omega)) (by rw [Nat.zero_add]; exact hP n (by omega))
        (Or.inr rfl)
      rw [this.1, this.2, backoffTrace_eq, List.nil_append]
      exact ⟨rfl, rfl⟩
  refine ⟨hfwd.1, hfwd.2, hrev.1, hrev.2, ?_⟩
  intro data
  rw [backoffTrace_eq, timeouts_range', List.range_eq_range']
  intro i hi
  have h1 : 2 ^ i ≤ 2 ^ (C.MaxQuery - 1) := Nat.pow_le_pow_right (by norm_num) (by omega)
  have h2 : C.MinWait * 2 ^ i ≤ C.MinWait * 2 ^ (C.MaxQuery - 1) := Nat.mul_le_mul_left _ h1
  omega

/-- C17 at a concrete input: with `MaxQuery = 3`, `MinWait = 1` and a socket on which
every read times out, both lookups fail after three attempts with the timeouts 1, 2
and 4. -/
theorem exhausted_retries_witness :
    (Control.getHostByName sampleConsts 2 sampleControl silentRecv (some [97]) 2).1
        = .nothing
      ∧ timeouts (Control.getHostByName sampleConsts 2 sampleControl silentRecv
          (some [97]) 2).2.2 = [1, 2, 4]
      ∧ (Control.getHostName sampleConsts 10 sampleControl silentRecv
          (4, [93, 184, 216, 34]) (List.replicate 255 0) 255).1 = .nothing
      ∧ timeouts (Control.getHostName sampleConsts 10 sampleControl silentRecv
          (4, [93, 184, 216, 34]) (List.replicate 255 0) 255).2.2.2 = [1, 2, 4] :=
  have h := exhausted_retries sampleConsts 2 sampleControl silentRecv silentRecv [97] 10
    (4, [93, 184, 216, 34]) (List.replicate 255 0) 255 (by decide)
    (by intro k hk; have hk3 : k < 3 := hk; interval_cases k <;> decide) (by decide) rfl
    (by intro k hk; have hk3 : k < 3 := hk; interval_cases k <;> decide) (by decide)
  ⟨h.1, by rw [h.2.1, h.2.2.2.2]; decide, h.2.2.1, by rw [h.2.2.2.1, h.2.2.2.2]; decide⟩

end Resolver

/-! ## `Control::skipName` on a name in wire form -/

namespace Resolver

/-- The loop of `Control::skipName` passes over labels and stops after the zero byte or
the compression pointer that follows them. -/
theorem skipNameLoop_labels (m : Mem) (end_ : Nat) (ls : List (List Nat)) :
    ∀ (p fuel e : Nat), (∀ l ∈ ls, 1 ≤ l.length ∧ l.length ≤ 63) → LabelsAt m p ls →
      ((rd m (p + encLen ls) = 0 ∧ e = p + encLen ls + 1)
        ∨ (192 ≤ rd m (p + encLen ls) ∧ e = p + encLen ls + 2)) →
      e ≤ end_ → encLen ls + 1 ≤ fuel →
      Control.skipNameLoop m end_ fuel p = some e := by
  induction ls with
  | nil =>
    intro p fuel e _ _ ht he hf
    rw [encLen, Nat.add_zero] at ht
    obtain ⟨f, rfl⟩ : ∃ f, fuel = f + 1 := ⟨fuel - 1, by rw [encLen] at hf; omega⟩
    rw [Control.skipNameLoop]
    rcases ht with ⟨h0, rfl⟩ | ⟨h1, rfl⟩
    · rw [if_pos (by omega), if_pos h0, if_pos (by omega)]
    · have hlt := rd_lt m p
      have hc := ((land_c0 (rd m p) hlt).2).mpr h1
      rw [if_pos (by omega), if_neg (by omega)]
      simp only
      rw [if_pos (by rw [hc]; decide), if_neg (by rw [hc]; simp), if_pos (by omega)]
  | cons l ls ih =>
    intro p fuel e hlen hl ht he hf
    obtain ⟨h1, -, h3⟩ := hl
    have hb := hlen l (List.mem_cons_self _ _)
    have eL : encLen (l :: ls) = 1 + l.length + encLen ls := by rw [encLen]
    rw [eL] at ht hf
    obtain ⟨f, rfl⟩ : ∃ f, fuel = f + 1 := ⟨fuel - 1, by omega⟩
    have e2 : p + (1 + l.length + encLen ls) = p + 1 + l.length + encLen ls := by omega
    rw [e2] at ht
    rw [Control.skipNameLoop]
    have hc := land_c0_eq_zero (rd m p) (by omega)
    rw [if_pos (by rcases ht with h | h <;> omega), if_neg (by omega)]
    simp only
    rw [if_neg (by rw [hc]; simp), h1]
    exact ih (p + 1 + l.length) f e (fun l2 h => hlen l2 (List.mem_cons_of_mem _ h)) h3 ht he
      (by omega)

/-- On a name in wire form that ends inside the datagram `Control::skipName` returns
the offset after the name. -/
theorem skipName_span (m : Mem) (p e end_ : Nat) (h : NameSpan m p e) (he : e ≤ end_) :
    Control.skipName m p end_ = some e := by
  obtain ⟨ls, h1, h2, h3⟩ := h
  unfold Control.skipName
  exact skipNameLoop_labels m end_ ls p (end_ - p) e h1 h2 h3 he
    (by rcases h3 with h | h <;> omega)

end Resolver

/-! ## A datagram that answers the query -/

namespace Resolver

/-- A datagram that passes the header conditions, echoes the question of the query and
is long enough to hold it passes all the checks, and the answers start at `len`. -/
theorem validate_ok (query m : Mem) (len xid n : Nat) (ls : List (List Nat))
    (hlen : ∀ l ∈ ls, 1 ≤ l.length ∧ l.length ≤ 63) (hq : LabelsAt query 12 ls)
    (hz : rd query (12 + encLen ls) = 0) (hl : len = 12 + encLen ls + 5)
    (hn : n < 2 ^ 31) (hhdr : HeaderOk xid (n : Int) m)
    (hecho : ∀ i, 12 ≤ i → i < len → rd m i = rd query i) (hin : len ≤ n) :
    Control.validate query len xid (n : Int) m = .found len := by
  obtain ⟨g1, g2, g3, g4, g5⟩ := hhdr
  have hn2 : n < 2147483648 := by norm_num at hn; exact hn
  have hm : LabelsAt m 12 ls :=
    labelsAt_congr ls query m 12 (fun x h1 h2 => (hecho x h1 (by omega)).symm) hq
  have hmz : rd m (12 + encLen ls) = 0 := by
    rw [hecho _ (by omega) (by omega)]; exact hz
  have hskip := skipName_span m 12 (12 + encLen ls + 1) n
    ⟨ls, hlen, hm, Or.inl ⟨hmz, rfl⟩⟩ (by omega)
  unfold Control.validate
  have e32 : (2 : Int) ^ 32 = 4294967296 := by norm_num
  rw [if_neg (by rw [e32]; unfold DNSHdr.size; omega),
    if_neg (by
      rintro (h | h | h | h)
      · exact h g2
      · rw [g3] at h; simp at h
      · exact h g4
      · exact g5 h),
    if_neg (by omega)]
  simp only [Int.toNat_ofNat, DNSHdr.size]
  rw [hskip]
  simp only
  rw [if_neg (by omega), if_neg (by
    rintro (h | h)
    · omega
    · apply h
      rw [bytes_eq_iff]
      intro k hk
      exact (hecho (12 + k) (by omega) (by omega)).symm)]
  rw [hl]

/-- The loop over the answers returns the RDATA of the first record when that record
has type A, class IN and RDATA length 4 and lies inside the datagram. -/
theorem answersA_first (C : Consts) (m : Mem) (end_ n opt e : Nat)
    (hname : NameSpan m opt e) (hsz : C.sizeofDNSRR + e ≤ end_)
    (ht : rd16 m e = DNSType.A) (hc : rd16 m (e + 2) = DNSClass.IN)
    (hr : rd16 m (e + 8) = 4) (hin : e + C.DNSRRSize + 4 ≤ end_) :
    Control.answersA C m end_ (n + 1) opt = .found (bytes m (e + C.DNSRRSize) 4) := by
  rw [Control.answersA, skipName_span m opt e end_ hname (by omega)]
  simp only
  rw [if_neg (by omega), if_neg (by
    rintro (h | h | h)
    · exact h ht
    · exact h hc
    · exact h hr), if_neg (by rw [hr]; omega)]

/-- C14: for every host name that encodes (with `MaxQuery` at least 1 and the record
layout of 10 bytes before the RDATA): when the first datagram read, of `n` bytes, has
the id of the query, the response flag, qdcount 1 and at least one answer (so also
ancount 1), echoes the question section of the query, and holds at the start of its
answers a record lying inside the datagram whose owner name is a compression pointer
or an encoded name, of type A, class IN and RDATA length 4, then
`Control::getHostByName` returns the 4 RDATA bytes of that record, after the socket
calls of the first attempt only. -/
theorem forward_lookup_success (C : Consts) (AF_INET : Int) (c : Control)
    (recv : Nat → Int × Mem) (h : List Nat) (n : Nat) (m : Mem) (e : Nat)
    (hh : IsCStr h) (hs : IsCStr c.suffix) (hlen : 0 < (queryA C c h).1)
    (hmax : 0 < C.MaxQuery) (hsz : C.DNSRRSize = 10) (hsz2 : C.sizeofDNSRR ≤ 14)
    (hr : recv 0 = ((n : Int), m)) (hn : n < 2 ^ 31)
    (hhdr : HeaderOk (nextId c) (n : Int) m)
    (hecho : bytes m 12 ((queryA C c h).1 - 12)
      = bytes (queryA C c h).2 12 ((queryA C c h).1 - 12))
    (hname : NameSpan m (queryA C c h).1 e)
    (htype : rd16 m e = DNSType.A) (hcls : rd16 m (e + 2) = DNSClass.IN)
    (hrdl : rd16 m (e + 8) = 4) (hin : e + 14 ≤ n) :
    (Control.getHostByName C AF_INET c recv (some h) AF_INET).1 = .found (bytes m (e + 10) 4)
      ∧ (Control.getHostByName C AF_INET c recv (some h) AF_INET).2.2
          = attemptEvents C.MinWait (bytes (queryA C c h).2 0 (queryA C c h).1) 0 := by
  unfold queryA nextId at hlen hecho hname ⊢
  unfold nextId at hhdr
  have hw : WellFormed C.NameMax (effectiveName c.suffix h) := by
    by_contra hc
    have := a_fail C.NameMax c.suffix c.query ((c.id + 1) % 65536) h hh hs hc
    omega
  obtain ⟨q1, e1, e2, e3, -⟩ := a_ok C.NameMax c.suffix c.query ((c.id + 1) % 65536) h hh hs hw
  rw [e1] at hlen hecho hname ⊢
  simp only at hlen hecho hname ⊢
  have hle : 12 + encLen (labelsOf (effectiveName c.suffix h)) + 5 ≤ e := by
    obtain ⟨ls, -, -, h3⟩ := hname
    rcases h3 with h3 | h3 <;> omega
  have hech : ∀ i, 12 ≤ i → i < 12 + encLen (labelsOf (effectiveName c.suffix h)) + 5 →
      rd m i = rd q1 i := by
    intro i h1 h2
    have := (bytes_eq_iff _ _ _ _ _).mp hecho (i - 12) (by omega)
    have e4 : 12 + (i - 12) = i := by omega
    rw [e4] at this
    exact this
  have hv := validate_ok q1 m _ ((c.id + 1) % 65536) n _ hw.2.1 e2 e3 rfl hn hhdr hech
    (by omega)
  obtain ⟨k, hk⟩ : ∃ k, DNSHdr.ancount m = k + 1 :=
    ⟨DNSHdr.ancount m - 1, by have := hhdr.2.2.2.2; omega⟩
  have hatt : Control.attemptA C q1 (12 + encLen (labelsOf (effectiveName c.suffix h)) + 5)
      ((c.id + 1) % 65536) (recv (0 + 0)).1 (recv (0 + 0)).2 = .found (bytes m (e + 10) 4) := by
    rw [Nat.add_zero, hr]
    unfold Control.attemptA
    simp only
    rw [hv]
    simp only [Int.toNat_ofNat]
    rw [hk, answersA_first C m n k _ e hname (by omega) htype hcls hrdl (by omega), hsz]
  unfold Control.getHostByName
  simp only
  rw [if_neg (by simp), e1]
  simp only
  rw [if_neg (by omega)]
  have := rxmitA_run C q1 (12 + encLen (labelsOf (effectiveName c.suffix h)) + 5)
    ((c.id + 1) % 65536) recv (.found (bytes m (e + 10) 4)) C.MaxQuery 0 0 c.response []
    hmax (fun i h1 h2 => by omega) hatt (Or.inl (by simp))
  rw [this.1, this.2]
  exact ⟨rfl, by simp⟩

/-- C14 at a concrete input: the lookup of `example.com`, answered at once by a
datagram with one A record whose RDATA is `93.184.216.34`, returns these four bytes. -/
theorem forward_lookup_success_witness :
    (Control.getHostByName sampleConsts 2 sampleControl sampleRecvExample
        (some exampleCom) 2).1 = .found [93, 184, 216, 34]
      ∧ (Control.getHostByName sampleConsts 2 sampleControl sampleRecvExample
          (some exampleCom) 2).2.2
        = attemptEvents 1 (bytes (queryA sampleConsts sampleControl exampleCom).2 0 29) 0 :=
  forward_lookup_success sampleConsts 2 sampleControl sampleRecvExample exampleCom 45
    (ofList sampleReplyExample) 31 (by decide) (by decide) (by decide) (by decide) rfl
    (by decide) rfl (by decide) ⟨by decide, by decide, by decide, by decide, by decide⟩
    (by decide) ⟨[], by simp, trivial, Or.inr ⟨by decide, by decide⟩⟩ (by decide) (by decide)
    (by decide) (by decide)

end Resolver

/-! ## `Control::copyName` on a well-formed name -/

namespace Resolver

/-- A well-formed name starts inside the message, and two bytes of it lie there. -/
theorem wireName_lt (m : Mem) (end_ p : Nat) (ls : List (List Nat))
    (h : WireName m end_ p ls) : p + 1 < end_ := by
  induction h with
  | last p l h1 h2 h3 h4 h5 h6 => omega
  | label p l ls h1 h2 h3 h4 hw ih => omega
  | pointer p ls h1 h2 h3 hw ih => exact h2

/-- A well-formed name does not start with a zero byte. -/
theorem wireName_first (m : Mem) (end_ p : Nat) (ls : List (List Nat))
    (h : WireName m end_ p ls) : rd m p ≠ 0 := by
  cases h with
  | last l h1 h2 h3 h4 h5 h6 => omega
  | label l ls h1 h2 h3 h4 hw => omega
  | pointer h1 h2 h3 hw => omega

/-- A well-formed name has a label. -/
theorem wireName_ne_nil (m : Mem) (end_ p : Nat) (ls : List (List Nat))
    (h : WireName m end_ p ls) : ls ≠ [] := by
  induction h with
  | last p l h1 h2 h3 h4 h5 h6 => simp
  | label p l ls h1 h2 h3 h4 hw ih => simp
  | pointer p ls h1 h2 h3 hw ih => exact ih

/-- One pass of `Control::copyName` over a compression pointer: the cursor moves to the
target, nothing is stored. -/
theorem copyNameStep_pointer (m : Mem) (end_ : Nat) (s : Control.CopyState)
    (h : 192 ≤ rd m s.ptr) (hend : s.ptr < end_) :
    ∃ s1, Control.copyNameStep m 0 end_ s = .next s1
      ∧ s1.ptr = (rd16 m s.ptr &&& 0x3fff) ∧ s1.namelen = s.namelen ∧ s1.name = s.name := by
  unfold Control.copyNameStep
  have h1 : 0 ≤ s.ptr ∧ s.ptr < end_ := ⟨Nat.zero_le _, hend⟩
  have hc := ((land_c0 (rd m s.ptr) (rd_lt m s.ptr)).2).mpr h
  have h2 : rd m s.ptr &&& 0xc0 ≠ 0 := by rw [hc]; decide
  have h3 : ¬ (rd m s.ptr &&& 0xc0 ≠ 0xc0) := by rw [hc]; simp
  rw [if_pos h1]
  simp only
  rw [if_pos h2, if_neg h3]
  exact ⟨_, rfl, Nat.zero_add _, rfl, rfl⟩

/-- On a well-formed name of decoded size within the budget `Control::copyName`
returns `true` after finitely many passes, having stored the labels joined by dots and
a NUL. -/
theorem copyNameRun_wire (m : Mem) (end_ p : Nat) (ls : List (List Nat))
    (h : WireName m end_ p ls) :
    ∃ n, ∀ (s : Control.CopyState) (k : Nat), s.ptr = p → encLen ls ≤ s.namelen →
      ∃ st, Control.copyNameRun m 0 end_ (n + k) s = some (true, st)
        ∧ st.name = s.name ++ joinDots ls ++ [0] := by
  induction h with
  | last p l h1 h2 h3 h4 h5 h6 =>
    refine ⟨1, ?_⟩
    intro s k hp hb
    rw [encLen, encLen] at hb
    have hl := copyNameStep_label m 0 end_ s l.length (Nat.zero_le _) (by rw [hp]; exact h3)
      (by omega) (by rw [hp]; omega) (by omega)
    rw [if_neg (by rw [hp, h6]; simp)] at hl
    rw [Nat.add_comm, Control.copyNameRun, hl]
    refine ⟨_, rfl, ?_⟩
    simp only [joinDots, hp, h4]
  | label p l ls h1 h2 h3 h4 hw ih =>
    obtain ⟨n, hn⟩ := ih
    refine ⟨n + 1, ?_⟩
    intro s k hp hb
    rw [encLen] at hb
    have hlt := wireName_lt m end_ _ ls hw
    have hfirst := wireName_first m end_ _ ls hw
    obtain ⟨l2, rest, rfl⟩ : ∃ l2 rest, ls = l2 :: rest := by
      cases ls with
      | nil => exact absurd rfl (wireName_ne_nil m end_ _ _ hw)
      | cons l2 rest => exact ⟨l2, rest, rfl⟩
    have e : n + 1 + k = (n + k) + 1 := by omega
    have hl := copyNameStep_label m 0 end_ s l.length (Nat.zero_le _) (by rw [hp]; exact h3)
      (by omega) (by rw [hp]; omega) (by omega)
    rw [if_pos (by rw [hp]; exact hfirst)] at hl
    rw [e, Control.copyNameRun, hl]
    simp only
    obtain ⟨st, e1, e2⟩ := hn (Control.CopyState.mk (s.ptr + 1 + l.length)
      (s.namelen - (l.length + 1)) (s.name ++ bytes m (s.ptr + 1) l.length ++ [dotChar])
      (s.reads ++ [s.ptr] ++ (List.range l.length).map (fun k => s.ptr + 1 + k)
        ++ [s.ptr + 1 + l.length])) k (by rw [hp]) (by simp only; omega)
    refine ⟨st, e1, ?_⟩
    rw [e2]
    simp only [joinDots, hp, h4, List.append_assoc, List.singleton_append, List.cons_append,
      List.nil_append]
  | pointer p ls h1 h2 h3 hw ih =>
    obtain ⟨n, hn⟩ := ih
    refine ⟨n + 1, ?_⟩
    intro s k hp hb
    obtain ⟨s1, g1, g2, g3, g4⟩ := copyNameStep_pointer m end_ s (by rw [hp]; exact h1)
      (by rw [hp]; omega)
    have e : n + 1 + k = (n + k) + 1 := by omega
    rw [e, Control.copyNameRun, g1]
    simp only
    obtain ⟨st, e1, e2⟩ := hn s1 k (by rw [g2, hp]) (by rw [g3]; exact hb)
    exact ⟨st, e1, by rw [e2, g4]⟩

/-- The loop over the answers of `Control::getHostName` returns `true` on the first
record when that record has type PTR and class IN, lies inside the datagram, and
`copyName` returns `true` on its RDATA. -/
theorem answersPtr_first (C : Consts) (fuel : Nat) (m : Mem) (end_ n opt e : Nat)
    (st : Control.CopyState)
    (hname : NameSpan m opt e) (hsz : C.sizeofDNSRR + e ≤ end_)
    (ht : rd16 m e = DNSType.PTR) (hc : rd16 m (e + 2) = DNSClass.IN)
    (hin : e + C.DNSRRSize + rd16 m (e + 8) ≤ end_)
    (hcopy : Control.copyName C.NameMax m 0 (e + C.DNSRRSize) end_ fuel = some (true, st)) :
    Control.answersPtr C fuel m end_ (n + 1) opt = (.found (), st.name) := by
  rw [Control.answersPtr, skipName_span m opt e end_ hname (by omega)]
  simp only
  rw [if_neg (by omega), if_neg (by
    rintro (h | h)
    · exact h ht
    · exact h hc), if_neg (by omega), hcopy]

/-- When the datagram of an attempt gives a result, the loop of `Control::getHostName`
returns it at once, with the bytes `copyName` stored laid over the caller's buffer. -/
theorem rxmitPtr_first (C : Consts) (fuel : Nat) (query : Mem) (len xid : Nat)
    (recv : Nat → Int × Mem) (n k : Nat) (response : Mem) (buf : List Nat)
    (io : List IOEvent) (w : List Nat)
    (h : Control.attemptPtr C fuel query len xid (recv k).1 (recv k).2 = (.found (), w)) :
    Control.rxmitPtr C fuel query len xid recv (n + 1) k response buf io
      = (.found (), (recv k).2, Control.overlay w buf,
          io ++ [.write (bytes query 0 len), .setTimeout (Control.shlInt C.MinWait k), .read]) := by
  rw [Control.rxmitPtr, h]

/-- C16: for every address and every caller buffer of at least `NameMax` bytes (with
`MaxQuery` at least 1 and the record layout of 10 bytes before the RDATA): when the
first datagram read, of `n` bytes, has the id of the query, the response flag, qdcount
1 and at least one answer (so also ancount 1), echoes the PTR question of the query,
and holds at the start of its answers a record lying inside the datagram, of type PTR
and class IN, whose RDATA is a well-formed name (one or more labels ending in a zero
byte, or labels ending in a compression pointer to a well-formed name at an earlier
offset of the message) with the labels `ls` and of decoded size within `NameMax`, then
`Control::getHostName` returns `true` after the socket calls of the first attempt only,
and the caller's buffer starts with the labels joined by dots and a NUL.  The passes of
`copyName` this takes are finitely many: all large enough bounds `fuel` give this
result. -/
theorem reverse_lookup_success (C : Consts) (c : Control) (recv : Nat → Int × Mem)
    (got : Int × List Nat) (buf : List Nat) (nlen n : Nat) (m : Mem) (e : Nat)
    (ls : List (List Nat))
    (hnl : C.NameMax ≤ nlen) (hg : got.1 = 4) (hmax : 0 < C.MaxQuery)
    (hsz : C.DNSRRSize = 10) (hsz2 : C.sizeofDNSRR ≤ 12)
    (hr : recv 0 = ((n : Int), m)) (hn : n < 2 ^ 31)
    (hhdr : HeaderOk (nextId c) (n : Int) m)
    (hecho : bytes m 12 ((queryPtr c got.2).1 - 12)
      = bytes (queryPtr c got.2).2 12 ((queryPtr c got.2).1 - 12))
    (hname : NameSpan m (queryPtr c got.2).1 e)
    (htype : rd16 m e = DNSType.PTR) (hcls : rd16 m (e + 2) = DNSClass.IN)
    (hin : e + 10 + rd16 m (e + 8) ≤ n)
    (hw : WireName m n (e + 10) ls) (hbud : encLen ls ≤ C.NameMax) :
    ∃ N, ∀ fuel, N ≤ fuel →
      (Control.getHostName C fuel c recv got buf nlen).1 = .found ()
        ∧ (Control.getHostName C fuel c recv got buf nlen).2.2.1
            = Control.overlay (joinDots ls ++ [0]) buf
        ∧ (Control.getHostName C fuel c recv got buf nlen).2.2.2
            = attemptEvents C.MinWait
                (bytes (queryPtr c got.2).2 0 (queryPtr c got.2).1) 0 := by
  unfold queryPtr nextId at hecho hname ⊢
  unfold nextId at hhdr
  obtain ⟨q1, e1, e2, e3, -⟩ := ptr_ok c.query ((c.id + 1) % 65536) got.2
  rw [e1] at hecho hname ⊢
  simp only at hecho hname ⊢
  obtain ⟨N, hN⟩ := copyNameRun_wire m n (e + 10) ls hw
  refine ⟨N, ?_⟩
  intro fuel hfuel
  have hle : 12 + encLen (ptrLabels got.2) + 5 ≤ e := by
    obtain ⟨ls2, -, -, h3⟩ := hname
    rcases h3 with h3 | h3 <;> omega
  have hech : ∀ i, 12 ≤ i → i < 12 + encLen (ptrLabels got.2) + 5 → rd m i = rd q1 i := by
    intro i h1 h2
    have := (bytes_eq_iff _ _ _ _ _).mp hecho (i - 12) (by omega)
    have e4 : 12 + (i - 12) = i := by omega
    rw [e4] at this
    exact this
  have hroom := wireName_lt m n _ ls hw
  have hv := validate_ok q1 m _ ((c.id + 1) % 65536) n _ (ptrLabels_length got.2) e2 e3 rfl
    hn hhdr hech (by omega)
  obtain ⟨k, hk⟩ : ∃ k, DNSHdr.ancount m = k + 1 :=
    ⟨DNSHdr.ancount m - 1, by have := hhdr.2.2.2.2; omega⟩
  obtain ⟨st, hst1, hst2⟩ := hN (Control.copyInit C.NameMax (e + 10)) (fuel - N) rfl hbud
  have eF : N + (fuel - N) = fuel := by omega
  rw [eF] at hst1
  have hname0 : st.name = joinDots ls ++ [0] := by
    rw [hst2]
    simp [Control.copyInit]
  have hatt : Control.attemptPtr C fuel q1 (12 + encLen (ptrLabels got.2) + 5)
      ((c.id + 1) % 65536) (recv 0).1 (recv 0).2 = (.found (), joinDots ls ++ [0]) := by
    rw [hr]
    unfold Control.attemptPtr
    simp only
    rw [hv]
    simp only [Int.toNat_ofNat]
    rw [hk, answersPtr_first C fuel m n k _ e st hname (by omega) htype hcls
      (by rw [hsz]; exact hin) (by rw [hsz]; exact hst1), hname0]
  obtain ⟨M, hM⟩ : ∃ M, C.MaxQuery = M + 1 := ⟨C.MaxQuery - 1, by omega⟩
  unfold Control.getHostName
  rw [if_neg (by omega), if_neg (by simp [hg])]
  simp only
  rw [e1]
  simp only
  rw [if_neg (by omega), hM,
    rxmitPtr_first C fuel q1 _ ((c.id + 1) % 65536) recv M 0 c.response buf [] _ hatt]
  simp [attemptEvents]

/-- C16 at a concrete input: the reverse lookup of `93.184.216.34`, answered at once by
a datagram with one PTR record whose RDATA is the name `example.com`, returns `true`
and leaves `example.com` and a NUL at the start of the caller's buffer. -/
theorem reverse_lookup_success_witness :
    joinDots [[101, 120, 97, 109, 112, 108, 101], [99, 111, 109]] = exampleCom
      ∧ ∃ N, ∀ fuel, N ≤ fuel →
        (Control.getHostName sampleConsts fuel sampleControl sampleRecvPtr
            (4, [93, 184, 216, 34]) (List.replicate 255 7) 255).1 = .found ()
          ∧ (Control.getHostName sampleConsts fuel sampleControl sampleRecvPtr
              (4, [93, 184, 216, 34]) (List.replicate 255 7) 255).2.2.1
            = Control.overlay
                (joinDots [[101, 120, 97, 109, 112, 108, 101], [99, 111, 109]] ++ [0])
                (List.replicate 255 7)
          ∧ (Control.getHostName sampleConsts fuel sampleControl sampleRecvPtr
              (4, [93, 184, 216, 34]) (List.replicate 255 7) 255).2.2.2
            = attemptEvents sampleConsts.MinWait
                (bytes (queryPtr sampleControl (4, [93, 184, 216, 34]).2).2 0
                  (queryPtr sampleControl (4, [93, 184, 216, 34]).2).1) 0 :=
  ⟨by decide,
    reverse_lookup_success sampleConsts sampleControl sampleRecvPtr (4, [93, 184, 216, 34])
      (List.replicate 255 7) 255 69 (ofList sampleReplyPtr) 46
      [[101, 120, 97, 109, 112, 108, 101], [99, 111, 109]]
      (by decide) rfl (by decide) rfl (by decide) rfl (by decide)
      ⟨by decide, by decide, by decide, by decide, by decide⟩ (by decide)
      ⟨[], by simp, trivial, Or.inr ⟨by decide, by decide⟩⟩ (by decide) (by decide)
      (by decide)
      (WireName.label 56 [101, 120, 97, 109, 112, 108, 101] [[99, 111, 109]] (by decide)
        (by decide) (by decide) (by decide)
        (WireName.last 64 [99, 111, 109] (by decide) (by decide) (by decide) (by decide)
          (by decide) (by decide)))
      (by decide)⟩

end Resolver

/-! ## Datagrams on which the lookups go wrong -/

namespace Resolver

/-- C15, the code at a failing input: the datagram `sampleReplyCname` passes the header
and echo checks, its first answer (at offset 29, owner name ending at 31) is a CNAME
record with 6 RDATA bytes, and its second answer (at offset 47 = 31 + 10 + 6, owner name
ending at 49) has type A, class IN, RDATA length 4 and RDATA `93.184.216.34`; yet
`Control::getHostByName` finds no result in it: after the CNAME record the cursor stays
at offset 31, so the second iteration looks at the bytes of the first record, and the
lookup returns null. -/
theorem cname_before_a_is_not_found :
    Control.validate (queryA sampleConsts sampleControl exampleCom).2 29 1 63
        (ofList sampleReplyCname) = .found 29
      ∧ DNSHdr.ancount (ofList sampleReplyCname) = 2
      ∧ Control.skipName (ofList sampleReplyCname) 29 63 = some 31
      ∧ rd16 (ofList sampleReplyCname) 31 = 5
      ∧ rd16 (ofList sampleReplyCname) 39 = 6
      ∧ Control.skipName (ofList sampleReplyCname) 47 63 = some 49
      ∧ rd16 (ofList sampleReplyCname) 49 = DNSType.A
      ∧ rd16 (ofList sampleReplyCname) 51 = DNSClass.IN
      ∧ rd16 (ofList sampleReplyCname) 57 = 4
      ∧ bytes (ofList sampleReplyCname) 59 4 = [93, 184, 216, 34]
      ∧ Control.attemptA sampleConsts (queryA sampleConsts sampleControl exampleCom).2 29 1 63
          (ofList sampleReplyCname) = .nothing
      ∧ (Control.getHostByName sampleConsts 2 sampleControl sampleRecvCname
          (some exampleCom) 2).1 = .nothing := by
  decide

/-- C18, the code at a failing input: the first datagram read passes the header and
echo checks, but the owner name of its answer starts with the byte `0x40`, on which
`Control::skipName` returns the null pointer; `Control::getHostByName` uses that pointer
as the address of the record, so the lookup ends in undefined behaviour after the socket
calls of the first attempt, although `MaxQuery` is 3 and the datagram of the second
attempt holds the answer `93.184.216.34`. -/
theorem bad_owner_name_stops_lookup :
    Control.validate (queryA sampleConsts sampleControl exampleCom).2 29 1 45
        (ofList sampleReplyBadOwner) = .found 29
      ∧ Control.skipName (ofList sampleReplyBadOwner) 29 45 = none
      ∧ Control.attemptA sampleConsts (queryA sampleConsts sampleControl exampleCom).2 29 1
          (sampleRecvBadThenGood 1).1 (sampleRecvBadThenGood 1).2 = .found [93, 184, 216, 34]
      ∧ sampleConsts.MaxQuery = 3
      ∧ (Control.getHostByName sampleConsts 2 sampleControl sampleRecvBadThenGood
          (some exampleCom) 2).1 = .undef
      ∧ (Control.getHostByName sampleConsts 2 sampleControl sampleRecvBadThenGood
          (some exampleCom) 2).2.2
        = attemptEvents 1 (bytes (queryA sampleConsts sampleControl exampleCom).2 0 29) 0 := by
  decide

end Resolver

/-! ## Arguments rejected up front -/

namespace Resolver

/-- C21: `Control::getHostByName` returns null for a null host name and for every
address family other than `AF_INET`, and then it has built no query: no socket call
is made, and the connection is as before, its query buffer and its transaction id
counter included. -/
theorem argument_rejection (C : Consts) (AF_INET : Int) (c : Control)
    (recv : Nat → Int × Mem) (hostName : Option (List Nat)) (af : Int)
    (hbad : hostName = none ∨ af ≠ AF_INET) :
    Control.getHostByName C AF_INET c recv hostName af = (.nothing, c, []) := by
  unfold Control.getHostByName
  cases hostName with
  | none => rfl
  | some h =>
    rcases hbad with h1 | h1
    · cases h1
    · simp only
      rw [if_pos h1]

/-- C21 at concrete inputs: a null host name with `AF_INET` (2), and the name `a` with
the address family 10. -/
theorem argument_rejection_witness :
    Control.getHostByName sampleConsts 2 sampleControl sampleRecvA none 2
        = (.nothing, sampleControl, [])
      ∧ Control.getHostByName sampleConsts 2 sampleControl sampleRecvA (some [97]) 10
        = (.nothing, sampleControl, []) :=
  ⟨argument_rejection sampleConsts 2 sampleControl sampleRecvA none 2 (Or.inl rfl),
    argument_rejection sampleConsts 2 sampleControl sampleRecvA (some [97]) 10
      (Or.inr (by decide))⟩

end Resolver

/-! ## The connection object -/

namespace Resolver

/-- C22: when the configuration reports no name server, `Resolver::getHostByName`
returns null and `Resolver::getHostName` returns `false`, neither makes a socket call
(write, `setTimeout` or read), and the caller's buffer is unchanged, whether or not a
connection object existed before the call. -/
theorem no_server_no_io (C : Consts) (AF_INET : Int) (raw : Control)
    (control : Option Control) (recv : Nat → Int × Mem) (hostName : Option (List Nat))
    (af : Int) (fuel : Nat) (got : Int × List Nat) (buf : List Nat) (len : Nat) :
    (getHostByName C AF_INET raw none control recv hostName af).1 = .nothing
      ∧ (getHostByName C AF_INET raw none control recv hostName af).2.2.2 = []
      ∧ (getHostName C fuel raw none control recv got buf len).1 = .nothing
      ∧ (getHostName C fuel raw none control recv got buf len).2.2.1 = buf
      ∧ (getHostName C fuel raw none control recv got buf len).2.2.2.2 = [] := by
  cases control <;> exact ⟨rfl, rfl, rfl, rfl, rfl⟩

/-- C23: after every call of `Resolver::setup` the connection object exists exactly
when a name server was configured at the call, and the return value is `true` exactly
when it exists; with a server configured an existing object is kept as it is and no
connection is opened; with none configured an existing object is destroyed; and a
call with a server configured that follows a call with none constructs a new
object, opening a connection to that server. -/
theorem connection_lifecycle (raw : Control) (nameServer : Option Nat)
    (control : Option Control) :
    (setup raw nameServer control).2.1.isSome = nameServer.isSome
      ∧ (setup raw nameServer control).1 = (setup raw nameServer control).2.1.isSome
      ∧ (∀ server c, setup raw (some server) (some c) = (true, some c, []))
      ∧ (∀ c, setup raw none (some c) = (false, none, [.closed]))
      ∧ (∀ server, setup raw (some server) (setup raw none control).2.1
          = (true, some (Control.construct raw), [.opened server])) := by
  refine ⟨?_, ?_, fun _ _ => rfl, fun _ => rfl, ?_⟩
  · cases nameServer <;> cases control <;> rfl
  · cases nameServer <;> cases control <;> rfl
  · intro server
    cases control <;> rfl

end Resolver

/-! ## The steps of `Control::skipName` -/

namespace Resolver

/-- The bound on the passes of the loop of `Control::skipName` does not matter once it
is at least `end - ptr`: the cursor moves forward in every pass. -/
theorem skipNameLoop_fuel (m : Mem) (end_ : Nat) (f1 : Nat) :
    ∀ (f2 p : Nat), end_ - p ≤ f1 → end_ - p ≤ f2 →
      Control.skipNameLoop m end_ f1 p = Control.skipNameLoop m end_ f2 p := by
  induction f1 with
  | zero =>
    intro f2 p h1 _
    cases f2 with
    | zero => rfl
    | succ f2 =>
      rw [Control.skipNameLoop, Control.skipNameLoop, if_neg (by omega)]
  | succ f1 ih =>
    intro f2 p h1 h2
    cases f2 with
    | zero =>
      rw [Control.skipNameLoop, Control.skipNameLoop, if_neg (by omega)]
    | succ f2 =>
      rw [Control.skipNameLoop, Control.skipNameLoop]
      by_cases hp : p < end_
      · rw [if_pos hp, if_pos hp]
        by_cases h0 : rd m p = 0
        · rw [if_pos h0, if_pos h0]
        · rw [if_neg h0, if_neg h0]
          simp only
          by_cases hc : rd m p &&& 0xc0 ≠ 0
          · rw [if_pos hc, if_pos hc]
          · rw [if_neg hc, if_neg hc]
            exact ih f2 (p + 1 + rd m p) (by omega) (by omega)
      · rw [if_neg hp, if_neg hp]

/-- On a zero byte before `end` `Control::skipName` returns the cursor plus 1. -/
theorem skipName_zero (m : Mem) (p end_ : Nat) (hp : p < end_) (h0 : rd m p = 0) :
    Control.skipName m p end_ = some (p + 1) := by
  unfold Control.skipName
  obtain ⟨f, hf⟩ : ∃ f, end_ - p = f + 1 := ⟨end_ - p - 1, by omega⟩
  rw [hf, Control.skipNameLoop, if_pos hp, if_pos h0, if_pos (by omega)]

/-- On a byte with both top bits set, with two bytes before `end`, `Control::skipName`
returns the cursor plus 2. -/
theorem skipName_pointer (m : Mem) (p end_ : Nat) (hp : p + 2 ≤ end_)
    (hb : 192 ≤ rd m p) : Control.skipName m p end_ = some (p + 2) := by
  unfold Control.skipName
  obtain ⟨f, hf⟩ : ∃ f, end_ - p = f + 1 := ⟨end_ - p - 1, by omega⟩
  have hc := ((land_c0 (rd m p) (rd_lt m p)).2).mpr hb
  rw [hf, Control.skipNameLoop, if_pos (by omega), if_neg (by omega)]
  simp only
  rw [if_pos (by rw [hc]; decide), if_neg (by rw [hc]; simp), if_pos hp]

/-- On a byte with exactly one of its top bits set `Control::skipName` returns the
null pointer. -/
theorem skipName_invalid (m : Mem) (p end_ : Nat) (hp : p < end_) (h1 : 64 ≤ rd m p)
    (h2 : rd m p < 192) : Control.skipName m p end_ = none := by
  unfold Control.skipName
  obtain ⟨f, hf⟩ : ∃ f, end_ - p = f + 1 := ⟨end_ - p - 1, by omega⟩
  have hl := land_c0 (rd m p) (rd_lt m p)
  have hc0 : rd m p &&& 0xc0 ≠ 0 := fun h => by have := hl.1.mp h; omega
  have hc1 : rd m p &&& 0xc0 ≠ 0xc0 := fun h => by have := hl.2.mp h; omega
  rw [hf, Control.skipNameLoop, if_pos hp, if_neg (by omega)]
  simp only
  rw [if_pos hc0, if_pos hc1]

/-- On a standard label of 1 to 63 bytes `Control::skipName` goes on from the byte
after the label. -/
theorem skipName_label (m : Mem) (p end_ : Nat) (hp : p < end_) (h1 : 1 ≤ rd m p)
    (h2 : rd m p ≤ 63) :
    Control.skipName m p end_ = Control.skipName m (p + 1 + rd m p) end_ := by
  unfold Control.skipName
  obtain ⟨f, hf⟩ : ∃ f, end_ - p = f + 1 := ⟨end_ - p - 1, by omega⟩
  have hc := land_c0_eq_zero (rd m p) (by omega)
  rw [hf, Control.skipNameLoop, if_pos hp, if_neg (by omega)]
  simp only
  rw [if_neg (by rw [hc]; simp)]
  exact skipNameLoop_fuel m end_ f _ _ (by omega) (le_refl _)

/-- C24: for a cursor before `end`, `Control::skipName` returns the cursor plus 1 when
the byte at the cursor is zero; it returns the cursor plus 2 when that byte has both top
bits set and two bytes remain before `end`, whatever the other bytes of the message are
(the target of the pointer is not looked at); on a standard label of `n` bytes, 1 to
63, it goes on from the cursor plus `1 + n`; so for labels followed by a zero byte or a
pointer that ends at or before `end` the result is the offset just past that zero
byte or pointer. -/
theorem skipName_step_rules (m : Mem) (p end_ : Nat) (hp : p < end_) :
    (rd m p = 0 → Control.skipName m p end_ = some (p + 1))
      ∧ (192 ≤ rd m p → p + 2 ≤ end_ →
          ∀ m2 : Mem, rd m2 p = rd m p → Control.skipName m2 p end_ = some (p + 2))
      ∧ (1 ≤ rd m p → rd m p ≤ 63 →
          Control.skipName m p end_ = Control.skipName m (p + 1 + rd m p) end_)
      ∧ (∀ e, NameSpan m p e → e ≤ end_ → Control.skipName m p end_ = some e) := by
  refine ⟨skipName_zero m p end_ hp, ?_, skipName_label m p end_ hp, ?_⟩
  · intro hb h2 m2 hm
    exact skipName_pointer m2 p end_ h2 (by rw [hm]; exact hb)
  · intro e hn he
    exact skipName_span m p e end_ hn he

/-- C24 at a concrete input: the name `www` followed by a pointer, in a message of 6
bytes. -/
theorem skipName_step_rules_witness :
    Control.skipName (ofList [3, 119, 119, 119, 0xC0, 12]) 0 6
        = Control.skipName (ofList [3, 119, 119, 119, 0xC0, 12])
            (0 + 1 + rd (ofList [3, 119, 119, 119, 0xC0, 12]) 0) 6
      ∧ Control.skipName (ofList [3, 119, 119, 119, 0xC0, 12]) 0 6 = some 6 :=
  ⟨(skipName_step_rules (ofList [3, 119, 119, 119, 0xC0, 12]) 0 6 (by decide)).2.2.1
      (by decide) (by decide),
    by decide⟩

/-- Over labels that end before `end` `Control::skipName` goes on from the byte after
them. -/
theorem skipName_labels (m : Mem) (end_ : Nat) (ls : List (List Nat)) :
    ∀ p, (∀ l ∈ ls, 1 ≤ l.length ∧ l.length ≤ 63) → LabelsAt m p ls →
      p + encLen ls < end_ →
      Control.skipName m p end_ = Control.skipName m (p + encLen ls) end_ := by
  induction ls with
  | nil => intro p _ _ _; rfl
  | cons l ls ih =>
    intro p hlen hl hq
    obtain ⟨h1, -, h3⟩ := hl
    have hb := hlen l (List.mem_cons_self _ _)
    rw [encLen] at hq ⊢
    rw [skipName_label m p end_ (by omega) (by omega) (by omega), h1,
      ih (p + 1 + l.length) (fun l2 h => hlen l2 (List.mem_cons_of_mem _ h)) h3 (by omega)]
    congr 1
    omega

/-- One pass of `Control::copyName` at a byte with exactly one top bit set, or with the
cursor outside the message, returns `false`. -/
theorem copyNameStep_invalid (m : Mem) (dns end_ : Nat) (s : Control.CopyState)
    (h1 : 64 ≤ rd m s.ptr) (h2 : rd m s.ptr < 192) :
    ∃ st, Control.copyNameStep m dns end_ s = .ret false st := by
  unfold Control.copyNameStep
  have hl := land_c0 (rd m s.ptr) (rd_lt m s.ptr)
  have hc0 : rd m s.ptr &&& 0xc0 ≠ 0 := fun h => by have := hl.1.mp h; omega
  have hc1 : rd m s.ptr &&& 0xc0 ≠ 0xc0 := fun h => by have := hl.2.mp h; omega
  by_cases hin : dns ≤ s.ptr ∧ s.ptr < end_
  · rw [if_pos hin]
    simp only
    rw [if_pos hc0, if_pos hc1]
    exact ⟨_, rfl⟩
  · rw [if_neg hin]
    exact ⟨_, rfl⟩

/-- C25: when a length byte with exactly one of its top two bits set (0x40 to 0xBF)
stands at an offset `q` before `end`: `Control::skipName` returns the null pointer
whenever its walk reaches `q`, that is, when started at a cursor from which labels of 1
to 63 bytes lead to `q`; and `Control::copyName` returns `false` whenever its loop
reaches `q`, that is, when after some number `n` of passes it has not returned and its
cursor is `q`. -/
theorem invalid_length_byte (m : Mem) (q end_ : Nat) (hq : q < end_) (h1 : 64 ≤ rd m q)
    (h2 : rd m q < 192) :
    (∀ p ls, (∀ l ∈ ls, 1 ≤ l.length ∧ l.length ≤ 63) → LabelsAt m p ls →
        p + encLen ls = q → Control.skipName m p end_ = none)
      ∧ (∀ NameMax dns ptr n s fuel,
          Control.copyNameIter m dns end_ n (Control.copyInit NameMax ptr) = some s →
          s.ptr = q → n < fuel →
          ∃ st, Control.copyName NameMax m dns ptr end_ fuel = some (false, st)) := by
  constructor
  · intro p ls hlen hl hp
    rw [skipName_labels m end_ ls p hlen hl (by omega), hp]
    exact skipName_invalid m q end_ hq h1 h2
  · intro NameMax dns ptr n s fuel hit hs hf
    obtain ⟨st, hst⟩ := copyNameStep_invalid m dns end_ s (by rw [hs]; exact h1)
      (by rw [hs]; exact h2)
    obtain ⟨k, hk⟩ : ∃ k, fuel = n + (k + 1) := ⟨fuel - n - 1, by omega⟩
    refine ⟨st, ?_⟩
    unfold Control.copyName
    rw [hk, copyNameRun_of_iter m dns end_ n (k + 1) _ s hit, Control.copyNameRun, hst]

/-- C25 at a concrete input: the label `a` followed by the byte `0x40`. -/
theorem invalid_length_byte_witness :
    Control.skipName (ofList [1, 97, 0x40]) 0 3 = none
      ∧ ∃ st, Control.copyName 255 (ofList [1, 97, 0x40]) 0 0 3 2 = some (false, st) :=
  have h := invalid_length_byte (ofList [1, 97, 0x40]) 2 3 (by decide) (by decide) (by decide)
  ⟨h.1 0 [[97]] (by decide) ⟨by decide, by decide, trivial⟩ (by decide),
    h.2 255 0 0 1 (Control.CopyState.mk 2 253 [97, 46] [0, 1, 2]) 2 (by decide) rfl
      (by decide)⟩

end Resolver

/-! ## The bytes `Control::skipName` loads -/

namespace Resolver

/-- The loop with its loads returns what the loop returns. -/
theorem skipNameLoads_fst (m : Mem) (end_ : Nat) (fuel : Nat) :
    ∀ p, (Control.skipNameLoads m end_ fuel p).1 = Control.skipNameLoop m end_ fuel p := by
  induction fuel with
  | zero => intro p; rfl
  | succ fuel ih =>
    intro p
    rw [Control.skipNameLoads, Control.skipNameLoop]
    by_cases hp : p < end_
    · rw [if_pos hp, if_pos hp]
      by_cases h0 : rd m p = 0
      · rw [if_pos h0, if_pos h0]
      · rw [if_neg h0, if_neg h0]
        simp only
        by_cases hc : rd m p &&& 0xc0 ≠ 0
        · rw [if_pos hc, if_pos hc]
          by_cases hc1 : rd m p &&& 0xc0 ≠ 0xc0
          · rw [if_pos hc1, if_pos hc1]
          · rw [if_neg hc1, if_neg hc1]
        · rw [if_neg hc, if_neg hc]
          exact ih _
    · rw [if_neg hp, if_neg hp]

/-- Every offset the loop loads from lies between the cursor and `end`. -/
theorem skipNameLoads_range (m : Mem) (end_ : Nat) (fuel : Nat) :
    ∀ p, ∀ x ∈ (Control.skipNameLoads m end_ fuel p).2, p ≤ x ∧ x < end_ := by
  induction fuel with
  | zero => intro p x hx; simp [Control.skipNameLoads] at hx
  | succ fuel ih =>
    intro p x hx
    rw [Control.skipNameLoads] at hx
    by_cases hp : p < end_
    · rw [if_pos hp] at hx
      by_cases h0 : rd m p = 0
      · rw [if_pos h0] at hx
        simp only [List.mem_singleton] at hx
        omega
      · rw [if_neg h0] at hx
        simp only at hx
        by_cases hc : rd m p &&& 0xc0 ≠ 0
        · rw [if_pos hc] at hx
          by_cases hc1 : rd m p &&& 0xc0 ≠ 0xc0
          · rw [if_pos hc1] at hx
            simp only [List.mem_singleton] at hx
            omega
          · rw [if_neg hc1] at hx
            simp only [List.mem_singleton] at hx
            omega
        · rw [if_neg hc] at hx
          rcases List.mem_cons.mp hx with h | h
          · omega
          · have := ih _ x h
            omega
    · rw [if_neg hp] at hx
      simp at hx

/-- Two messages that agree from the cursor up to `end` make the loop return the
same. -/
theorem skipNameLoop_congr (m m2 : Mem) (end_ : Nat) (fuel : Nat) :
    ∀ p, (∀ x, p ≤ x → x < end_ → rd m2 x = rd m x) →
      Control.skipNameLoop m2 end_ fuel p = Control.skipNameLoop m end_ fuel p := by
  induction fuel with
  | zero => intro p _; rfl
  | succ fuel ih =>
    intro p h
    rw [Control.skipNameLoop, Control.skipNameLoop]
    by_cases hp : p < end_
    · rw [if_pos hp, if_pos hp, h p (le_refl _) hp]
      by_cases h0 : rd m p = 0
      · rw [if_pos h0, if_pos h0]
      · rw [if_neg h0, if_neg h0]
        simp only
        by_cases hc : rd m p &&& 0xc0 ≠ 0
        · rw [if_pos hc, if_pos hc]
        · rw [if_neg hc, if_neg hc]
          exact ih _ (fun x h1 h2 => h x (by omega) h2)
    · rw [if_neg hp, if_neg hp]

/-- C26: for every buffer, cursor and `end`, every byte `Control::skipName` loads lies
at an offset from the cursor on and strictly below `end`, and so its result is the
same on any two buffers that agree at the offsets from the cursor up to, and
without, `end`. -/
theorem skipName_reads_below_end (m : Mem) (p end_ : Nat) :
    (Control.skipNameLoads m end_ (end_ - p) p).1 = Control.skipName m p end_
      ∧ (∀ x ∈ (Control.skipNameLoads m end_ (end_ - p) p).2, p ≤ x ∧ x < end_)
      ∧ (∀ m2 : Mem, (∀ x, p ≤ x → x < end_ → rd m2 x = rd m x) →
          Control.skipName m2 p end_ = Control.skipName m p end_) :=
  ⟨skipNameLoads_fst m end_ _ p, skipNameLoads_range m end_ _ p,
    fun m2 h => skipNameLoop_congr m m2 end_ _ p h⟩

/-- At or after `end` `Control::skipName` returns `end`. -/
theorem skipName_at_end (m : Mem) (p end_ : Nat) (hp : end_ ≤ p) :
    Control.skipName m p end_ = some end_ := by
  unfold Control.skipName
  rw [Nat.sub_eq_zero_of_le hp]
  rfl

/-- Over labels that reach or pass `end` `Control::skipName` returns `end`. -/
theorem skipName_overrun (m : Mem) (end_ : Nat) (ls : List (List Nat)) :
    ∀ p, (∀ l ∈ ls, 1 ≤ l.length ∧ l.length ≤ 63) → LabelsAt m p ls →
      end_ ≤ p + encLen ls → Control.skipName m p end_ = some end_ := by
  induction ls with
  | nil =>
    intro p _ _ h
    rw [encLen] at h
    exact skipName_at_end m p end_ h
  | cons l ls ih =>
    intro p hlen hl h
    obtain ⟨h1, -, h3⟩ := hl
    have hb := hlen l (List.mem_cons_self _ _)
    rw [encLen] at h
    by_cases hp : p < end_
    · rw [skipName_label m p end_ hp (by omega) (by omega), h1]
      exact ih (p + 1 + l.length) (fun l2 h => hlen l2 (List.mem_cons_of_mem _ h)) h3
        (by omega)
    · exact skipName_at_end m p end_ (by omega)

/-- The bytes loaded from a memory are below 256. -/
theorem bytes_map_mod (m : Mem) (a n : Nat) :
    (bytes m a n).map (· % 256) = bytes m a n := by
  unfold bytes
  rw [List.map_map]
  apply List.map_congr_left
  intro k _
  exact Nat.mod_eq_of_lt (rd_lt m _)

/-- When the loop of `Control::skipName` returns the null pointer, it has passed over
standard labels of 1 to 63 bytes and then met, before `end`, a length byte with exactly
one of its top bits set. -/
theorem skipNameLoop_none (m : Mem) (end_ : Nat) (fuel : Nat) :
    ∀ p, Control.skipNameLoop m end_ fuel p = none →
      ∃ ls, (∀ l ∈ ls, 1 ≤ l.length ∧ l.length ≤ 63) ∧ LabelsAt m p ls
        ∧ p + encLen ls < end_
        ∧ 64 ≤ rd m (p + encLen ls) ∧ rd m (p + encLen ls) < 192 := by
  induction fuel with
  | zero =>
    intro p h
    rw [Control.skipNameLoop] at h
    cases h
  | succ fuel ih =>
    intro p h
    rw [Control.skipNameLoop] at h
    by_cases hp : p < end_
    · rw [if_pos hp] at h
      by_cases h0 : rd m p = 0
      · rw [if_pos h0] at h
        cases h
      · rw [if_neg h0] at h
        simp only at h
        have hl := land_c0 (rd m p) (rd_lt m p)
        by_cases hc : rd m p &&& 0xc0 ≠ 0
        · rw [if_pos hc] at h
          by_cases hc2 : rd m p &&& 0xc0 ≠ 0xc0
          · have h64 : 64 ≤ rd m p := by
              by_contra hlt
              exact hc (hl.1.mpr (by omega))
            have h192 : rd m p < 192 := by
              by_contra hge
              exact hc2 (hl.2.mpr (by omega))
            exact ⟨[], fun l hl0 => absurd hl0 (List.not_mem_nil l), trivial,
              by rw [encLen]; exact hp, by rw [encLen]; exact h64,
              by rw [encLen]; exact h192⟩
          · rw [if_neg hc2] at h
            cases h
        · rw [if_neg hc] at h
          have h63 : rd m p < 64 := hl.1.mp (by simpa using hc)
          obtain ⟨ls, h1, h2, h3, h4, h5⟩ := ih _ h
          have elen : (bytes m (p + 1) (rd m p)).length = rd m p := bytes_length _ _ _
          refine ⟨bytes m (p + 1) (rd m p) :: ls, ?_, ⟨elen.symm, ?_, ?_⟩, ?_, ?_, ?_⟩
          · intro l hmem
            rcases List.mem_cons.mp hmem with e | e
            · rw [e, elen]
              omega
            · exact h1 l e
          · rw [elen, bytes_map_mod]
          · rw [elen]
            exact h2
          · rw [encLen, elen]
            omega
          · rw [encLen, elen]
            have e : p + (1 + rd m p + encLen ls) = p + 1 + rd m p + encLen ls := by omega
            rw [e]
            exact h4
          · rw [encLen, elen]
            have e : p + (1 + rd m p + encLen ls) = p + 1 + rd m p + encLen ls := by omega
            rw [e]
            exact h5
    · rw [if_neg hp] at h
      cases h

/-- After standard labels of 1 to 63 bytes, a length byte before `end` with exactly one
of its top bits set makes `Control::skipName` return the null pointer. -/
theorem skipName_labels_invalid (m : Mem) (p end_ : Nat) (ls : List (List Nat))
    (hlen : ∀ l ∈ ls, 1 ≤ l.length ∧ l.length ≤ 63) (hl : LabelsAt m p ls)
    (hp : p + encLen ls < end_) (h1 : 64 ≤ rd m (p + encLen ls))
    (h2 : rd m (p + encLen ls) < 192) : Control.skipName m p end_ = none := by
  rw [skipName_labels m end_ ls p hlen hl hp]
  exact skipName_invalid m _ end_ hp h1 h2

/-- C27, as stated, fails: on a label of 5 bytes in a message of 2 bytes, and on a
label that ends exactly at `end` with no terminator after it, `Control::skipName` does
not return the null pointer. -/
theorem skipName_overlong_not_null :
    ¬ (Control.skipName (ofList [5, 97]) 0 2 = none)
      ∧ ¬ (Control.skipName (ofList [1, 97]) 0 2 = none) := by
  decide

/-- C27, amended: when `Control::skipName` walks over standard labels of 1 to 63 bytes
of which the last claims bytes extending past `end`, or which reach `end` with no zero
byte or pointer before it, it returns `end` itself, not the null pointer; and the null
pointer is returned only for a length byte with exactly one top bit set: from any
cursor `q`, `Control::skipName` returns null exactly when, after standard labels of 1 to
63 bytes, it meets before `end` a length byte from `0x40` to `0xBF`. -/
theorem skipName_overlong_returns_end (m : Mem) (p end_ : Nat) (ls : List (List Nat))
    (hlen : ∀ l ∈ ls, 1 ≤ l.length ∧ l.length ≤ 63) (hl : LabelsAt m p ls)
    (hover : end_ ≤ p + encLen ls) :
    Control.skipName m p end_ = some end_
      ∧ ∀ q, Control.skipName m q end_ = none ↔
          ∃ ls2, (∀ l ∈ ls2, 1 ≤ l.length ∧ l.length ≤ 63) ∧ LabelsAt m q ls2
            ∧ q + encLen ls2 < end_
            ∧ 64 ≤ rd m (q + encLen ls2) ∧ rd m (q + encLen ls2) < 192 := by
  refine ⟨skipName_overrun m end_ ls p hlen hl hover, ?_⟩
  intro q
  constructor
  · intro h
    exact skipNameLoop_none m end_ _ q h
  · rintro ⟨ls2, h1, h2, h3, h4, h5⟩
    exact skipName_labels_invalid m q end_ ls2 h1 h2 h3 h4 h5

/-- C27, amended, at a concrete input: a label of 5 bytes in a message of 2 bytes gives
`end`, and the null pointer would need a length byte from `0x40` to `0xBF` before
`end`. -/
theorem skipName_overlong_returns_end_witness :
    Control.skipName (ofList [5, 97]) 0 2 = some 2
      ∧ (Control.skipName (ofList [5, 97]) 0 2 = none ↔
          ∃ ls2, (∀ l ∈ ls2, 1 ≤ l.length ∧ l.length ≤ 63) ∧ LabelsAt (ofList [5, 97]) 0 ls2
            ∧ 0 + encLen ls2 < 2
            ∧ 64 ≤ rd (ofList [5, 97]) (0 + encLen ls2)
            ∧ rd (ofList [5, 97]) (0 + encLen ls2) < 192) :=
  have h := skipName_overlong_returns_end (ofList [5, 97]) 0 2 [[97, 0, 0, 0, 0]] (by decide)
    ⟨by decide, by decide, trivial⟩ (by decide)
  ⟨h.1, h.2 0⟩

end Resolver

/-! ## Transaction ids -/

namespace Resolver

/-- A forward lookup that gets past the argument checks leaves the counter one higher
and the buffer `query` as `Control::a` left it. -/
theorem getHostByName_state (C : Consts) (AF_INET : Int) (c : Control)
    (recv : Nat → Int × Mem) (h : List Nat) :
    (Control.getHostByName C AF_INET c recv (some h) AF_INET).2.1.id = c.id + 1
      ∧ (Control.getHostByName C AF_INET c recv (some h) AF_INET).2.1.query
          = (queryA C c h).2 := by
  unfold queryA nextId Control.getHostByName
  simp only
  rw [if_neg (by simp)]
  by_cases hl : (Control.a C.NameMax c.suffix c.query ((c.id + 1) % 65536) h).1 ≤ 0
  · rw [if_pos hl]
    exact ⟨rfl, rfl⟩
  · rw [if_neg hl]
    exact ⟨rfl, rfl⟩

/-- A reverse lookup that gets past the buffer and address checks leaves the counter
one higher and the buffer `query` as `Control::ptr` left it. -/
theorem getHostName_state (C : Consts) (fuel : Nat) (c : Control) (recv : Nat → Int × Mem)
    (got : Int × List Nat) (buf : List Nat) (nlen : Nat) (hn : C.NameMax ≤ nlen)
    (hg : got.1 = 4) :
    (Control.getHostName C fuel c recv got buf nlen).2.1.id = c.id + 1
      ∧ (Control.getHostName C fuel c recv got buf nlen).2.1.query
          = (queryPtr c got.2).2 := by
  have hpl := ptr_pos c.query ((c.id + 1) % 65536) got.2
  unfold queryPtr nextId Control.getHostName
  rw [if_neg (by omega), if_neg (by simp [hg])]
  simp only
  rw [if_neg (by omega)]
  exact ⟨rfl, rfl⟩

/-- The id field of a query built by `Control::a` holds the id it was called with. -/
theorem a_id (NameMax : Nat) (s : List Nat) (q : Mem) (id : Nat) (h : List Nat)
    (hh : IsCStr h) (hs : IsCStr s) (hlen : 0 < (Control.a NameMax s q id h).1) :
    rd16 (Control.a NameMax s q id h).2 0 = id % 65536 := by
  have hw : WellFormed NameMax (effectiveName s h) := by
    by_contra hc
    have := a_fail NameMax s q id h hh hs hc
    omega
  obtain ⟨q1, e1, -, -, -, -, hhd, -⟩ := a_ok NameMax s q id h hh hs hw
  rw [e1]
  simp only
  rw [rd16_header_congr q1 _ hhd 0 (by omega)]
  exact (rd16_stampHeader q id).1

/-- The id field of a query built by `Control::ptr` holds the id it was called with. -/
theorem ptr_id (q : Mem) (id : Nat) (addr : List Nat) :
    rd16 (Control.ptr q id addr).2 0 = id % 65536 := by
  obtain ⟨q1, e1, -, -, -, -, hhd⟩ := ptr_ok q id addr
  rw [e1]
  simp only
  rw [rd16_header_congr q1 _ hhd 0 (by omega)]
  exact (rd16_stampHeader q id).1

/-- C28, as stated, fails: on a connection whose counter is 65534 the first forward
lookup stamps the id 65535 into its query and the next one the id 0, so the ids of
successive lookups are not increasing. -/
theorem ids_not_increasing_at_wrap :
    ¬ (rd16 (Control.getHostByName sampleConsts 2 sampleControlWrap silentRecv
          (some [97]) 2).2.1.query 0
        < rd16 (Control.getHostByName sampleConsts 2
            (Control.getHostByName sampleConsts 2 sampleControlWrap silentRecv
              (some [97]) 2).2.1 silentRecv (some [97]) 2).2.1.query 0) := by
  decide

/-- C28, amended: a forward lookup of a host name that encodes, and a reverse lookup
with a buffer of at least `NameMax` bytes and an IPv4 address, increment the counter of
the connection exactly once; the id stamped into the query is the new counter value
as a 16-bit value; a result comes only from a datagram whose id field equals the id
stamped into the query; and the id of the lookup that follows is the successor of this
id modulo 65536: one higher, except that 65535 is followed by 0. -/
theorem transaction_ids (C : Consts) (AF_INET : Int) (c : Control)
    (recvA recvP : Nat → Int × Mem) (h : List Nat) (fuel : Nat) (got : Int × List Nat)
    (buf : List Nat) (nlen : Nat)
    (hh : IsCStr h) (hs : IsCStr c.suffix) (hlen : 0 < (queryA C c h).1)
    (hn : C.NameMax ≤ nlen) (hg : got.1 = 4) :
    ((Control.getHostByName C AF_INET c recvA (some h) AF_INET).2.1.id = c.id + 1
        ∧ rd16 (Control.getHostByName C AF_INET c recvA (some h) AF_INET).2.1.query 0
            = nextId c
        ∧ (∀ x, (Control.getHostByName C AF_INET c recvA (some h) AF_INET).1 = .found x →
            ∃ j, j < C.MaxQuery ∧ DNSHdr.getID (recvA j).2
              = rd16 (Control.getHostByName C AF_INET c recvA (some h) AF_INET).2.1.query 0)
        ∧ (nextId (Control.getHostByName C AF_INET c recvA (some h) AF_INET).2.1
              = nextId c + 1
            ∨ (nextId c = 65535
              ∧ nextId (Control.getHostByName C AF_INET c recvA (some h) AF_INET).2.1 = 0)))
      ∧ ((Control.getHostName C fuel c recvP got buf nlen).2.1.id = c.id + 1
        ∧ rd16 (Control.getHostName C fuel c recvP got buf nlen).2.1.query 0 = nextId c
        ∧ ((Control.getHostName C fuel c recvP got buf nlen).1 = .found () →
            ∃ j, j < C.MaxQuery ∧ DNSHdr.getID (recvP j).2
              = rd16 (Control.getHostName C fuel c recvP got buf nlen).2.1.query 0)
        ∧ (nextId (Control.getHostName C fuel c recvP got buf nlen).2.1 = nextId c + 1
            ∨ (nextId c = 65535
              ∧ nextId (Control.getHostName C fuel c recvP got buf nlen).2.1 = 0))) := by
  obtain ⟨a1, a2⟩ := getHostByName_state C AF_INET c recvA h
  obtain ⟨p1, p2⟩ := getHostName_state C fuel c recvP got buf nlen hn hg
  have ida : rd16 (queryA C c h).2 0 = nextId c := by
    unfold queryA at hlen ⊢
    rw [a_id C.NameMax c.suffix c.query (nextId c) h hh hs hlen]
    unfold nextId
    omega
  have idp : rd16 (queryPtr c got.2).2 0 = nextId c := by
    unfold queryPtr
    rw [ptr_id]
    unfold nextId
    omega
  refine ⟨⟨a1, by rw [a2]; exact ida, ?_, ?_⟩, ⟨p1, by rw [p2]; exact idp, ?_, ?_⟩⟩
  · intro x hx
    obtain ⟨hn2, j, h1, h2, -, h4⟩ := getHostByName_found C AF_INET c recvA (some h)
      AF_INET x hx
    obtain ⟨opt, hv⟩ := attemptA_found C _ _ _ _ _ x h4
    have hok := (validate_found _ _ _ _ _ opt hv).1
    refine ⟨j, h2, ?_⟩
    rw [a2, ida, hok.2.1]
    rfl
  · unfold nextId
    rw [a1]
    omega
  · intro hx
    obtain ⟨j, h2, h4⟩ := getHostName_found C fuel c recvP got buf nlen hx
    obtain ⟨opt, hv⟩ := attemptPtr_found C fuel _ _ _ _ _ h4
    have hok := (validate_found _ _ _ _ _ opt hv).1
    refine ⟨j, h2, ?_⟩
    rw [p2, idp, hok.2.1]
    rfl
  · unfold nextId
    rw [p1]
    omega

/-- C28, amended, at a concrete input: on a connection whose counter is 65534 the
forward lookup of `a` stamps the id 65535, and the id of the next lookup is 0. -/
theorem transaction_ids_witness :
    rd16 (Control.getHostByName sampleConsts 2 sampleControlWrap silentRecv
        (some [97]) 2).2.1.query 0 = nextId sampleControlWrap
      ∧ nextId sampleControlWrap = 65535
      ∧ nextId (Control.getHostByName sampleConsts 2 sampleControlWrap silentRecv
          (some [97]) 2).2.1 = 0 :=
  have h := transaction_ids sampleConsts 2 sampleControlWrap silentRecv silentRecv [97] 10
    (4, [93, 184, 216, 34]) (List.replicate 255 0) 255 (by decide) (by decide) (by decide)
    (by decide) rfl
  ⟨h.1.2.1, by decide, by decide⟩

end Resolver

/-! ## `Control::skipName` on the queries of the encoders -/

namespace Resolver

/-- On a query that holds labels of 1 to 63 bytes and a zero byte from offset 12 on,
followed by type and class, `Control::skipName` returns the offset after the zero byte,
on the query itself and on every datagram that echoes the question; such a datagram
with a valid header passes all the checks. -/
theorem skipName_question (q1 : Mem) (len : Nat) (ls : List (List Nat))
    (hlen : ∀ l ∈ ls, 1 ≤ l.length ∧ l.length ≤ 63) (hq : LabelsAt q1 12 ls)
    (hz : rd q1 (12 + encLen ls) = 0) (hl : len = 12 + encLen ls + 5) :
    Control.skipName q1 12 len = some (len - 4)
      ∧ rd q1 (len - 5) = 0
      ∧ ∀ (m : Mem) (n xid : Nat), len ≤ n →
          bytes m 12 (len - 12) = bytes q1 12 (len - 12) →
          Control.skipName m 12 n = some (len - 4)
            ∧ (n < 2 ^ 31 → HeaderOk xid (n : Int) m →
                Control.validate q1 len xid (n : Int) m = .found len) := by
  have e4 : len - 4 = 12 + encLen ls + 1 := by omega
  have e5 : len - 5 = 12 + encLen ls := by omega
  refine ⟨?_, by rw [e5]; exact hz, ?_⟩
  · rw [e4]
    exact skipName_span q1 12 _ len ⟨ls, hlen, hq, Or.inl ⟨hz, rfl⟩⟩ (by omega)
  · intro m n xid hn hecho
    have hech : ∀ i, 12 ≤ i → i < len → rd m i = rd q1 i := by
      intro i h1 h2
      have := (bytes_eq_iff _ _ _ _ _).mp hecho (i - 12) (by omega)
      have e : 12 + (i - 12) = i := by omega
      rw [e] at this
      exact this
    have hm : LabelsAt m 12 ls :=
      labelsAt_congr ls q1 m 12 (fun x h1 h2 => (hech x h1 (by omega)).symm) hq
    have hmz : rd m (12 + encLen ls) = 0 := by
      rw [hech _ (by omega) (by omega)]; exact hz
    refine ⟨?_, ?_⟩
    · rw [e4]
      exact skipName_span m 12 _ n ⟨ls, hlen, hm, Or.inl ⟨hmz, rfl⟩⟩ (by omega)
    · intro hn31 hhdr
      exact validate_ok q1 m len xid n ls hlen hq hz hl hn31 hhdr hech hn

/-- C30: for every query built successfully by `Control::a`, and every query built by
`Control::ptr`, with the returned length `len`: `skipName(query + 12, query + len)`
returns `query + len - 4`, the offset just after the zero byte that ends the name; and
on a datagram of `n >= len` bytes that echoes the bytes 12 to `len - 1` of the query,
`skipName` returns `len - 4` as well, so 4 bytes remain for type and class and the
compared range is the whole question; with a valid header the datagram passes the
checks, the cursor ending at `len`. -/
theorem skipName_agrees_with_encoders (NameMax : Nat) (s : List Nat) (q : Mem) (id : Nat)
    (h : List Nat) (q2 : Mem) (id2 : Nat) (addr : List Nat)
    (hh : IsCStr h) (hs : IsCStr s) (hlen : 0 < (Control.a NameMax s q id h).1) :
    (Control.skipName (Control.a NameMax s q id h).2 12 (Control.a NameMax s q id h).1
        = some ((Control.a NameMax s q id h).1 - 4)
      ∧ rd (Control.a NameMax s q id h).2 ((Control.a NameMax s q id h).1 - 5) = 0
      ∧ ∀ (m : Mem) (n xid : Nat), (Control.a NameMax s q id h).1 ≤ n →
          bytes m 12 ((Control.a NameMax s q id h).1 - 12)
            = bytes (Control.a NameMax s q id h).2 12 ((Control.a NameMax s q id h).1 - 12) →
          Control.skipName m 12 n = some ((Control.a NameMax s q id h).1 - 4)
            ∧ (n < 2 ^ 31 → HeaderOk xid (n : Int) m →
                Control.validate (Control.a NameMax s q id h).2 (Control.a NameMax s q id h).1
                  xid (n : Int) m = .found (Control.a NameMax s q id h).1))
      ∧ (Control.skipName (Control.ptr q2 id2 addr).2 12 (Control.ptr q2 id2 addr).1
          = some ((Control.ptr q2 id2 addr).1 - 4)
        ∧ rd (Control.ptr q2 id2 addr).2 ((Control.ptr q2 id2 addr).1 - 5) = 0
        ∧ ∀ (m : Mem) (n xid : Nat), (Control.ptr q2 id2 addr).1 ≤ n →
            bytes m 12 ((Control.ptr q2 id2 addr).1 - 12)
              = bytes (Control.ptr q2 id2 addr).2 12 ((Control.ptr q2 id2 addr).1 - 12) →
            Control.skipName m 12 n = some ((Control.ptr q2 id2 addr).1 - 4)
              ∧ (n < 2 ^ 31 → HeaderOk xid (n : Int) m →
                  Control.validate (Control.ptr q2 id2 addr).2 (Control.ptr q2 id2 addr).1
                    xid (n : Int) m = .found (Control.ptr q2 id2 addr).1)) := by
  have hw : WellFormed NameMax (effectiveName s h) := by
    by_contra hc
    have := a_fail NameMax s q id h hh hs hc
    omega
  obtain ⟨qa, ea, la, za, -⟩ := a_ok NameMax s q id h hh hs hw
  obtain ⟨qp, ep, lp, zp, -⟩ := ptr_ok q2 id2 addr
  rw [ea, ep]
  exact ⟨skipName_question qa _ _ hw.2.1 la za rfl,
    skipName_question qp _ _ (ptrLabels_length addr) lp zp rfl⟩

/-- C30 at a concrete input: the query for `example.com`, of 29 bytes, and the reply
`sampleReplyExample` of 45 bytes that echoes its question. -/
theorem skipName_agrees_with_encoders_witness :
    Control.skipName (Control.a 255 [] (fun _ => 0) 1 exampleCom).2 12
        (Control.a 255 [] (fun _ => 0) 1 exampleCom).1 = some 25
      ∧ Control.skipName (ofList sampleReplyExample) 12 45 = some 25
      ∧ Control.validate (Control.a 255 [] (fun _ => 0) 1 exampleCom).2
          (Control.a 255 [] (fun _ => 0) 1 exampleCom).1 1 (45 : Nat)
          (ofList sampleReplyExample)
        = .found (Control.a 255 [] (fun _ => 0) 1 exampleCom).1 :=
  have h := (skipName_agrees_with_encoders 255 [] (fun _ => 0) 1 exampleCom (fun _ => 0) 1
    [93, 184, 216, 34] (by decide) (by decide) (by decide)).1
  have g := h.2.2 (ofList sampleReplyExample) 45 1 (by decide) (by decide)
  ⟨h.1, g.1, g.2 (by decide) ⟨by decide, by decide, by decide, by decide, by decide⟩⟩

end Resolver

/-! ## Progress of `Control::skipName` -/

namespace Resolver

/-- One pass of the loop of `Control::skipName` from a cursor before `end` moves the
cursor forward. -/
theorem skipNameLoop_progress (m : Mem) (end_ f p r : Nat) (hp : p < end_)
    (h : Control.skipNameLoop m end_ (f + 1) p = some r) : p < r ∧ r ≤ end_ := by
  have hb := skipNameLoop_bounds m end_ (f + 1) p r h
  refine ⟨?_, hb.1⟩
  rw [Control.skipNameLoop, if_pos hp] at h
  by_cases h0 : rd m p = 0
  · rw [if_pos h0, if_pos (by omega)] at h
    simp only [Option.some.injEq] at h
    omega
  · rw [if_neg h0] at h
    simp only at h
    by_cases hc : rd m p &&& 0xc0 ≠ 0
    · rw [if_pos hc] at h
      by_cases hc1 : rd m p &&& 0xc0 ≠ 0xc0
      · rw [if_pos hc1] at h
        cases h
      · rw [if_neg hc1] at h
        simp only [Option.some.injEq] at h
        split at h <;> omega
    · rw [if_neg hc] at h
      have hb2 := skipNameLoop_bounds m end_ f _ r h
      by_cases hle : p + 1 + rd m p ≤ end_
      · have := hb2.2.1 hle
        omega
      · have := hb2.2.2 (by omega)
        omega

/-- C36: `Control::skipName` terminates on every input: its loop moves the cursor
forward in every pass, so that `end - cursor` passes always suffice and a larger bound
gives the same result.  For a cursor strictly before `end` the result is the null
pointer or a position `r` with `cursor < r <= end`, a pointer cut off by `end` being
clamped to `end`; for a cursor at or beyond `end` the result is `end`. -/
theorem skipName_progress (m : Mem) (p end_ : Nat) :
    (∀ f, end_ - p ≤ f → Control.skipNameLoop m end_ f p = Control.skipName m p end_)
      ∧ (p < end_ → Control.skipName m p end_ = none
          ∨ ∃ r, Control.skipName m p end_ = some r ∧ p < r ∧ r ≤ end_)
      ∧ (p < end_ → 192 ≤ rd m p → end_ < p + 2 → Control.skipName m p end_ = some end_)
      ∧ (end_ ≤ p → Control.skipName m p end_ = some end_) := by
  refine ⟨?_, ?_, ?_, skipName_at_end m p end_⟩
  · intro f hf
    exact skipNameLoop_fuel m end_ f (end_ - p) p hf (le_refl _)
  · intro hp
    cases hr : Control.skipName m p end_ with
    | none => exact Or.inl rfl
    | some r =>
      refine Or.inr ⟨r, rfl, ?_⟩
      unfold Control.skipName at hr
      obtain ⟨f, hf⟩ : ∃ f, end_ - p = f + 1 := ⟨end_ - p - 1, by omega⟩
      rw [hf] at hr
      exact skipNameLoop_progress m end_ f p r hp hr
  · intro hp hb h2
    unfold Control.skipName
    obtain ⟨f, hf⟩ : ∃ f, end_ - p = f + 1 := ⟨end_ - p - 1, by omega⟩
    have hc := ((land_c0 (rd m p) (rd_lt m p)).2).mpr hb
    rw [hf, Control.skipNameLoop, if_pos hp, if_neg (by omega)]
    simp only
    rw [if_pos (by rw [hc]; decide), if_neg (by rw [hc]; simp), if_neg (by omega)]

end Resolver

/-! ## The length `Control::ptr` returns -/

namespace Resolver

/-- The wire form of the labels of a reverse name takes one byte more than its digits
per octet, and 13 bytes for `in-addr` and `arpa`. -/
theorem encLen_ptrLabels (addr : List Nat) :
    encLen (ptrLabels addr)
      = ((octetTextsLsbFirst (Control.hostOrder addr)).map (fun l => 1 + l.length)).sum
        + 8 + 5 := by
  unfold ptrLabels
  rw [encLen_append, octetLabels_lsbFirst]
  simp only [octetTextsLsbFirst, encLen, List.map_cons, List.map_nil, List.sum_cons,
    List.sum_nil, List.length_cons, List.length_nil]

/-- C38: for every address `Control::ptr` returns 12 + (for each of the four octets, 1
+ the number of its decimal digits) + 8 + 5 + 1 + 4, a value between 38 and 46; so it is
never `<= 0`, and the branch `if (len <= 0)` of `Control::getHostName` is never
taken. -/
theorem ptr_cannot_fail (q : Mem) (id : Nat) (addr : List Nat) :
    (Control.ptr q id addr).1
        = 12 + ((octetTextsLsbFirst (Control.hostOrder addr)).map
            (fun l => 1 + l.length)).sum + 8 + 5 + 1 + 4
      ∧ 38 ≤ (Control.ptr q id addr).1 ∧ (Control.ptr q id addr).1 ≤ 46
      ∧ ¬ ((Control.ptr q id addr).1 ≤ 0) := by
  obtain ⟨q1, e, -⟩ := ptr_ok q id addr
  have hs := encLen_ptrLabels addr
  have d0 := decimalText_octet (Control.hostOrder addr % 256) (Nat.mod_lt _ (by decide))
  have d1 := decimalText_octet (Control.hostOrder addr / 2 ^ 8 % 256)
    (Nat.mod_lt _ (by decide))
  have d2 := decimalText_octet (Control.hostOrder addr / 2 ^ 16 % 256)
    (Nat.mod_lt _ (by decide))
  have d3 := decimalText_octet (Control.hostOrder addr / 2 ^ 24 % 256)
    (Nat.mod_lt _ (by decide))
  have hsum : ((octetTextsLsbFirst (Control.hostOrder addr)).map
      (fun l => 1 + l.length)).sum
      = (1 + (decimalText (Control.hostOrder addr % 256)).length)
        + ((1 + (decimalText (Control.hostOrder addr / 2 ^ 8 % 256)).length)
        + ((1 + (decimalText (Control.hostOrder addr / 2 ^ 16 % 256)).length)
        + ((1 + (decimalText (Control.hostOrder addr / 2 ^ 24 % 256)).length) + 0))) := by
    simp only [octetTextsLsbFirst, List.map_cons, List.map_nil, List.sum_cons, List.sum_nil]
  rw [e]
  simp only
  rw [hs]
  refine ⟨by omega, ?_, ?_, ?_⟩ <;> rw [hsum] <;> omega

end Resolver

/-! ## Datagrams on which `Control::skipName` fails -/

namespace Resolver

/-- The null pointer of `Control::skipName` on the question name never carries the
checks beyond the datagram: when the query holds a name of standard labels and its zero
byte, as `Control::a` and `Control::ptr` leave it, a datagram whose question name makes
`skipName` return null differs from the query inside the datagram, at or before the
invalid length byte, and is discarded. -/
theorem validate_not_undef (query m : Mem) (len xid : Nat) (rlen : Int)
    (ls : List (List Nat)) (hlen : ∀ l ∈ ls, 1 ≤ l.length ∧ l.length ≤ 63)
    (hq : LabelsAt query 12 ls) (hz : rd query (12 + encLen ls) = 0) :
    Control.validate query len xid rlen m ≠ .undef := by
  unfold Control.validate
  by_cases h1 : (rlen % 2 ^ 32).toNat ≤ DNSHdr.size
  · rw [if_pos h1]
    intro h; cases h
  rw [if_neg h1]
  by_cases h2 : DNSHdr.getID m ≠ xid ∨ (!DNSHdr.isResponse m) = true
      ∨ DNSHdr.qdcount m ≠ 1 ∨ DNSHdr.ancount m = 0
  · rw [if_pos h2]
    intro h; cases h
  rw [if_neg h2]
  by_cases h3 : rlen < 0
  · rw [if_pos h3]
    intro h; cases h
  rw [if_neg h3]
  simp only [DNSHdr.size]
  cases hs : Control.skipName m 12 rlen.toNat with
  | none =>
    simp only
    by_cases hb : bytes query 12 (rlen.toNat - 12) ≠ bytes m 12 (rlen.toNat - 12)
    · rw [if_pos hb]
      intro h; cases h
    · exfalso
      have heq : bytes query 12 (rlen.toNat - 12) = bytes m 12 (rlen.toNat - 12) :=
        not_not.mp hb
      have hag : ∀ x, 12 ≤ x → x < rlen.toNat → rd query x = rd m x := by
        intro x hx1 hx2
        have := (bytes_eq_iff _ _ _ _ _).mp heq (x - 12) (by omega)
        have e : 12 + (x - 12) = x := by omega
        rw [e] at this
        exact this
      have hsq : Control.skipName query 12 rlen.toNat = Control.skipName m 12 rlen.toNat :=
        skipNameLoop_congr m query _ _ 12 hag
      rw [hs] at hsq
      by_cases hin : 12 + encLen ls < rlen.toNat
      · rw [skipName_labels query _ ls 12 hlen hq hin, skipName_zero query _ _ hin hz] at hsq
        cases hsq
      · rw [skipName_overrun query _ ls 12 hlen hq (by omega)] at hsq
        cases hsq
  | some opt =>
    simp only
    by_cases h4 : rlen.toNat < opt + 4
    · rw [if_pos h4]
      intro h; cases h
    · rw [if_neg h4]
      split_ifs <;> (intro h; cases h)

/-- A datagram whose question name starts with the length byte `0x40`
(`sampleReplyBadQuestion`): `Control::skipName` returns the null pointer, the datagram
differs from the query at offset 12 and is discarded, and after `MaxQuery = 3` attempts,
nine socket calls, the lookup reports not-found. -/
theorem bad_question_name_discarded :
    Control.skipName (ofList sampleReplyBadQuestion) 12 45 = none
      ∧ Control.validate (queryA sampleConsts sampleControl exampleCom).2
          (queryA sampleConsts sampleControl exampleCom).1 (nextId sampleControl) 45
          (ofList sampleReplyBadQuestion) = .nothing
      ∧ (Control.getHostByName sampleConsts 2 sampleControl sampleRecvBadQuestion
          (some exampleCom) 2).1 = .nothing
      ∧ (Control.getHostByName sampleConsts 2 sampleControl sampleRecvBadQuestion
          (some exampleCom) 2).2.2.length = 9 := by
  decide

/-- C34, the code at failing inputs: two datagrams with the id of the query, the
response flag, one question, echoed, and one answer, in which `Control::skipName`
returns the null pointer on the owner name of the answer: `sampleReplyBadOwner` for an
A query and `sampleReplyPtrBadOwner` for a PTR query.  Neither lookup tests for the null
pointer before it loads the record fields through it, so the datagram is not discarded:
the handling of the datagram, and with it the lookup, ends in undefined behaviour after
the three socket calls of the first attempt, although `MaxQuery` is 3. -/
theorem invalid_name_not_discarded :
    DNSHdr.getID (ofList sampleReplyBadOwner) = nextId sampleControl
      ∧ DNSHdr.qdcount (ofList sampleReplyBadOwner) = 1
      ∧ DNSHdr.ancount (ofList sampleReplyBadOwner) = 1
      ∧ Control.skipName (ofList sampleReplyBadOwner) 29 45 = none
      ∧ Control.attemptA sampleConsts (queryA sampleConsts sampleControl exampleCom).2
          (queryA sampleConsts sampleControl exampleCom).1 (nextId sampleControl) 45
          (ofList sampleReplyBadOwner) = .undef
      ∧ (Control.getHostByName sampleConsts 2 sampleControl sampleRecvBadOwner
          (some exampleCom) 2).1 = .undef
      ∧ (Control.getHostByName sampleConsts 2 sampleControl sampleRecvBadOwner
          (some exampleCom) 2).2.2.length = 3
      ∧ DNSHdr.getID (ofList sampleReplyPtrBadOwner) = nextId sampleControl
      ∧ DNSHdr.qdcount (ofList sampleReplyPtrBadOwner) = 1
      ∧ DNSHdr.ancount (ofList sampleReplyPtrBadOwner) = 1
      ∧ Control.skipName (ofList sampleReplyPtrBadOwner) 44 69 = none
      ∧ Control.attemptPtr sampleConsts 10 (queryPtr sampleControl [93, 184, 216, 34]).2
          (queryPtr sampleControl [93, 184, 216, 34]).1 (nextId sampleControl) 69
          (ofList sampleReplyPtrBadOwner) = (.undef, [])
      ∧ (Control.getHostName sampleConsts 10 sampleControl sampleRecvPtrBadOwner
          (4, [93, 184, 216, 34]) (List.replicate 255 7) 255).1 = .undef
      ∧ (Control.getHostName sampleConsts 10 sampleControl sampleRecvPtrBadOwner
          (4, [93, 184, 216, 34]) (List.replicate 255 7) 255).2.2.2.length = 3 := by
  decide

end Resolver

/-! ## Address objects without DNS -/

namespace Resolver

/-- C40: `Resolver::getHostByAddress` returns null for every `len` other than 4, 16
included, without any call on the address registry; for `len` 4 it returns the object
the registry has for the address and scope id when there is one, registering nothing;
and otherwise it creates one object for the address, registers exactly that object and
returns it, with the state preferred for a loopback address, else non-member for a
multicast address, else init for an on-link address, else destination. -/
theorem address_classification (F : InFamily) (address : List Nat) (len scopeID : Nat) :
    (len ≠ 4 → getHostByAddress F address len scopeID = (none, []))
      ∧ (len = 4 → ∀ host, F.getAddress (address.take 4) scopeID = some host →
          (getHostByAddress F address len scopeID).1 = some host
            ∧ registered (getHostByAddress F address len scopeID).2 = [])
      ∧ (len = 4 → F.getAddress (address.take 4) scopeID = none →
          ∃ host, (getHostByAddress F address len scopeID).1 = some host
            ∧ registered (getHostByAddress F address len scopeID).2 = [host]
            ∧ host.addr = address.take 4
            ∧ host.state
              = (if F.isLoopback (address.take 4) then .statePreferred
                else if F.isMulticast (address.take 4) then .stateNonMember
                else if (F.onLink (address.take 4) scopeID).isSome then .stateInit
                else .stateDestination)) := by
  refine ⟨?_, ?_, ?_⟩
  · intro h
    unfold getHostByAddress sizeofInAddr
    rw [if_neg h]
    split <;> rfl
  · intro h host hg
    subst h
    unfold getHostByAddress sizeofInAddr
    rw [if_pos rfl]
    simp only
    rw [hg]
    exact ⟨rfl, rfl⟩
  · intro h hg
    subst h
    unfold getHostByAddress sizeofInAddr
    rw [if_pos rfl]
    simp only
    rw [hg]
    simp only
    by_cases h1 : F.isLoopback (List.take 4 address) = true
    · rw [if_pos h1, if_pos h1]
      exact ⟨_, rfl, rfl, rfl, rfl⟩
    · rw [if_neg h1, if_neg h1]
      by_cases h2 : F.isMulticast (List.take 4 address) = true
      · rw [if_pos h2, if_pos h2]
        exact ⟨_, rfl, rfl, rfl, rfl⟩
      · rw [if_neg h2, if_neg h2]
        cases h3 : F.onLink (List.take 4 address) scopeID with
        | none => exact ⟨_, rfl, rfl, rfl, rfl⟩
        | some o => exact ⟨_, rfl, rfl, rfl, rfl⟩

end Resolver

/-! ## A zero length byte under the cursor of `Control::copyName` -/

namespace Resolver

/-- One pass of `Control::copyName` at a zero length byte inside the message: with no
budget left it returns `false`; otherwise it looks at the next byte, and returns `true`
when that is zero, and stores a dot and goes on from there when it is not. -/
theorem copyNameStep_zero (m : Mem) (dns end_ : Nat) (s : Control.CopyState)
    (hin : dns ≤ s.ptr) (hlt : s.ptr < end_) (h0 : rd m s.ptr = 0) :
    (s.namelen = 0 → ∃ st, Control.copyNameStep m dns end_ s = .ret false st)
      ∧ (1 ≤ s.namelen → rd m (s.ptr + 1) = 0 →
          ∃ st, Control.copyNameStep m dns end_ s = .ret true st ∧ st.name = s.name ++ [0])
      ∧ (1 ≤ s.namelen → rd m (s.ptr + 1) ≠ 0 →
          ∃ s1, Control.copyNameStep m dns end_ s = .next s1 ∧ s1.ptr = s.ptr + 1
            ∧ s1.namelen = s.namelen - 1 ∧ s1.name = s.name ++ [dotChar]) := by
  refine ⟨?_, ?_, ?_⟩
  · intro hb
    unfold Control.copyNameStep
    rw [if_pos ⟨hin, hlt⟩]
    simp only
    rw [h0, if_neg (by decide), if_neg (by omega), if_pos (by omega)]
    exact ⟨_, rfl⟩
  · intro hb hz
    have hl := copyNameStep_label m dns end_ s 0 hin h0 (by decide) (by omega) (by omega)
    rw [Nat.add_zero, if_neg (by rw [hz]; simp)] at hl
    exact ⟨_, hl, by simp [bytes]⟩
  · intro hb hz
    have hl := copyNameStep_label m dns end_ s 0 hin h0 (by decide) (by omega) (by omega)
    rw [Nat.add_zero, if_pos hz] at hl
    exact ⟨_, hl, rfl, rfl, by simp [bytes]⟩

set_option maxRecDepth 100000 in
/-- C39, as stated, fails: in the message `sampleFullBudget` `Control::copyName`,
started at offset 2 with `NameMax = 255`, jumps after 5 passes by the pointer at offset
257 to the zero length byte at offset 0, which is followed by the nonzero byte 7; but
its budget is used up, so it neither stores a dot nor goes on: it returns `false`. -/
theorem copyName_root_without_budget :
    (Control.copyNameIter (ofList sampleFullBudget) 0 259 5 (Control.copyInit 255 2)).map
        (fun s => (s.ptr, s.namelen, rd (ofList sampleFullBudget) s.ptr,
          rd (ofList sampleFullBudget) (s.ptr + 1))) = some (0, 0, 0, 7)
      ∧ (Control.copyName 255 (ofList sampleFullBudget) 0 2 259 6).map (fun r => r.1)
        = some false := by
  decide

/-- One more pass after `n` passes. -/
theorem copyNameIter_succ (m : Mem) (dns end_ : Nat) (n : Nat) :
    ∀ (s0 s s1 : Control.CopyState), Control.copyNameIter m dns end_ n s0 = some s →
      Control.copyNameStep m dns end_ s = .next s1 →
      Control.copyNameIter m dns end_ (n + 1) s0 = some s1 := by
  induction n with
  | zero =>
    intro s0 s s1 h hs
    simp only [Control.copyNameIter, Option.some.injEq] at h
    subst h
    rw [Control.copyNameIter, hs]
    rfl
  | succ n ih =>
    intro s0 s s1 h hs
    rw [Control.copyNameIter] at h ⊢
    generalize Control.copyNameStep m dns end_ s0 = c at h ⊢
    cases c with
    | next s2 => exact ih s2 s s1 h hs
    | ret r s2 => simp at h

/-- C39, amended: when the loop of `Control::copyName`, at its start or after any
number of passes (so also after a jump by a pointer), has its cursor at a zero length
byte inside the message: with no output budget left it returns `false`; with at least
one byte of budget left it does not stop there but treats the byte as an empty label
and looks at the byte after it: it returns `true` with the text stored so far and a
NUL when that byte is zero, and otherwise it stores a `.` and goes on from that byte.
So for the datagram `sampleReplyPtrRoot`, whose RDATA is the bare root name,
`Control::getHostName` returns `true` with the text `.com`, built from the bytes after
the name. -/
theorem copyName_root_as_empty_label (NameMax : Nat) (m : Mem) (dns ptr end_ n : Nat)
    (s : Control.CopyState)
    (hit : Control.copyNameIter m dns end_ n (Control.copyInit NameMax ptr) = some s)
    (hin : dns ≤ s.ptr) (hlt : s.ptr < end_) (h0 : rd m s.ptr = 0) :
    (s.namelen = 0 → ∀ fuel, n < fuel →
        ∃ st, Control.copyName NameMax m dns ptr end_ fuel = some (false, st))
      ∧ (1 ≤ s.namelen → rd m (s.ptr + 1) = 0 → ∀ fuel, n < fuel →
          ∃ st, Control.copyName NameMax m dns ptr end_ fuel = some (true, st)
            ∧ st.name = s.name ++ [0])
      ∧ (1 ≤ s.namelen → rd m (s.ptr + 1) ≠ 0 →
          ∃ s1, Control.copyNameIter m dns end_ (n + 1) (Control.copyInit NameMax ptr)
              = some s1
            ∧ s1.ptr = s.ptr + 1 ∧ s1.namelen = s.namelen - 1
            ∧ s1.name = s.name ++ [dotChar])
      ∧ (Control.getHostName sampleConsts 10 sampleControl sampleRecvPtrRoot
            (4, [93, 184, 216, 34]) (List.replicate 255 7) 255).1 = .found ()
      ∧ (Control.getHostName sampleConsts 10 sampleControl sampleRecvPtrRoot
            (4, [93, 184, 216, 34]) (List.replicate 255 7) 255).2.2.1.take 5
          = [46, 99, 111, 109, 0] := by
  obtain ⟨z1, z2, z3⟩ := copyNameStep_zero m dns end_ s hin hlt h0
  refine ⟨?_, ?_, ?_, by decide, by decide⟩
  · intro hb fuel hf
    obtain ⟨st, hst⟩ := z1 hb
    obtain ⟨k, hk⟩ : ∃ k, fuel = n + (k + 1) := ⟨fuel - n - 1, by omega⟩
    refine ⟨st, ?_⟩
    unfold Control.copyName
    rw [hk, copyNameRun_of_iter m dns end_ n (k + 1) _ s hit, Control.copyNameRun, hst]
  · intro hb hz fuel hf
    obtain ⟨st, hst, hname⟩ := z2 hb hz
    obtain ⟨k, hk⟩ : ∃ k, fuel = n + (k + 1) := ⟨fuel - n - 1, by omega⟩
    refine ⟨st, ?_, hname⟩
    unfold Control.copyName
    rw [hk, copyNameRun_of_iter m dns end_ n (k + 1) _ s hit, Control.copyNameRun, hst]
  · intro hb hz
    obtain ⟨s1, hs1, g1, g2, g3⟩ := z3 hb hz
    exact ⟨s1, copyNameIter_succ m dns end_ n _ s s1 hit hs1, g1, g2, g3⟩

/-- C39, amended, at a concrete input: started at the zero byte of the message
`00 03 'com' 00`, `Control::copyName` stores a dot and goes on at offset 1. -/
theorem copyName_root_as_empty_label_witness :
    ∃ s1, Control.copyNameIter (ofList [0, 3, 99, 111, 109, 0]) 0 6 (0 + 1)
          (Control.copyInit 255 0) = some s1
      ∧ s1.ptr = (Control.copyInit 255 0).ptr + 1
      ∧ s1.namelen = (Control.copyInit 255 0).namelen - 1
      ∧ s1.name = (Control.copyInit 255 0).name ++ [dotChar] :=
  (copyName_root_as_empty_label 255 (ofList [0, 3, 99, 111, 109, 0]) 0 0 6 0
    (Control.copyInit 255 0) rfl (by decide) (by decide) (by decide)).2.2.1 (by decide)
    (by decide)

end Resolver

/-! ## What the attempts write -/

namespace Resolver

/-- A write among the socket calls of one more attempt is an earlier one or the write
of the query. -/
theorem write_mem_attempt (io : List IOEvent) (data d : List Nat) (t : Int)
    (h : IOEvent.write d ∈ io ++ [.write data, .setTimeout t, .read]) :
    IOEvent.write d ∈ io ∨ d = data := by
  rcases List.mem_append.mp h with h1 | h1
  · exact Or.inl h1
  · simp only [List.mem_cons, IOEvent.write.injEq, List.mem_singleton, List.not_mem_nil,
      or_false, reduceCtorEq] at h1
    exact Or.inr h1

/-- Every write of the loop of `Control::getHostByName` writes the same bytes, the first
`len` bytes of the buffer `query`. -/
theorem rxmitA_writes (C : Consts) (query : Mem) (len xid : Nat) (recv : Nat → Int × Mem)
    (n : Nat) :
    ∀ (k : Nat) (response : Mem) (io : List IOEvent) (d : List Nat),
      IOEvent.write d ∈ (Control.rxmitA C query len xid recv n k response io).2.2 →
      IOEvent.write d ∈ io ∨ d = bytes query 0 len := by
  induction n with
  | zero =>
    intro k response io d h
    exact Or.inl h
  | succ n ih =>
    intro k response io d h
    rw [Control.rxmitA] at h
    cases hA : Control.attemptA C query len xid (recv k).1 (recv k).2 with
    | nothing =>
      rw [hA] at h
      rcases ih _ _ _ d h with h1 | h1
      · exact write_mem_attempt io _ d _ h1
      · exact Or.inr h1
    | found x =>
      rw [hA] at h
      exact write_mem_attempt io _ d _ h
    | undef =>
      rw [hA] at h
      exact write_mem_attempt io _ d _ h
    | outOfFuel =>
      rw [hA] at h
      exact write_mem_attempt io _ d _ h

/-- Every write of the loop of `Control::getHostName` writes the same bytes, the first
`len` bytes of the buffer `query`. -/
theorem rxmitPtr_writes (C : Consts) (fuel : Nat) (query : Mem) (len xid : Nat)
    (recv : Nat → Int × Mem) (n : Nat) :
    ∀ (k : Nat) (response : Mem) (buf : List Nat) (io : List IOEvent) (d : List Nat),
      IOEvent.write d ∈ (Control.rxmitPtr C fuel query len xid recv n k response buf io).2.2.2 →
      IOEvent.write d ∈ io ∨ d = bytes query 0 len := by
  induction n with
  | zero =>
    intro k response buf io d h
    exact Or.inl h
  | succ n ih =>
    intro k response buf io d h
    rw [Control.rxmitPtr] at h
    cases hA : (Control.attemptPtr C fuel query len xid (recv k).1 (recv k).2).1 with
    | nothing =>
      rw [hA] at h
      rcases ih _ _ _ _ d h with h1 | h1
      · exact write_mem_attempt io _ d _ h1
      · exact Or.inr h1
    | found x =>
      rw [hA] at h
      exact write_mem_attempt io _ d _ h
    | undef =>
      rw [hA] at h
      exact write_mem_attempt io _ d _ h
    | outOfFuel =>
      rw [hA] at h
      exact write_mem_attempt io _ d _ h

/-- C37: within one lookup the query is built once, before the loop, and every
attempt writes the same bytes: each write of `Control::getHostByName` writes the first
`len` bytes of the query as `Control::a` left it, each write of `Control::getHostName`
those of the query as `Control::ptr` left it, `len` being the length returned; and
after the lookup, whatever datagrams were received or rejected, the buffer `query` is
still as the encoder left it. -/
theorem retransmissions_identical (C : Consts) (AF_INET : Int) (c : Control)
    (recvA recvP : Nat → Int × Mem) (h : List Nat) (fuel : Nat) (got : Int × List Nat)
    (buf : List Nat) (nlen : Nat) :
    (∀ d, IOEvent.write d ∈ (Control.getHostByName C AF_INET c recvA (some h) AF_INET).2.2 →
        d = bytes (queryA C c h).2 0 (queryA C c h).1)
      ∧ (Control.getHostByName C AF_INET c recvA (some h) AF_INET).2.1.query
          = (queryA C c h).2
      ∧ (∀ d, IOEvent.write d ∈ (Control.getHostName C fuel c recvP got buf nlen).2.2.2 →
          d = bytes (queryPtr c got.2).2 0 (queryPtr c got.2).1)
      ∧ (C.NameMax ≤ nlen → got.1 = 4 →
          (Control.getHostName C fuel c recvP got buf nlen).2.1.query
            = (queryPtr c got.2).2) := by
  refine ⟨?_, (getHostByName_state C AF_INET c recvA h).2, ?_,
    fun hn hg => (getHostName_state C fuel c recvP got buf nlen hn hg).2⟩
  · intro d hd
    unfold queryA nextId
    unfold Control.getHostByName at hd
    simp only at hd
    rw [if_neg (by simp)] at hd
    by_cases hl : (Control.a C.NameMax c.suffix c.query ((c.id + 1) % 65536) h).1 ≤ 0
    · rw [if_pos hl] at hd
      simp at hd
    · rw [if_neg hl] at hd
      simp only at hd
      rcases rxmitA_writes C _ _ _ recvA C.MaxQuery 0 c.response [] d hd with h1 | h1
      · simp at h1
      · exact h1
  · intro d hd
    unfold queryPtr nextId
    unfold Control.getHostName at hd
    by_cases h1 : nlen < C.NameMax
    · rw [if_pos h1] at hd
      simp at hd
    · rw [if_neg h1] at hd
      by_cases h2 : got.1 ≠ 4
      · rw [if_pos h2] at hd
        simp at hd
      · rw [if_neg h2] at hd
        simp only at hd
        by_cases hl : (Control.ptr c.query ((c.id + 1) % 65536) got.2).1 ≤ 0
        · rw [if_pos hl] at hd
          simp at hd
        · rw [if_neg hl] at hd
          simp only at hd
          rcases rxmitPtr_writes C fuel _ _ _ recvP C.MaxQuery 0 c.response buf [] d hd
            with h3 | h3
          · simp at h3
          · exact h3

end Resolver

/-! ## Only the received bytes matter -/

namespace Resolver

/-- A 16-bit field below `n` is the same in two buffers that agree below `n`. -/
theorem rd16_agree (m1 m2 : Mem) (n x : Nat) (hag : ∀ y, y < n → rd m1 y = rd m2 y)
    (hx : x + 1 < n) : rd16 m1 x = rd16 m2 x := by
  unfold rd16
  rw [hag x (by omega), hag (x + 1) hx]

/-- The checks on a datagram of `rlen >= 0` bytes give the same on two buffers that
agree on the first `rlen` bytes. -/
theorem validate_congr (query : Mem) (len xid : Nat) (rlen : Int) (m1 m2 : Mem)
    (h0 : 0 ≤ rlen) (hag : ∀ y, y < rlen.toNat → rd m1 y = rd m2 y) :
    Control.validate query len xid rlen m1 = Control.validate query len xid rlen m2 := by
  unfold Control.validate
  by_cases h1 : (rlen % 2 ^ 32).toNat ≤ DNSHdr.size
  · rw [if_pos h1, if_pos h1]
  · rw [if_neg h1, if_neg h1]
    have e32 : (2 : Int) ^ 32 = 4294967296 := by norm_num
    have hbig : 12 < rlen.toNat := by
      rw [e32] at h1
      unfold DNSHdr.size at h1
      omega
    have e1 : DNSHdr.getID m1 = DNSHdr.getID m2 := rd16_agree m1 m2 _ 0 hag (by omega)
    have e2 : DNSHdr.isResponse m1 = DNSHdr.isResponse m2 := by
      unfold DNSHdr.isResponse
      rw [rd16_agree m1 m2 _ 2 hag (by omega)]
    have e3 : DNSHdr.qdcount m1 = DNSHdr.qdcount m2 := rd16_agree m1 m2 _ 4 hag (by omega)
    have e4 : DNSHdr.ancount m1 = DNSHdr.ancount m2 := rd16_agree m1 m2 _ 6 hag (by omega)
    rw [e1, e2, e3, e4]
    by_cases h2 : DNSHdr.getID m2 ≠ xid ∨ (!DNSHdr.isResponse m2) = true
        ∨ DNSHdr.qdcount m2 ≠ 1 ∨ DNSHdr.ancount m2 = 0
    · rw [if_pos h2, if_pos h2]
    · rw [if_neg h2, if_neg h2]
      by_cases h3 : rlen < 0
      · rw [if_pos h3, if_pos h3]
      · rw [if_neg h3, if_neg h3]
        simp only
        have es : Control.skipName m1 DNSHdr.size rlen.toNat
            = Control.skipName m2 DNSHdr.size rlen.toNat :=
          skipNameLoop_congr m2 m1 _ _ _ (fun x _ hx => hag x hx)
        rw [es]
        cases hs : Control.skipName m2 DNSHdr.size rlen.toNat with
        | none =>
          simp only
          have eb : bytes m1 DNSHdr.size (rlen.toNat - DNSHdr.size)
              = bytes m2 DNSHdr.size (rlen.toNat - DNSHdr.size) := by
            rw [bytes_eq_iff]
            intro k hk
            unfold DNSHdr.size at hk ⊢
            exact hag _ (by omega)
          rw [eb]
        | some opt =>
          simp only
          by_cases h4 : rlen.toNat < opt + 4
          · rw [if_pos h4, if_pos h4]
          · rw [if_neg h4, if_neg h4]
            have eb : bytes m1 DNSHdr.size (opt + 4 - DNSHdr.size)
                = bytes m2 DNSHdr.size (opt + 4 - DNSHdr.size) := by
              rw [bytes_eq_iff]
              intro k hk
              unfold DNSHdr.size at hk ⊢
              exact hag _ (by omega)
            rw [eb]

/-- The loop over the answers gives the same on two buffers that agree below `end`,
the fixed part of a record taking at least 10 bytes. -/
theorem answersA_congr (C : Consts) (m1 m2 : Mem) (end_ : Nat) (hsz : 10 ≤ C.sizeofDNSRR)
    (hag : ∀ y, y < end_ → rd m1 y = rd m2 y) (n : Nat) :
    ∀ opt, Control.answersA C m1 end_ n opt = Control.answersA C m2 end_ n opt := by
  induction n with
  | zero => intro opt; rfl
  | succ n ih =>
    intro opt
    rw [Control.answersA, Control.answersA]
    have es : Control.skipName m1 opt end_ = Control.skipName m2 opt end_ :=
      skipNameLoop_congr m2 m1 _ _ _ (fun x _ hx => hag x hx)
    rw [es]
    cases hs : Control.skipName m2 opt end_ with
    | none => rfl
    | some opt1 =>
      simp only
      by_cases h1 : end_ - opt1 < C.sizeofDNSRR
      · rw [if_pos h1, if_pos h1]
        exact ih opt1
      · rw [if_neg h1, if_neg h1]
        have e1 : rd16 m1 opt1 = rd16 m2 opt1 := rd16_agree m1 m2 _ _ hag (by omega)
        have e2 : rd16 m1 (opt1 + 2) = rd16 m2 (opt1 + 2) :=
          rd16_agree m1 m2 _ _ hag (by omega)
        have e3 : rd16 m1 (opt1 + 8) = rd16 m2 (opt1 + 8) :=
          rd16_agree m1 m2 _ _ hag (by omega)
        rw [e1, e2, e3]
        by_cases h2 : rd16 m2 opt1 ≠ DNSType.A ∨ rd16 m2 (opt1 + 2) ≠ DNSClass.IN
            ∨ rd16 m2 (opt1 + 8) ≠ 4
        · rw [if_pos h2, if_pos h2]
          exact ih opt1
        · rw [if_neg h2, if_neg h2]
          by_cases h3 : end_ < opt1 + C.DNSRRSize + rd16 m2 (opt1 + 8)
          · rw [if_pos h3, if_pos h3]
          · rw [if_neg h3, if_neg h3]
            have h4 : rd16 m2 (opt1 + 8) = 4 := by
              by_contra hc
              exact h2 (Or.inr (Or.inr hc))
            have eb : bytes m1 (opt1 + C.DNSRRSize) 4 = bytes m2 (opt1 + C.DNSRRSize) 4 := by
              rw [bytes_eq_iff]
              intro k hk
              exact hag _ (by omega)
            rw [eb]

/-- An address the loop over the answers returns is four bytes of the buffer that lie
below `end`. -/
theorem answersA_found (C : Consts) (m : Mem) (end_ : Nat) (x : List Nat) (n : Nat) :
    ∀ opt, Control.answersA C m end_ n opt = .found x →
      ∃ o, x = bytes m o 4 ∧ o + 4 ≤ end_ := by
  induction n with
  | zero => intro opt h; cases h
  | succ n ih =>
    intro opt h
    rw [Control.answersA] at h
    cases hs : Control.skipName m opt end_ with
    | none => rw [hs] at h; cases h
    | some opt1 =>
      rw [hs] at h
      simp only at h
      by_cases h1 : end_ - opt1 < C.sizeofDNSRR
      · rw [if_pos h1] at h
        exact ih opt1 h
      · rw [if_neg h1] at h
        by_cases h2 : rd16 m opt1 ≠ DNSType.A ∨ rd16 m (opt1 + 2) ≠ DNSClass.IN
            ∨ rd16 m (opt1 + 8) ≠ 4
        · rw [if_pos h2] at h
          exact ih opt1 h
        · rw [if_neg h2] at h
          have h4 : rd16 m (opt1 + 8) = 4 := by
            by_contra hc
            exact h2 (Or.inr (Or.inr hc))
          by_cases h3 : end_ < opt1 + C.DNSRRSize + rd16 m (opt1 + 8)
          · rw [if_pos h3] at h
            cases h
          · rw [if_neg h3] at h
            simp only [Outcome.found.injEq] at h
            exact ⟨opt1 + C.DNSRRSize, h.symm, by omega⟩

/-- What `Control::getHostByName` does with a datagram of `rlen >= 0` bytes is the same
on two buffers that agree on the first `rlen` bytes. -/
theorem attemptA_congr (C : Consts) (query : Mem) (len xid : Nat) (rlen : Int)
    (m1 m2 : Mem) (hsz : 10 ≤ C.sizeofDNSRR) (h0 : 0 ≤ rlen)
    (hag : ∀ y, y < rlen.toNat → rd m1 y = rd m2 y) :
    Control.attemptA C query len xid rlen m1 = Control.attemptA C query len xid rlen m2 := by
  unfold Control.attemptA
  rw [validate_congr query len xid rlen m1 m2 h0 hag]
  cases hv : Control.validate query len xid rlen m2 with
  | nothing => rfl
  | undef => rfl
  | outOfFuel => rfl
  | found opt =>
    simp only
    have hok := (validate_found _ _ _ _ _ opt hv).1
    have hbig : 7 < rlen.toNat := by
      have := hok.1
      omega
    rw [show DNSHdr.ancount m1 = DNSHdr.ancount m2 from rd16_agree m1 m2 _ 6 hag (by omega)]
    exact answersA_congr C m1 m2 _ hsz hag _ opt

/-- The loop of `Control::getHostByName` returns the same and makes the same socket
calls on two sockets whose reads return the same lengths, none negative, and buffers
that agree on the bytes received. -/
theorem rxmitA_congr (C : Consts) (query : Mem) (len xid : Nat)
    (recv1 recv2 : Nat → Int × Mem) (hsz : 10 ≤ C.sizeofDNSRR)
    (hlen : ∀ k, (recv1 k).1 = (recv2 k).1 ∧ 0 ≤ (recv1 k).1)
    (hag : ∀ k y, y < (recv1 k).1.toNat → rd (recv1 k).2 y = rd (recv2 k).2 y) (n : Nat) :
    ∀ (k : Nat) (r1 r2 : Mem) (io : List IOEvent),
      (Control.rxmitA C query len xid recv1 n k r1 io).1
          = (Control.rxmitA C query len xid recv2 n k r2 io).1
        ∧ (Control.rxmitA C query len xid recv1 n k r1 io).2.2
          = (Control.rxmitA C query len xid recv2 n k r2 io).2.2 := by
  induction n with
  | zero => intro k r1 r2 io; exact ⟨rfl, rfl⟩
  | succ n ih =>
    intro k r1 r2 io
    rw [Control.rxmitA, Control.rxmitA]
    have e : Control.attemptA C query len xid (recv1 k).1 (recv1 k).2
        = Control.attemptA C query len xid (recv2 k).1 (recv2 k).2 := by
      rw [← (hlen k).1]
      exact attemptA_congr C query len xid _ _ _ hsz (hlen k).2 (hag k)
    rw [e]
    cases hA : Control.attemptA C query len xid (recv2 k).1 (recv2 k).2 with
    | nothing => exact ih _ _ _ _
    | found x => exact ⟨rfl, rfl⟩
    | undef => exact ⟨rfl, rfl⟩
    | outOfFuel => exact ⟨rfl, rfl⟩

/-- C33: two runs of `Control::getHostByName` on the same connection state (so with the
same transaction id), the same host name and address family, whose reads return the
same lengths, none negative, and leave response buffers that agree on the first `rlen`
bytes after each read, return the same result and make the same socket calls, whatever
the buffers hold from offset `rlen` on; and an address returned is four bytes of the
datagram of some attempt that lie wholly below its `rlen`.  The fixed part of a record
is taken to have at least 10 bytes.  Where a run ends in the use of the null pointer of
`skipName` (the outcome `undef`), the other run ends so at the same attempt; what
follows such a use is not described. -/
theorem received_bytes_decide (C : Consts) (AF_INET : Int) (c : Control)
    (recv1 recv2 : Nat → Int × Mem) (hostName : Option (List Nat)) (af : Int)
    (hsz : 10 ≤ C.sizeofDNSRR)
    (hlen : ∀ k, (recv1 k).1 = (recv2 k).1 ∧ 0 ≤ (recv1 k).1)
    (hag : ∀ k y, y < (recv1 k).1.toNat → rd (recv1 k).2 y = rd (recv2 k).2 y) :
    (Control.getHostByName C AF_INET c recv1 hostName af).1
        = (Control.getHostByName C AF_INET c recv2 hostName af).1
      ∧ (Control.getHostByName C AF_INET c recv1 hostName af).2.2
        = (Control.getHostByName C AF_INET c recv2 hostName af).2.2
      ∧ ∀ x, (Control.getHostByName C AF_INET c recv1 hostName af).1 = .found x →
          ∃ j o, j < C.MaxQuery ∧ x = bytes (recv1 j).2 o 4
            ∧ o + 4 ≤ (recv1 j).1.toNat := by
  refine ⟨?_, ?_, ?_⟩
  · unfold Control.getHostByName
    cases hostName with
    | none => rfl
    | some h =>
      simp only
      by_cases h1 : af ≠ AF_INET
      · rw [if_pos h1, if_pos h1]
      · rw [if_neg h1, if_neg h1]
        by_cases hl : (Control.a C.NameMax c.suffix c.query ((c.id + 1) % 65536) h).1 ≤ 0
        · rw [if_pos hl, if_pos hl]
        · rw [if_neg hl, if_neg hl]
          exact (rxmitA_congr C _ _ _ recv1 recv2 hsz hlen hag C.MaxQuery 0 c.response
            c.response []).1
  · unfold Control.getHostByName
    cases hostName with
    | none => rfl
    | some h =>
      simp only
      by_cases h1 : af ≠ AF_INET
      · rw [if_pos h1, if_pos h1]
      · rw [if_neg h1, if_neg h1]
        by_cases hl : (Control.a C.NameMax c.suffix c.query ((c.id + 1) % 65536) h).1 ≤ 0
        · rw [if_pos hl, if_pos hl]
        · rw [if_neg hl, if_neg hl]
          exact (rxmitA_congr C _ _ _ recv1 recv2 hsz hlen hag C.MaxQuery 0 c.response
            c.response []).2
  · intro x hx
    obtain ⟨hn, j, -, h2, -, h4⟩ := getHostByName_found C AF_INET c recv1 hostName af x hx
    obtain ⟨opt, hv⟩ := attemptA_found C _ _ _ _ _ x h4
    unfold Control.attemptA at h4
    rw [hv] at h4
    obtain ⟨o, e1, e2⟩ := answersA_found C _ _ x _ opt h4
    exact ⟨j, o, h2, e1, e2⟩

/-- C33 at a concrete input: the reply `sampleReplyExample` of 45 bytes, and the same
reply followed by other bytes in the buffer. -/
theorem received_bytes_decide_witness :
    (Control.getHostByName sampleConsts 2 sampleControl sampleRecvExample
        (some exampleCom) 2).1
      = (Control.getHostByName sampleConsts 2 sampleControl
          (fun _ => (45, ofList (sampleReplyExample ++ [9, 9, 9]))) (some exampleCom) 2).1 :=
  (received_bytes_decide sampleConsts 2 sampleControl sampleRecvExample
    (fun _ => (45, ofList (sampleReplyExample ++ [9, 9, 9]))) (some exampleCom) 2
    (by decide) (fun _ => ⟨rfl, by show (0 : Int) ≤ 45; decide⟩)
    (by
      intro k y hy
      have hy2 : y < 45 := hy
      interval_cases y <;> rfl)).1

end Resolver

/-! ## `Control::copyName` across a compression pointer -/

namespace Resolver

/-- One pass of `Control::copyName` over a compression pointer inside the message: the
cursor moves to the message start plus the low 14 bits of the big-endian 16-bit value
at the cursor; budget and text stay. -/
theorem copyNameStep_pointer_at (m : Mem) (dns end_ : Nat) (s : Control.CopyState)
    (hin : dns ≤ s.ptr) (hend : s.ptr < end_) (h : 192 ≤ rd m s.ptr) :
    ∃ s1, Control.copyNameStep m dns end_ s = .next s1
      ∧ s1.ptr = dns + ((rd m s.ptr * 256 + rd m (s.ptr + 1)) &&& 0x3fff)
      ∧ s1.namelen = s.namelen ∧ s1.name = s.name := by
  unfold Control.copyNameStep
  have hc := ((land_c0 (rd m s.ptr) (rd_lt m s.ptr)).2).mpr h
  have h2 : rd m s.ptr &&& 0xc0 ≠ 0 := by rw [hc]; decide
  have h3 : ¬ (rd m s.ptr &&& 0xc0 ≠ 0xc0) := by rw [hc]; simp
  rw [if_pos ⟨hin, hend⟩]
  simp only
  rw [if_pos h2, if_neg h3]
  exact ⟨_, rfl, rfl, rfl, rfl⟩

/-- A pass of `Control::copyName` never raises the budget. -/
theorem copyNameStep_budget (m : Mem) (dns end_ : Nat) (s : Control.CopyState) :
    match Control.copyNameStep m dns end_ s with
    | .next s1 => s1.namelen ≤ s.namelen
    | .ret _ s1 => s1.namelen ≤ s.namelen := by
  simp only [Control.copyNameStep]
  split_ifs <;> simp only <;> omega

/-- The budget `Control::copyName` returns with is at most the one it had. -/
theorem copyNameRun_budget (m : Mem) (dns end_ : Nat) (fuel : Nat) :
    ∀ (s st : Control.CopyState) (r : Bool),
      Control.copyNameRun m dns end_ fuel s = some (r, st) → st.namelen ≤ s.namelen := by
  induction fuel with
  | zero => intro s st r h; simp [Control.copyNameRun] at h
  | succ fuel ih =>
    intro s st r h
    rw [Control.copyNameRun] at h
    have hb := copyNameStep_budget m dns end_ s
    generalize Control.copyNameStep m dns end_ s = c at h hb
    cases c with
    | next s1 =>
      simp only at h hb
      have := ih s1 st r h
      omega
    | ret r1 s1 =>
      simp only [Option.some.injEq, Prod.mk.injEq] at h hb
      rw [← h.2]
      exact hb

/-- A pass of `Control::copyName` from a state with `d` bytes less budget and the text
`pre` before its own does the same, as long as the budget it leaves is at least `d`. -/
theorem copyNameStep_shift (m : Mem) (dns end_ : Nat) (s s2 : Control.CopyState)
    (pre : List Nat) (d : Nat) (hp : s2.ptr = s.ptr) (hn : s2.namelen + d = s.namelen)
    (hname : s2.name = pre ++ s.name) :
    match Control.copyNameStep m dns end_ s with
    | .next s1 => d ≤ s1.namelen →
        ∃ t1, Control.copyNameStep m dns end_ s2 = .next t1 ∧ t1.ptr = s1.ptr
          ∧ t1.namelen + d = s1.namelen ∧ t1.name = pre ++ s1.name
    | .ret r s1 => r = true → d ≤ s1.namelen →
        ∃ t1, Control.copyNameStep m dns end_ s2 = .ret true t1
          ∧ t1.namelen + d = s1.namelen ∧ t1.name = pre ++ s1.name := by
  simp only [Control.copyNameStep, hp, hname]
  split_ifs with h1 h2 h3 h4 h5 h6 h7 h8 h9 h10 <;> simp only
  all_goals first | (intro hr; cases hr) | skip
  all_goals intro hd
  all_goals first
    | (exfalso; omega)
    | exact ⟨_, rfl, rfl, by dsimp only; omega, by simp⟩
    | exact ⟨_, rfl, by dsimp only; omega, by simp⟩

/-- A successful run of `Control::copyName` succeeds as well from a state with `d`
bytes less budget and the text `pre` before its own, when the budget it leaves is at
least `d`; it then stores the same text after `pre`. -/
theorem copyNameRun_shift (m : Mem) (dns end_ : Nat) (pre : List Nat) (d : Nat)
    (fuel : Nat) :
    ∀ (s s2 st : Control.CopyState), s2.ptr = s.ptr → s2.namelen + d = s.namelen →
      s2.name = pre ++ s.name →
      Control.copyNameRun m dns end_ fuel s = some (true, st) → d ≤ st.namelen →
      ∃ t, Control.copyNameRun m dns end_ fuel s2 = some (true, t)
        ∧ t.name = pre ++ st.name := by
  induction fuel with
  | zero => intro s s2 st _ _ _ h; simp [Control.copyNameRun] at h
  | succ fuel ih =>
    intro s s2 st hp hn hname h hd
    rw [Control.copyNameRun] at h ⊢
    have hsh := copyNameStep_shift m dns end_ s s2 pre d hp hn hname
    generalize Control.copyNameStep m dns end_ s = c at h hsh
    cases c with
    | next s1 =>
      simp only at h hsh
      have hb := copyNameRun_budget m dns end_ fuel s1 st true h
      obtain ⟨t1, e1, e2, e3, e4⟩ := hsh (by omega)
      rw [e1]
      exact ih s1 t1 st e2 e3 e4 h hd
    | ret r s1 =>
      simp only [Option.some.injEq, Prod.mk.injEq] at h hsh
      obtain ⟨hr, hs1⟩ := h
      subst hr
      subst hs1
      obtain ⟨t1, e1, -, e3⟩ := hsh rfl hd
      rw [e1]
      exact ⟨t1, rfl, e3⟩

/-- Over labels of 1 to 63 bytes that are followed by a nonzero byte inside the
message `Control::copyName` makes one pass per label, storing each label and a dot. -/
theorem copyNameIter_labels (m : Mem) (dns end_ : Nat) (ls : List (List Nat)) :
    ∀ (s : Control.CopyState), dns ≤ s.ptr →
      (∀ l ∈ ls, 1 ≤ l.length ∧ l.length ≤ 63) → LabelsAt m s.ptr ls →
      s.ptr + encLen ls < end_ → rd m (s.ptr + encLen ls) ≠ 0 → encLen ls ≤ s.namelen →
      ∃ s1, Control.copyNameIter m dns end_ ls.length s = some s1
        ∧ s1.ptr = s.ptr + encLen ls ∧ s1.namelen + encLen ls = s.namelen
        ∧ s1.name = s.name ++ dottedPrefix (ls.map (fun l => l.map (· % 256))) := by
  induction ls with
  | nil =>
    intro s _ _ _ _ _ _
    exact ⟨s, rfl, rfl, rfl, by simp [dottedPrefix]⟩
  | cons l ls ih =>
    intro s hdns hlen hl hend hnz hbud
    obtain ⟨h1, h2, h3⟩ := hl
    have hb := hlen l (List.mem_cons_self _ _)
    rw [encLen] at hend hnz hbud
    have hnext : rd m (s.ptr + 1 + l.length) ≠ 0 := by
      cases ls with
      | nil =>
        rw [encLen, Nat.add_zero] at hnz
        have e : s.ptr + (1 + l.length) = s.ptr + 1 + l.length := by omega
        rw [e] at hnz
        exact hnz
      | cons l2 rest =>
        have := hlen l2 (List.mem_cons_of_mem _ (List.mem_cons_self _ _))
        rw [h3.1]
        omega
    have hstep := copyNameStep_label m dns end_ s l.length hdns h1 (by omega) (by omega)
      (by omega)
    rw [if_pos hnext] at hstep
    have e2 : s.ptr + (1 + l.length + encLen ls) = s.ptr + 1 + l.length + encLen ls := by
      omega
    rw [e2] at hend hnz
    obtain ⟨s1, g1, g2, g3, g4⟩ := ih (Control.CopyState.mk (s.ptr + 1 + l.length)
      (s.namelen - (l.length + 1)) (s.name ++ bytes m (s.ptr + 1) l.length ++ [dotChar])
      (s.reads ++ [s.ptr] ++ (List.range l.length).map (fun k => s.ptr + 1 + k)
        ++ [s.ptr + 1 + l.length])) (by dsimp only; omega)
      (fun l2 h => hlen l2 (List.mem_cons_of_mem _ h)) h3 hend hnz (by dsimp only; omega)
    refine ⟨s1, ?_, ?_, ?_, ?_⟩
    · rw [List.length_cons, Control.copyNameIter, hstep]
      exact g1
    · rw [g2, encLen]; dsimp only; omega
    · rw [encLen]; dsimp only at g3; omega
    · rw [g4]
      simp only [List.map_cons, dottedPrefix, h2, List.append_assoc, List.singleton_append,
        List.cons_append, List.nil_append]

/-- C31: if the name at offset `p` of the message consists of standard labels `l1 ..
lk` of 1 to 63 bytes followed by a two-byte pointer that starts before `end` and whose
big-endian value masked with 0x3FFF is `q`, `Control::copyName` started at
`messageStart + q` returns `true` with the text `t` (and its NUL), and the combined
size, one byte per label more than the labels plus the size of `t` with its NUL, is
within `NameMax`, then `Control::copyName` started at `messageStart + p` returns `true`
with the text `l1.l2. ... lk.t`; and in every pass at a pointer the cursor moves to
`messageStart + (value & 0x3FFF)`, the value being the byte at the cursor times 256
plus the byte after it. -/
theorem compression_pointer_semantics (NameMax : Nat) (m : Mem) (dns p end_ : Nat)
    (ls : List (List Nat)) (q f : Nat) (stq : Control.CopyState)
    (hlen : ∀ l ∈ ls, 1 ≤ l.length ∧ l.length ≤ 63) (hb : ∀ l ∈ ls, ∀ c ∈ l, c < 256)
    (hl : LabelsAt m (dns + p) ls) (hin : dns + p + encLen ls < end_)
    (hptr : 192 ≤ rd m (dns + p + encLen ls))
    (hq : (rd m (dns + p + encLen ls) * 256 + rd m (dns + p + encLen ls + 1)) &&& 0x3fff = q)
    (hrun : Control.copyName NameMax m dns (dns + q) end_ f = some (true, stq))
    (hsize : encLen ls + stq.name.length ≤ NameMax) :
    (∃ st, Control.copyName NameMax m dns (dns + p) end_ (ls.length + (f + 1))
          = some (true, st)
        ∧ st.name = dottedPrefix ls ++ stq.name)
      ∧ ∀ s : Control.CopyState, dns ≤ s.ptr → s.ptr < end_ → 192 ≤ rd m s.ptr →
          ∃ s1, Control.copyNameStep m dns end_ s = .next s1
            ∧ s1.ptr = dns + ((rd m s.ptr * 256 + rd m (s.ptr + 1)) &&& 0x3fff) := by
  refine ⟨?_, ?_⟩
  · unfold Control.copyName at hrun ⊢
    have hinv := (copyNameRun_inv m dns end_ f _ true stq hrun).1
    have hinit : (Control.copyInit NameMax (dns + q)).name.length
        + (Control.copyInit NameMax (dns + q)).namelen = NameMax := by
      simp [Control.copyInit]
    rw [hinit] at hinv
    obtain ⟨s1, g1, g2, g3, g4⟩ := copyNameIter_labels m dns end_ ls
      (Control.copyInit NameMax (dns + p)) (Nat.le_add_right _ _) hlen hl hin
      (by show rd m (dns + p + encLen ls) ≠ 0; omega)
      (by show encLen ls ≤ NameMax; omega)
    have hp1 : s1.ptr = dns + p + encLen ls := g2
    have hn1 : s1.namelen + encLen ls = NameMax := g3
    have hname1 : s1.name = dottedPrefix ls := by
      rw [g4, map_map_mod_id ls hb]
      simp [Control.copyInit]
    obtain ⟨s2, e1, e2, e3, e4⟩ := copyNameStep_pointer_at m dns end_ s1 (by omega)
      (by omega) (by rw [hp1]; exact hptr)
    rw [hp1, hq] at e2
    obtain ⟨t, ht1, ht2⟩ := copyNameRun_shift m dns end_ (dottedPrefix ls) (encLen ls) f
      (Control.copyInit NameMax (dns + q)) s2 stq e2 (by rw [e3]; exact hn1)
      (by rw [e4, hname1]; simp [Control.copyInit]) hrun (by omega)
    refine ⟨t, ?_, ht2⟩
    rw [copyNameRun_of_iter m dns end_ ls.length (f + 1) _ s1 g1, Control.copyNameRun, e1]
    exact ht1
  · intro s h1 h2 h3
    obtain ⟨s1, e1, e2, -⟩ := copyNameStep_pointer_at m dns end_ s h1 h2 h3
    exact ⟨s1, e1, e2⟩

/-- C31 at a concrete input: in the message `03 'com' 00 03 'www' C0 00` the name at
offset 5 is the label `www` and a pointer to offset 0, where `com` stands; started at
offset 5 `Control::copyName` stores `www.com`. -/
theorem compression_pointer_semantics_witness :
    ∃ st, Control.copyName 255 (ofList [3, 99, 111, 109, 0, 3, 119, 119, 119, 0xC0, 0]) 0
          (0 + 5) 11 ([[119, 119, 119]].length + (1 + 1)) = some (true, st)
      ∧ st.name = dottedPrefix [[119, 119, 119]] ++ [99, 111, 109, 0] :=
  (compression_pointer_semantics 255 (ofList [3, 99, 111, 109, 0, 3, 119, 119, 119, 0xC0, 0])
    0 5 11 [[119, 119, 119]] 0 1 (Control.CopyState.mk 4 251 [99, 111, 109, 0] [0, 1, 2, 3, 4])
    (by decide) (by decide) ⟨by decide, by decide, trivial⟩ (by decide) (by decide)
    (by decide) (by decide) (by decide)).1

end Resolver

/-! ## The offsets the encoders write to -/

namespace Resolver

/-- The inner loop of `Control::a` writes only at offsets `x` from its cursor on with
`x + 1 < org + NameMax`, and where it stored a character its cursor ends below
`org + NameMax`. -/
theorem aLabel_frame (NameMax org : Nat) (hn : List Nat) :
    ∀ (i opt : Nat) (q : Mem), org ≤ opt →
      match Control.aLabel NameMax org hn i opt q with
      | .error q1 => ∀ x, x < opt ∨ org + NameMax ≤ x + 1 → rd q1 x = rd q x
      | .ok (i1, o1, q1, _) =>
        (∀ x, x < opt ∨ org + NameMax ≤ x + 1 → rd q1 x = rd q x)
          ∧ (i1 = i → o1 = opt) ∧ (i1 ≠ i → opt < o1 ∧ o1 < org + NameMax) ∧ i ≤ i1 := by
  induction hn with
  | nil =>
    intro i opt q _
    rw [Control.aLabel]
    exact ⟨fun _ _ => rfl, fun _ => rfl, fun h => absurd rfl h, le_refl _⟩
  | cons c cs ih =>
    intro i opt q horg
    rw [Control.aLabel]
    by_cases h1 : c = 0 ∨ c = dotChar
    · rw [if_pos h1]
      exact ⟨fun _ _ => rfl, fun _ => rfl, fun h => absurd rfl h, le_refl _⟩
    · rw [if_neg h1]
      by_cases h2 : DNSHdr.LabelMax ≤ i ∨ NameMax - 1 ≤ opt - org
      · rw [if_pos h2]
        exact fun _ _ => rfl
      · rw [if_neg h2]
        have hroom : opt + 1 < org + NameMax := by
          by_contra hc
          exact h2 (Or.inr (by omega))
        have := ih (i + 1) (opt + 1) (wr q opt c) (by omega)
        generalize Control.aLabel NameMax org cs (i + 1) (opt + 1) (wr q opt c) = r at this
        cases r with
        | error q1 =>
          simp only at this ⊢
          intro x hx
          rw [this x (by omega), rd_wr, if_neg (by omega)]
        | ok v =>
          obtain ⟨i1, o1, q1, rest⟩ := v
          simp only at this ⊢
          obtain ⟨f1, f2, f3, f4⟩ := this
          refine ⟨?_, ?_, ?_, by omega⟩
          · intro x hx
            rw [f1 x (by omega), rd_wr, if_neg (by omega)]
          · intro h
            omega
          · intro _
            by_cases h5 : i1 = i + 1
            · have := f2 h5
              omega
            · have := f3 h5
              omega

/-- The outer loop of `Control::a` writes only at offsets `x` from its cursor on with
`x + 1 < org + NameMax`; its cursor ends where it was or at least 2 higher, and at `org`
or below `org + NameMax`. -/
theorem aLoop_frame (NameMax : Nat) (suffix : List Nat) (org : Nat) (fuel : Nat) :
    ∀ (hn : List Nat) (dot : Bool) (opt : Nat) (q : Mem), org ≤ opt →
      (opt = org ∨ opt < org + NameMax) →
      match Control.aLoop NameMax suffix org fuel hn dot opt q with
      | .error q1 => ∀ x, x < opt ∨ org + NameMax ≤ x + 1 → rd q1 x = rd q x
      | .ok (o1, q1) =>
        (∀ x, x < opt ∨ org + NameMax ≤ x + 1 → rd q1 x = rd q x)
          ∧ (o1 = opt ∨ opt + 2 ≤ o1) ∧ (o1 = org ∨ o1 < org + NameMax) := by
  induction fuel with
  | zero =>
    intro hn dot opt q _ h2
    rw [Control.aLoop]
    exact ⟨fun _ _ => rfl, Or.inl rfl, h2⟩
  | succ fuel ih =>
    intro hn dot opt q horg h2
    rw [Control.aLoop]
    by_cases h0 : hn.headD 0 = 0
    · rw [if_pos h0]
      exact ⟨fun _ _ => rfl, Or.inl rfl, h2⟩
    · rw [if_neg h0]
      simp only
      have hl := aLabel_frame NameMax org hn 0 (opt + 1) q (by omega)
      generalize Control.aLabel NameMax org hn 0 (opt + 1) q = r at hl
      cases r with
      | error q1 =>
        simp only at hl ⊢
        intro x hx
        exact hl x (by omega)
      | ok v =>
        obtain ⟨i, opt1, q1, rest⟩ := v
        simp only at hl ⊢
        obtain ⟨f1, f2, f3, -⟩ := hl
        by_cases hi : i = 0
        · rw [if_pos hi]
          intro x hx
          exact f1 x (by omega)
        · rw [if_neg hi]
          obtain ⟨g1, g2⟩ := f3 hi
          have key : ∀ (X : List Nat) (d : Bool),
              match Control.aLoop NameMax suffix org fuel X d opt1 (wr q1 opt i) with
              | .error q3 => ∀ x, x < opt ∨ org + NameMax ≤ x + 1 → rd q3 x = rd q x
              | .ok (o1, q3) =>
                (∀ x, x < opt ∨ org + NameMax ≤ x + 1 → rd q3 x = rd q x)
                  ∧ (o1 = opt ∨ opt + 2 ≤ o1) ∧ (o1 = org ∨ o1 < org + NameMax) := by
            intro X d
            have := ih X d opt1 (wr q1 opt i) (by omega) (Or.inr g2)
            generalize Control.aLoop NameMax suffix org fuel X d opt1 (wr q1 opt i) = r2
              at this
            cases r2 with
            | error q3 =>
              simp only at this ⊢
              intro x hx
              rw [this x (by omega), rd_wr, if_neg (by omega)]
              exact f1 x (by omega)
            | ok w =>
              obtain ⟨o1, q3⟩ := w
              simp only at this ⊢
              obtain ⟨k1, k2, k3⟩ := this
              refine ⟨?_, by omega, k3⟩
              intro x hx
              rw [k1 x (by omega), rd_wr, if_neg (by omega)]
              exact f1 x (by omega)
          split_ifs
          · exact key _ _
          · exact key _ _
          · exact key _ _

/-- Whether it succeeds or not, `Control::a` leaves the query buffer as it was from
offset `12 + NameMax + 4` on; and a positive length it returns is at least 19 and at
most `12 + NameMax + 4`. -/
theorem a_frame (NameMax : Nat) (s : List Nat) (q : Mem) (id : Nat) (h : List Nat) :
    (∀ x, 12 + NameMax + 4 ≤ x → rd (Control.a NameMax s q id h).2 x = rd q x)
      ∧ (0 < (Control.a NameMax s q id h).1 →
          19 ≤ (Control.a NameMax s q id h).1
            ∧ (Control.a NameMax s q id h).1 ≤ 12 + NameMax + 4) := by
  unfold Control.a
  simp only [DNSHdr.size]
  have hf := aLoop_frame NameMax s 12 (h.length + s.length) h false 12
    (Control.stampHeader q id) (le_refl _) (Or.inl rfl)
  generalize Control.aLoop NameMax s 12 (h.length + s.length) h false 12
    (Control.stampHeader q id) = r at hf
  cases r with
  | error q1 =>
    simp only at hf ⊢
    refine ⟨?_, fun h0 => absurd h0 (Nat.lt_irrefl 0)⟩
    intro x hx
    rw [hf x (by omega), rd_stampHeader_frame q id x (by omega)]
  | ok v =>
    obtain ⟨opt, q1⟩ := v
    simp only at hf ⊢
    obtain ⟨f1, f2, f3⟩ := hf
    by_cases ho : opt = 12
    · rw [if_pos ho]
      refine ⟨?_, fun h0 => absurd h0 (Nat.lt_irrefl 0)⟩
      intro x hx
      rw [f1 x (by omega), rd_stampHeader_frame q id x (by omega)]
    · rw [if_neg ho]
      refine ⟨?_, fun _ => by dsimp only; omega⟩
      intro x hx
      dsimp only
      rw [rd_wr16, if_neg (by omega), if_neg (by omega), rd_wr16, if_neg (by omega),
        if_neg (by omega), rd_wr, if_neg (by omega), f1 x (by omega),
        rd_stampHeader_frame q id x (by omega)]

/-- The loop of `Control::ptr` leaves the buffer as it was above the cursor it ends
at. -/
theorem ptrLoop_frame (h : Nat) (n : Nat) :
    ∀ (i opt : Nat) (q : Mem) (x : Nat), (Control.ptrLoop h n i opt q).1 < x →
      rd (Control.ptrLoop h n i opt q).2 x = rd q x := by
  induction n with
  | zero => intro i opt q x _; rfl
  | succ n ih =>
    intro i opt q x hx
    have hd := decimal_length (h / 2 ^ (8 * i) % 256)
    rw [Control.ptrLoop] at hx ⊢
    have hcount : rd (wr (wr (Control.wrList q (opt + 1)
        (Control.decimal (h / 2 ^ (8 * i) % 256)))
        (opt + 1 + (Control.decimal (h / 2 ^ (8 * i) % 256)).length) 0) opt
        (Control.decimal (h / 2 ^ (8 * i) % 256)).length) opt
        = (Control.decimal (h / 2 ^ (8 * i) % 256)).length := by
      rw [rd_wr, if_pos rfl]
      omega
    rw [hcount] at hx ⊢
    have hs := (ptrLoop_spec h n (i + 1)
      (opt + 1 + (Control.decimal (h / 2 ^ (8 * i) % 256)).length)
      (wr (wr (Control.wrList q (opt + 1) (Control.decimal (h / 2 ^ (8 * i) % 256)))
        (opt + 1 + (Control.decimal (h / 2 ^ (8 * i) % 256)).length) 0) opt
        (Control.decimal (h / 2 ^ (8 * i) % 256)).length)).1
    rw [ih _ _ _ x hx, rd_wr, if_neg (by omega), rd_wr, if_neg (by omega), rd_wrList,
      if_neg (by omega)]

/-- `Control::ptr` leaves the query buffer as it was from offset 46 on. -/
theorem ptr_frame (q : Mem) (id : Nat) (addr : List Nat) :
    ∀ x, 46 ≤ x → rd (Control.ptr q id addr).2 x = rd q x := by
  intro x hx
  obtain ⟨e1, -, -⟩ := ptrLoop_spec (Control.hostOrder addr) 4 0 12 (Control.stampHeader q id)
  have hf := ptrLoop_frame (Control.hostOrder addr) 4 0 12 (Control.stampHeader q id) x
  have hb : encLen (octetLabels (Control.hostOrder addr) 4 0) ≤ 16 := by
    have d0 := decimal_length (Control.hostOrder addr % 256)
    have d1 := decimal_length (Control.hostOrder addr / 2 ^ 8 % 256)
    have d2 := decimal_length (Control.hostOrder addr / 2 ^ 16 % 256)
    have d3 := decimal_length (Control.hostOrder addr / 2 ^ 24 % 256)
    rw [octetLabels_four]
    simp only [encLen]
    omega
  unfold Control.ptr
  simp only [DNSHdr.size]
  generalize Control.ptrLoop (Control.hostOrder addr) 4 0 12 (Control.stampHeader q id) = P
    at e1 hf
  obtain ⟨o, q4⟩ := P
  simp only at e1 hf ⊢
  rw [rd_ptr_tail, if_pos (Or.inr (by omega)), hf (by omega),
    rd_stampHeader_frame q id x (by omega)]

/-- C35: on every call, successful or not, `Control::a` leaves the query buffer as it
was from offset `12 + NameMax + 4` on, and `Control::ptr` from offset 46 on: neither
writes there; every positive value `Control::a` returns is at least 19 and at most
`12 + NameMax + 4`; so with `NameMax = 255` nothing is written at or beyond offset
512. -/
theorem query_buffer_bound (NameMax : Nat) (s : List Nat) (q : Mem) (id : Nat)
    (h : List Nat) (addr : List Nat) :
    (∀ x, 12 + NameMax + 4 ≤ x → rd (Control.a NameMax s q id h).2 x = rd q x)
      ∧ (0 < (Control.a NameMax s q id h).1 →
          19 ≤ (Control.a NameMax s q id h).1
            ∧ (Control.a NameMax s q id h).1 ≤ 12 + NameMax + 4)
      ∧ (∀ x, 46 ≤ x → rd (Control.ptr q id addr).2 x = rd q x)
      ∧ (NameMax = 255 → ∀ x, 512 ≤ x →
          rd (Control.a NameMax s q id h).2 x = rd q x
            ∧ rd (Control.ptr q id addr).2 x = rd q x) := by
  obtain ⟨a1, a2⟩ := a_frame NameMax s q id h
  refine ⟨a1, a2, ptr_frame q id addr, ?_⟩
  intro hN x hx
  exact ⟨a1 x (by omega), ptr_frame q id addr x (by omega)⟩

end Resolver

/-! ## Names with dots and the suffix -/

namespace Resolver

/-- A name that contains a dot is encoded in the same way whatever the suffix is. -/
theorem a_dotted (NameMax : Nat) (s1 s2 : List Nat) (q : Mem) (id : Nat) (h : List Nat)
    (hh : IsCStr h) (hs1 : IsCStr s1) (hs2 : IsCStr s2) (hd : dotChar ∈ h) :
    Control.a NameMax s1 q id h = Control.a NameMax s2 q id h := by
  have hne : h ≠ [] := List.ne_nil_of_mem hd
  have e1 : effectiveName s1 h = h := by unfold effectiveName; rw [if_pos (Or.inl hd)]
  have e2 : effectiveName s2 h = h := by unfold effectiveName; rw [if_pos (Or.inl hd)]
  have g1 := aLoop_effective NameMax s1 12 h hh hne hs1 (h.length + s1.length) h.length
    (le_refl _) (by rw [e1]) 12 (Control.stampHeader q id)
  have g2 := aLoop_effective NameMax s2 12 h hh hne hs2 (h.length + s2.length) h.length
    (le_refl _) (by rw [e2]) 12 (Control.stampHeader q id)
  rw [e1] at g1
  rw [e2] at g2
  unfold Control.a
  simp only [DNSHdr.size]
  rw [g1, g2, aLoop_suffix_irrel NameMax s1 s2]

/-- A trailing dot does not change the labels of a name that does not end in a dot. -/
theorem labelsOf_append_dot (h : List Nat) (hl : h.getLast? ≠ some dotChar) :
    labelsOf (h ++ [dotChar]) = labelsOf h := by
  unfold labelsOf stripDot
  rw [if_pos (List.getLast?_concat h), List.dropLast_concat, if_neg hl]

/-- Two buffers that hold the same labels at `p` agree on the bytes of their wire
form. -/
theorem labelsAt_rd_eq (m1 m2 : Mem) (ls : List (List Nat)) :
    ∀ p, LabelsAt m1 p ls → LabelsAt m2 p ls →
      ∀ x, p ≤ x → x < p + encLen ls → rd m1 x = rd m2 x := by
  induction ls with
  | nil =>
    intro p _ _ x h1 h2
    rw [encLen] at h2
    omega
  | cons l ls ih =>
    intro p h1 h2 x hx1 hx2
    obtain ⟨a1, a2, a3⟩ := h1
    obtain ⟨b1, b2, b3⟩ := h2
    rw [encLen] at hx2
    by_cases hx : x = p
    · rw [hx, a1, b1]
    · by_cases hx3 : x < p + 1 + l.length
      · have hb : bytes m1 (p + 1) l.length = bytes m2 (p + 1) l.length := by rw [a2, b2]
        have := (bytes_eq_iff _ _ _ _ _).mp hb (x - (p + 1)) (by omega)
        have e : p + 1 + (x - (p + 1)) = x := by omega
        rw [e] at this
        exact this
      · exact ih (p + 1 + l.length) a3 b3 x (by omega) (by omega)

/-- Two buffers with the same 16-bit value at an offset agree on its two bytes. -/
theorem rd16_bytes_eq (m1 m2 : Mem) (a v : Nat) (h1 : rd16 m1 a = v) (h2 : rd16 m2 a = v) :
    rd m1 a = rd m2 a ∧ rd m1 (a + 1) = rd m2 (a + 1) := by
  unfold rd16 at h1 h2
  have := rd_lt m1 a
  have := rd_lt m1 (a + 1)
  have := rd_lt m2 a
  have := rd_lt m2 (a + 1)
  constructor <;> omega

/-- A name with one dot added at its end is well formed exactly when the name is. -/
theorem wellFormed_append_dot (NameMax : Nat) (h : List Nat)
    (hl : h.getLast? ≠ some dotChar) :
    WellFormed NameMax (h ++ [dotChar]) ↔ WellFormed NameMax h := by
  unfold WellFormed
  rw [labelsOf_append_dot h hl]
  constructor
  · rintro ⟨-, h2, h3⟩
    refine ⟨?_, h2, h3⟩
    intro h0
    subst h0
    have := (h2 [] (by decide)).1
    simp at this
  · rintro ⟨-, h2, h3⟩
    exact ⟨by simp, h2, h3⟩

/-- A name with one trailing dot gets the same return value from `Control::a` as the
name without it gets when no suffix is applied to that name, and on success the same
bytes in the buffer. -/
theorem a_trailing_dot (NameMax : Nat) (s1 s2 : List Nat) (q : Mem) (id : Nat)
    (h : List Nat) (hh : IsCStr h) (hs1 : IsCStr s1) (hs2 : IsCStr s2)
    (hl : h.getLast? ≠ some dotChar) (hns : dotChar ∈ h ∨ s2 = []) :
    (Control.a NameMax s1 q id (h ++ [dotChar])).1 = (Control.a NameMax s2 q id h).1
      ∧ (0 < (Control.a NameMax s2 q id h).1 →
          ∀ x, rd (Control.a NameMax s1 q id (h ++ [dotChar])).2 x
            = rd (Control.a NameMax s2 q id h).2 x) := by
  have hh1 : IsCStr (h ++ [dotChar]) := by
    intro c hc
    rcases List.mem_append.mp hc with h1 | h1
    · exact hh c h1
    · rw [List.mem_singleton.mp h1]; decide
  have E1 : effectiveName s1 (h ++ [dotChar]) = h ++ [dotChar] := by
    unfold effectiveName
    rw [if_pos (Or.inl (by simp))]
  have E2 : effectiveName s2 h = h := by
    unfold effectiveName
    rw [if_pos hns]
  by_cases hw : WellFormed NameMax h
  · have hw1 := (wellFormed_append_dot NameMax h hl).mpr hw
    obtain ⟨qa, ea, la, za, ta, ca, hda, fa⟩ := a_ok NameMax s1 q id (h ++ [dotChar]) hh1 hs1
      (by rw [E1]; exact hw1)
    obtain ⟨qb, eb, lb, zb, tb, cb, hdb, fb⟩ := a_ok NameMax s2 q id h hh hs2
      (by rw [E2]; exact hw)
    rw [E1, labelsOf_append_dot h hl] at ea la za ta ca fa
    rw [E2] at eb lb zb tb cb fb
    rw [ea, eb]
    refine ⟨rfl, ?_⟩
    intro _ x
    dsimp only
    by_cases hx1 : x < 12
    · rw [hda x hx1, hdb x hx1]
    · by_cases hx2 : x < 12 + encLen (labelsOf h)
      · exact labelsAt_rd_eq qa qb _ 12 la lb x (by omega) hx2
      · by_cases hx3 : 12 + encLen (labelsOf h) + 5 ≤ x
        · rw [fa x hx3, fb x hx3]
        · have t := rd16_bytes_eq qa qb _ _ ta tb
          have c := rd16_bytes_eq qa qb _ _ ca cb
          have hcases : x = 12 + encLen (labelsOf h) ∨ x = 12 + encLen (labelsOf h) + 1
              ∨ x = 12 + encLen (labelsOf h) + 1 + 1 ∨ x = 12 + encLen (labelsOf h) + 3
              ∨ x = 12 + encLen (labelsOf h) + 3 + 1 := by omega
          rcases hcases with e | e | e | e | e
          · rw [e, za, zb]
          · rw [e]; exact t.1
          · rw [e]; exact t.2
          · rw [e]; exact c.1
          · rw [e]; exact c.2
  · have hw1 : ¬ WellFormed NameMax (h ++ [dotChar]) :=
      fun hc => hw ((wellFormed_append_dot NameMax h hl).mp hc)
    have fa := a_fail NameMax s1 q id (h ++ [dotChar]) hh1 hs1 (by rw [E1]; exact hw1)
    have fb := a_fail NameMax s2 q id h hh hs2 (by rw [E2]; exact hw)
    rw [fa, fb]
    exact ⟨rfl, fun h0 => absurd h0 (Nat.lt_irrefl 0)⟩

/-- C32, as stated, fails: with the suffix `b` configured the name `a.`, with its
single trailing dot, is encoded in 19 bytes, and the name `a` without it, to which the
suffix is applied, in 21 bytes. -/
theorem trailing_dot_differs_with_suffix :
    ¬ ((Control.a 255 [98] (fun _ => 0) 1 [97, 46]).1
        = (Control.a 255 [98] (fun _ => 0) 1 [97]).1) := by
  decide

/-- C32, amended: for every host name that contains a `.`, one whose only dot is a
trailing dot included, `Control::a` writes the same bytes and returns the same length
whatever suffix is configured; and a name with a single trailing dot gets the same
return value and, on success, the same bytes as the name without it gets when no suffix
is applied to that name, that is, when it contains a dot or no suffix is configured. -/
theorem suffix_only_bare_names (NameMax : Nat) (s1 s2 : List Nat) (q : Mem) (id : Nat)
    (h : List Nat) (hh : IsCStr h) (hs1 : IsCStr s1) (hs2 : IsCStr s2) :
    (dotChar ∈ h → Control.a NameMax s1 q id h = Control.a NameMax s2 q id h)
      ∧ (h.getLast? ≠ some dotChar → dotChar ∈ h ∨ s2 = [] →
          (Control.a NameMax s1 q id (h ++ [dotChar])).1 = (Control.a NameMax s2 q id h).1
            ∧ (0 < (Control.a NameMax s2 q id h).1 →
                ∀ x, rd (Control.a NameMax s1 q id (h ++ [dotChar])).2 x
                  = rd (Control.a NameMax s2 q id h).2 x)) :=
  ⟨a_dotted NameMax s1 s2 q id h hh hs1 hs2,
    a_trailing_dot NameMax s1 s2 q id h hh hs1 hs2⟩

/-- C32, amended, at concrete inputs: `host.` is encoded in the same way with the
suffix `example.com` and with none, and with the suffix it gets the same length as
`host` gets with no suffix. -/
theorem suffix_only_bare_names_witness :
    Control.a 255 exampleCom (fun _ => 0) 1 [104, 111, 115, 116, 46]
        = Control.a 255 [] (fun _ => 0) 1 [104, 111, 115, 116, 46]
      ∧ (Control.a 255 exampleCom (fun _ => 0) 1 ([104, 111, 115, 116] ++ [dotChar])).1
        = (Control.a 255 [] (fun _ => 0) 1 [104, 111, 115, 116]).1 :=
  ⟨(suffix_only_bare_names 255 exampleCom [] (fun _ => 0) 1 [104, 111, 115, 116, 46]
      (by decide) (by decide) (by decide)).1 (by decide),
    ((suffix_only_bare_names 255 exampleCom [] (fun _ => 0) 1 [104, 111, 115, 116]
      (by decide) (by decide) (by decide)).2 (by decide) (Or.inr rfl)).1⟩

end Resolver
